import Mathlib

/-!
# leptjson (tutorial02): parser for `null`, `true`, `false` and numbers

A shallow embedding of `src/tutorial02/leptjson.c`.

* A `const char*` into the NUL-terminated input is the list of characters from
  the pointed-at position up to (not including) the terminator; reading at or
  past the end of that list yields the terminator `'\0'`.  Advancing a pointer
  drops characters from the front.
* `assert` failures are modelled by `none`.
* `strtod`, `errno` and `ERANGE` belong to the C library, not to this
  repository; they are a parameter (`Libc`) of the embedding, and `errno` is
  threaded through explicitly.
-/

namespace Leptjson

/-! ## Data model -/

/-- An IEEE-754 binary64 datum, given by its sign bit, its biased exponent
(`0 .. 2047`) and its 52-bit fraction field. -/
structure Double where
  sign : Bool
  exponent : Nat
  fraction : Nat
deriving DecidableEq, Repr

namespace Double

/-- Not-a-number: all exponent bits set, non-zero fraction. -/
def isNaN (x : Double) : Bool := x.exponent == 2047 && x.fraction != 0

/-- Positive or negative zero. -/
def isZero (x : Double) : Bool := x.exponent == 0 && x.fraction == 0

/-- Unary minus of C: flips the sign bit. -/
def neg (x : Double) : Double := { x with sign := !x.sign }

/-- The `==` of C on doubles: a NaN equals nothing, the two zeros are equal,
otherwise the data are compared field by field. -/
def ceq (x y : Double) : Bool :=
  !x.isNaN && !y.isNaN && ((x.isZero && y.isZero) || decide (x = y))

end Double

/-- The macro `HUGE_VAL` of `math.h`: positive infinity for binary64. -/
def HUGE_VAL : Double := ⟨false, 2047, 0⟩

/-- The part of the C library the parser uses.  `strtod nptr errno` is the call
`strtod(nptr, NULL)` made when `errno` holds the given value: it returns the
converted double and the value `errno` holds after the call. -/
structure Libc where
  ERANGE : Int
  strtod : List Char → Int → Double × Int

/-- Modelled from the spec: the enum `lept_type` of `leptjson.h`, which is not
among the sources; the spec's tags are Null, True, False and Number. -/
inductive lept_type where
  | LEPT_NULL
  | LEPT_FALSE
  | LEPT_TRUE
  | LEPT_NUMBER
deriving DecidableEq, Repr

/-- Modelled from the spec: the result codes of `leptjson.h`, which is not
among the sources; the spec's codes are Ok, ExpectValue, InvalidValue,
RootNotSingular and NumberTooBig. -/
inductive lept_parse_code where
  | LEPT_PARSE_OK
  | LEPT_PARSE_EXPECT_VALUE
  | LEPT_PARSE_INVALID_VALUE
  | LEPT_PARSE_ROOT_NOT_SINGULAR
  | LEPT_PARSE_NUMBER_TOO_BIG
deriving DecidableEq, Repr

open lept_type lept_parse_code

/-- Modelled from the spec: the struct `lept_value` of `leptjson.h`, which is
not among the sources; the source uses its fields `n` (the double payload) and
`type` (the tag). -/
structure lept_value where
  n : Double
  type : lept_type
deriving DecidableEq, Repr

/-- The struct `lept_context`: the cursor into the input text. -/
structure lept_context where
  json : List Char
deriving DecidableEq, Repr

/-! ## The code -/

/-- The character a `const char*` points at: the head of the remaining text, or
the terminator when nothing remains. -/
def deref (p : List Char) : Char := p.headD '\x00'

/-- The indexed read `p[i]`. -/
def index (p : List Char) (i : Nat) : Char := p.getD i '\x00'

/-- The macro `ISDIGIT`. -/
def ISDIGIT (ch : Char) : Bool := decide (ch ≥ '0') && decide (ch ≤ '9')

/-- The macro `ISDIGIT1TO9`. -/
def ISDIGIT1TO9 (ch : Char) : Bool := decide (ch ≥ '1') && decide (ch ≤ '9')

/-- The loop of `lept_parse_whitespace`, on the local pointer `p`. -/
def lept_parse_whitespace_loop : List Char → List Char
  | [] => []
  | ch :: p =>
    if ch == ' ' || ch == '\t' || ch == '\n' || ch == '\r' then
      lept_parse_whitespace_loop p
    else ch :: p

/-- The function `lept_parse_whitespace`. -/
def lept_parse_whitespace (c : lept_context) : lept_context :=
  { json := lept_parse_whitespace_loop c.json }

/-- The `for` loop of `lept_parse_literal`: the first argument is `c->json`,
the second the part of `literal` from index `i + 1` on, the third `i`.  It
returns the final `i`, or `none` when the loop body returns
`LEPT_PARSE_INVALID_VALUE`. -/
def lept_parse_literal_loop (json : List Char) : List Char → Nat → Option Nat
  | [], i => some i
  | l :: ls, i =>
    if index json i != l then none
    else lept_parse_literal_loop json ls (i + 1)

/-- The function `lept_parse_literal`; `none` is a failure of the assertion
in `EXPECT`. -/
def lept_parse_literal (c : lept_context) (v : lept_value) (literal : List Char)
    (type : lept_type) : Option (lept_parse_code × lept_context × lept_value) :=
  if deref c.json != deref literal then none
  else
    let c1 : lept_context := { json := c.json.tail }
    match lept_parse_literal_loop c1.json literal.tail 0 with
    | none => some (LEPT_PARSE_INVALID_VALUE, c1, v)
    | some i => some (LEPT_PARSE_OK, { json := c1.json.drop i }, { v with type := type })

/-- The `switch (state)` of `lept_parse_number`: the next state on reading
`ch`, or the code the switch returns with. -/
def lept_parse_number_switch (state : Nat) (ch : Char) : Except lept_parse_code Nat :=
  match state with
  | 1 =>
    if '-' == ch then .ok 2
    else if '0' == ch then .ok 3
    else if ISDIGIT1TO9 ch then .ok 4
    else .error LEPT_PARSE_INVALID_VALUE
  | 2 =>
    if '0' == ch then .ok 3
    else if ISDIGIT1TO9 ch then .ok 4
    else .error LEPT_PARSE_INVALID_VALUE
  | 3 =>
    if '.' == ch then .ok 5
    else if 'e' == ch || 'E' == ch then .ok 7
    else .error LEPT_PARSE_ROOT_NOT_SINGULAR
  | 4 =>
    if '.' == ch then .ok 5
    else if 'e' == ch || 'E' == ch then .ok 7
    else if ISDIGIT ch then .ok 4
    else .error LEPT_PARSE_INVALID_VALUE
  | 5 =>
    if ISDIGIT ch then .ok 6
    else .error LEPT_PARSE_INVALID_VALUE
  | 6 =>
    if 'e' == ch || 'E' == ch then .ok 7
    else if ISDIGIT ch then .ok 6
    else .error LEPT_PARSE_INVALID_VALUE
  | 7 =>
    if '-' == ch || '+' == ch then .ok 8
    else if ISDIGIT ch then .ok 9
    else .error LEPT_PARSE_INVALID_VALUE
  | 8 =>
    if ISDIGIT ch then .ok 9
    else .error LEPT_PARSE_INVALID_VALUE
  | 9 =>
    if ISDIGIT ch then .ok 9
    else .error LEPT_PARSE_INVALID_VALUE
  | _ => .error LEPT_PARSE_INVALID_VALUE

/-- The `while (1)` loop of `lept_parse_number` on `state` and the local
pointer `p`: the state and pointer at the `break`, or the code returned from
inside the loop. -/
def lept_parse_number_loop : Nat → List Char → Except lept_parse_code (Nat × List Char)
  | state, [] => .ok (state, [])
  | state, ch :: p =>
    if ch == '\x00' || ch == ' ' || ch == '\t' || ch == '\n' || ch == '\r' then
      .ok (state, ch :: p)
    else
      match lept_parse_number_switch state ch with
      | .error code => .error code
      | .ok state1 => lept_parse_number_loop state1 p

/-- The function `lept_parse_number`, with `errno` before and after. -/
def lept_parse_number (L : Libc) (errno : Int) (c : lept_context) (v : lept_value) :
    lept_parse_code × lept_context × lept_value × Int :=
  match lept_parse_number_loop 1 c.json with
  | .error code => (code, c, v, errno)
  | .ok (state, p) =>
    if 1 == state || 2 == state || 5 == state || 7 == state || 8 == state then
      (LEPT_PARSE_INVALID_VALUE, c, v, errno)
    else
      let r := L.strtod c.json errno
      let v1 : lept_value := { v with n := r.1 }
      if r.2 == L.ERANGE && (HUGE_VAL.ceq v1.n || HUGE_VAL.neg.ceq v1.n) then
        (LEPT_PARSE_NUMBER_TOO_BIG, c, v1, r.2)
      else
        (LEPT_PARSE_OK, { json := p }, { v1 with type := LEPT_NUMBER }, r.2)

/-- The function `lept_parse_value`; `none` is an assertion failure in
`lept_parse_literal`. -/
def lept_parse_value (L : Libc) (errno : Int) (c : lept_context) (v : lept_value) :
    Option (lept_parse_code × lept_context × lept_value × Int) :=
  if deref c.json == 't' then
    (lept_parse_literal c v ['t', 'r', 'u', 'e'] LEPT_TRUE).map
      fun r => (r.1, r.2.1, r.2.2, errno)
  else if deref c.json == 'f' then
    (lept_parse_literal c v ['f', 'a', 'l', 's', 'e'] LEPT_FALSE).map
      fun r => (r.1, r.2.1, r.2.2, errno)
  else if deref c.json == 'n' then
    (lept_parse_literal c v ['n', 'u', 'l', 'l'] LEPT_NULL).map
      fun r => (r.1, r.2.1, r.2.2, errno)
  else if deref c.json == '\x00' then
    some (LEPT_PARSE_EXPECT_VALUE, c, v, errno)
  else
    some (lept_parse_number L errno c v)

/-- The function `lept_parse`: the code returned, the value `*v` after the
call and `errno` after the call, from `errno` and `*v` before the call and the
text `json`; `none` is an assertion failure. -/
def lept_parse (L : Libc) (errno : Int) (v : lept_value) (json : List Char) :
    Option (lept_parse_code × lept_value × Int) :=
  let c : lept_context := { json := json }
  let v0 : lept_value := { v with type := LEPT_NULL }
  let c1 := lept_parse_whitespace c
  match lept_parse_value L errno c1 v0 with
  | none => none
  | some (ret, c2, v1, errno1) =>
    if ret = LEPT_PARSE_OK then
      let c3 := lept_parse_whitespace c2
      if deref c3.json != '\x00' then
        some (LEPT_PARSE_ROOT_NOT_SINGULAR, { v1 with type := LEPT_NULL }, errno1)
      else some (ret, v1, errno1)
    else some (ret, v1, errno1)

/-- The function `lept_get_type`. -/
def lept_get_type (v : lept_value) : lept_type := v.type

/-- The function `lept_get_number`; `none` is a failure of its assertion. -/
def lept_get_number (v : lept_value) : Option Double :=
  if v.type = LEPT_NUMBER then some v.n else none

/-! ## The characters the code reads

The same functions once more, returning only the offsets of the characters of
the input they read (each `*p`, `*c->json` and `c->json[i]` of the source), in
order.  Offsets count from the pointer the function is given; those of
`lept_parse_reads` count from the start of the text.  The reads the library
makes inside `strtod` are not listed. -/

/-- The offsets `lept_parse_whitespace` reads: `*p` in each test of the
`while`. -/
def lept_parse_whitespace_reads : List Char → List Nat
  | [] => [0]
  | ch :: p =>
    0 :: (if ch == ' ' || ch == '\t' || ch == '\n' || ch == '\r' then
      (lept_parse_whitespace_reads p).map (· + 1)
    else [])

/-- The offsets the `for` loop of `lept_parse_literal` reads: `c->json[i]` in
each run of the body. -/
def lept_parse_literal_loop_reads (json : List Char) : List Char → Nat → List Nat
  | [], _ => []
  | l :: ls, i =>
    i :: (if index json i != l then []
      else lept_parse_literal_loop_reads json ls (i + 1))

/-- The offsets `lept_parse_literal` reads: `*c->json` in `EXPECT`, then those
of the loop, which start one character further. -/
def lept_parse_literal_reads (c : lept_context) (literal : List Char) : List Nat :=
  0 :: (if deref c.json != deref literal then []
    else (lept_parse_literal_loop_reads c.json.tail literal.tail 0).map (· + 1))

/-- The offsets the loop of `lept_parse_number` reads: `*p` in the test for
the `break` and in the `switch`. -/
def lept_parse_number_reads : Nat → List Char → List Nat
  | _, [] => [0]
  | state, ch :: p =>
    0 :: (if ch == '\x00' || ch == ' ' || ch == '\t' || ch == '\n' || ch == '\r' then []
      else
        match lept_parse_number_switch state ch with
        | .error _ => []
        | .ok state1 => (lept_parse_number_reads state1 p).map (· + 1))

/-- The offsets `lept_parse_value` reads: `*c->json` in the `switch`, then
those of the function it calls. -/
def lept_parse_value_reads (c : lept_context) : List Nat :=
  0 :: (if deref c.json == 't' then lept_parse_literal_reads c ['t', 'r', 'u', 'e']
    else if deref c.json == 'f' then lept_parse_literal_reads c ['f', 'a', 'l', 's', 'e']
    else if deref c.json == 'n' then lept_parse_literal_reads c ['n', 'u', 'l', 'l']
    else if deref c.json == '\x00' then []
    else lept_parse_number_reads 1 c.json)

/-- The position of a cursor in the text: the number of characters before
it. -/
def position (json : List Char) (c : lept_context) : Nat := json.length - c.json.length

/-- The offsets, from the start of the text, that `lept_parse` reads: those of
the first `lept_parse_whitespace`, those of `lept_parse_value`, and when that
returns `LEPT_PARSE_OK` those of the second `lept_parse_whitespace` and the
final `*c.json`. -/
def lept_parse_reads (L : Libc) (errno : Int) (v : lept_value) (json : List Char) : List Nat :=
  let c : lept_context := { json := json }
  let v0 : lept_value := { v with type := LEPT_NULL }
  let c1 := lept_parse_whitespace c
  lept_parse_whitespace_reads c.json ++
    (lept_parse_value_reads c1).map (· + position json c1) ++
    match lept_parse_value L errno c1 v0 with
    | none => []
    | some (ret, c2, _, _) =>
      if ret = LEPT_PARSE_OK then
        (lept_parse_whitespace_reads c2.json).map (· + position json c2) ++
          [position json (lept_parse_whitespace c2)]
      else []

/-- The index of the terminator of the C string held in a text: that of its
first NUL, or its length when it holds none. -/
def terminatorIndex : List Char → Nat
  | [] => 0
  | ch :: p => if ch = '\x00' then 0 else terminatorIndex p + 1

/-! ## The vocabulary of the specification -/

/-- A whitespace character of the specification: space, tab, newline or
carriage return. -/
def IsWhitespace (ch : Char) : Prop := ch = ' ' ∨ ch = '\t' ∨ ch = '\n' ∨ ch = '\r'

/-- A (possibly empty) run of whitespace characters. -/
def WhitespaceRun (w : List Char) : Prop := ∀ ch ∈ w, IsWhitespace ch

/-- A text that is a C string's content: it holds no NUL character. -/
def NulFree (s : List Char) : Prop := '\x00' ∉ s

/-- The character class `[0-9]`. -/
def IsDigit (ch : Char) : Prop := ch ∈ ['0', '1', '2', '3', '4', '5', '6', '7', '8', '9']

/-- The character class `[1-9]`. -/
def IsDigit1to9 (ch : Char) : Prop := ch ∈ ['1', '2', '3', '4', '5', '6', '7', '8', '9']

/-- The texts of `[0-9]*`. -/
def Digits (ds : List Char) : Prop := ∀ ch ∈ ds, IsDigit ch

/-- The texts of `-?`. -/
def IsSign (s : List Char) : Prop := s = [] ∨ s = ['-']

/-- The texts of `(0|[1-9][0-9]*)`. -/
def IsInt (s : List Char) : Prop :=
  s = ['0'] ∨ ∃ d ds, s = d :: ds ∧ IsDigit1to9 d ∧ Digits ds

/-- The texts of `\.[0-9]+`. -/
def IsFracPart (s : List Char) : Prop := ∃ ds, s = '.' :: ds ∧ ds ≠ [] ∧ Digits ds

/-- The texts of `(\.[0-9]+)?`. -/
def IsFrac (s : List Char) : Prop := s = [] ∨ IsFracPart s

/-- The texts of `[+-]?`. -/
def IsExpSign (s : List Char) : Prop := s = [] ∨ s = ['+'] ∨ s = ['-']

/-- The texts of `[eE][+-]?[0-9]+`. -/
def IsExpPart (s : List Char) : Prop :=
  ∃ e sg ds, s = e :: (sg ++ ds) ∧ (e = 'e' ∨ e = 'E') ∧ IsExpSign sg ∧ ds ≠ [] ∧ Digits ds

/-- The texts of `([eE][+-]?[0-9]+)?`. -/
def IsExp (s : List Char) : Prop := s = [] ∨ IsExpPart s

/-- The number grammar of the specification,
`-?(0|[1-9][0-9]*)(\.[0-9]+)?([eE][+-]?[0-9]+)?`: a text is a number literal
when it splits into the four parts in order. -/
def JsonNumber (s : List Char) : Prop :=
  ∃ a b c d, s = a ++ (b ++ (c ++ d)) ∧ IsSign a ∧ IsInt b ∧ IsFrac c ∧ IsExp d

/-- A remainder that is empty or begins with a whitespace character. -/
def AtDelimiter (r : List Char) : Prop := r = [] ∨ ∃ ch r1, r = ch :: r1 ∧ IsWhitespace ch

/-- A remainder at which the number scan stops: it is empty, or begins with a
whitespace character or a NUL. -/
def AtTerminator (r : List Char) : Prop :=
  r = [] ∨ ∃ ch r1, r = ch :: r1 ∧ (ch = '\x00' ∨ IsWhitespace ch)

/-- The texts that complete a number literal from a state of the validator:
what may follow the part of a literal the state stands for. -/
def Completes (state : Nat) (u : List Char) : Prop :=
  match state with
  | 1 => JsonNumber u
  | 2 => ∃ b c d, u = b ++ (c ++ d) ∧ IsInt b ∧ IsFrac c ∧ IsExp d
  | 3 => ∃ c d, u = c ++ d ∧ IsFrac c ∧ IsExp d
  | 4 => ∃ ds c d, u = ds ++ (c ++ d) ∧ Digits ds ∧ IsFrac c ∧ IsExp d
  | 5 => ∃ ds d, u = ds ++ d ∧ ds ≠ [] ∧ Digits ds ∧ IsExp d
  | 6 => ∃ ds d, u = ds ++ d ∧ Digits ds ∧ IsExp d
  | 7 => ∃ sg ds, u = sg ++ ds ∧ IsExpSign sg ∧ ds ≠ [] ∧ Digits ds
  | 8 => u ≠ [] ∧ Digits u
  | 9 => Digits u
  | _ => False

/-- The characters a number candidate may stop right after: a minus sign, a
decimal point, an exponent marker `e` or `E`, or an exponent sign (`+` or the
minus sign again). -/
def IsExpectant (ch : Char) : Prop := ch = '-' ∨ ch = '.' ∨ ch = 'e' ∨ ch = 'E' ∨ ch = '+'

/-- A number candidate: characters none of which is whitespace or NUL, the
first of them none of `t`, `f`, `n`, so that `lept_parse_value` hands the text
to `lept_parse_number`. -/
def NumberCandidate (P : List Char) : Prop :=
  (∀ ch ∈ P, ch ≠ '\x00' ∧ ¬ IsWhitespace ch) ∧
    ∃ ch r, P = ch :: r ∧ ch ≠ 't' ∧ ch ≠ 'f' ∧ ch ≠ 'n'

/-- A text whose last character is a minus sign, a decimal point, an exponent
marker or an exponent sign. -/
def EndsExpectant (P : List Char) : Prop := ∃ Q c, P = Q ++ [c] ∧ IsExpectant c

/-- A text that begins with a zero, optionally after a minus sign, immediately
followed by a character other than `.`, `e`, `E`, whitespace or NUL. -/
def LeadingZeroThenText (s : List Char) : Prop :=
  ∃ a ch rest, s = a ++ '0' :: ch :: rest ∧ IsSign a ∧ ch ≠ '.' ∧ ch ≠ 'e' ∧ ch ≠ 'E' ∧
    ch ≠ '\x00' ∧ ¬ IsWhitespace ch

/-- A remainder that begins with a character that is neither whitespace nor
the terminator. -/
def BeginsWithText (r : List Char) : Prop :=
  ∃ ch r1, r = ch :: r1 ∧ ¬ IsWhitespace ch ∧ ch ≠ '\x00'

/-- The test `lept_parse_number` makes after `strtod`, as a property of the
call `strtod(nptr, NULL)` made with `errno` holding the given value: the call
returns plus or minus `HUGE_VAL` and `errno` holds `ERANGE` after it. -/
def StrtodOverflows (L : Libc) (nptr : List Char) (errno : Int) : Prop :=
  (L.strtod nptr errno).2 = L.ERANGE ∧
    (HUGE_VAL.ceq (L.strtod nptr errno).1 = true ∨
      HUGE_VAL.neg.ceq (L.strtod nptr errno).1 = true)

instance (L : Libc) (nptr : List Char) (errno : Int) :
    Decidable (StrtodOverflows L nptr errno) :=
  inferInstanceAs (Decidable (_ ∧ _))

/-- A property of the library's `strtod` that the C standard gives: on a text
that begins with a number literal of the grammar followed by a terminator, the
double it returns does not depend on the value `errno` holds on entry. -/
def StrtodValueIgnoresErrno (L : Libc) : Prop :=
  ∀ V t e1 e2, JsonNumber V → AtTerminator t →
    (L.strtod (V ++ t) e1).1 = (L.strtod (V ++ t) e2).1

/-- A property of the library's `strtod` that the C standard gives: on a text
that begins with a number literal of the grammar followed by a terminator, it
returns plus or minus `HUGE_VAL` only on overflow, and then stores `ERANGE` in
`errno`. -/
def StrtodHugeStoresErange (L : Libc) : Prop :=
  ∀ V t e, JsonNumber V → AtTerminator t →
    (HUGE_VAL.ceq (L.strtod (V ++ t) e).1 = true ∨
      HUGE_VAL.neg.ceq (L.strtod (V ++ t) e).1 = true) →
    (L.strtod (V ++ t) e).2 = L.ERANGE

/-- A property of the library's `strtod` that the C standard gives: it converts
the longest initial part of the text that is a number and ignores the rest, so
what follows a number literal of the grammar from a terminator on does not
change the call. -/
def StrtodStopsAtTerminator (L : Libc) : Prop :=
  ∀ V t1 t2 e, JsonNumber V → AtTerminator t1 → AtTerminator t2 →
    L.strtod (V ++ t1) e = L.strtod (V ++ t2) e

/-! ## A reference C library

A concrete `Libc` for evaluating the parser on concrete texts: `strtod` for
decimal floating constants, correctly rounded to binary64 (to nearest, ties to
even), with `ERANGE` stored on overflow and on inexact subnormal results.  The
hexadecimal, `inf` and `nan` forms of `strtod` are not covered: the validator
never lets such a text reach the conversion. -/

/-- The `isspace` of the C locale. -/
def isspace (ch : Char) : Bool :=
  ch == ' ' || ch == '\t' || ch == '\n' || ch == '\x0b' || ch == '\x0c' || ch == '\r'

/-- The longest run of decimal digits at the front of a text, and the rest. -/
def takeDigits : List Char → List Char × List Char
  | [] => ([], [])
  | ch :: p =>
    if ISDIGIT ch then ((ch :: (takeDigits p).1), (takeDigits p).2) else ([], ch :: p)

/-- The number a run of decimal digits denotes. -/
def natOfDigits (ds : List Char) : Nat :=
  ds.foldl (fun acc ch => 10 * acc + (ch.toNat - 48)) 0

/-- A decimal floating constant: `(-1)^neg * mant * 10^exp10`. -/
structure Decimal where
  neg : Bool
  mant : Nat
  exp10 : Int
deriving DecidableEq, Repr

/-- The value of the optional exponent part `[eE][+-]?[0-9]+` at the front of
a text, `0` when there is none. -/
def scanExponent : List Char → Int
  | e :: '-' :: p =>
    if (e == 'e' || e == 'E') && (takeDigits p).1 != [] then
      - (natOfDigits (takeDigits p).1 : Int)
    else 0
  | e :: '+' :: p =>
    if (e == 'e' || e == 'E') && (takeDigits p).1 != [] then
      (natOfDigits (takeDigits p).1 : Int)
    else 0
  | e :: p =>
    if (e == 'e' || e == 'E') && (takeDigits p).1 != [] then
      (natOfDigits (takeDigits p).1 : Int)
    else 0
  | [] => 0

/-- The mantissa and decimal exponent of the unsigned decimal constant at the
front of a text, `none` when there is none. -/
def scanUnsigned (p : List Char) : Option (Nat × Int) :=
  match (takeDigits p).2 with
  | '.' :: q =>
    if (takeDigits p).1 == [] && (takeDigits q).1 == [] then none
    else some (natOfDigits ((takeDigits p).1 ++ (takeDigits q).1),
      scanExponent (takeDigits q).2 - ((takeDigits q).1.length : Int))
  | rest =>
    if (takeDigits p).1 == [] then none
    else some (natOfDigits (takeDigits p).1, scanExponent rest)

/-- The subject sequence of `strtod` in its decimal form: leading white space,
an optional sign, then the longest decimal floating constant. -/
def scanDecimal (nptr : List Char) : Option Decimal :=
  match nptr.dropWhile isspace with
  | '-' :: p => (scanUnsigned p).map fun r => ⟨true, r.1, r.2⟩
  | '+' :: p => (scanUnsigned p).map fun r => ⟨false, r.1, r.2⟩
  | p => (scanUnsigned p).map fun r => ⟨false, r.1, r.2⟩

/-- The loop that counts the binary digits of `n`; the first argument bounds
the number of iterations. -/
def bitLengthAux : Nat → Nat → Nat
  | 0, _ => 0
  | fuel + 1, n => if n = 0 then 0 else bitLengthAux fuel (n / 2) + 1

/-- The number of binary digits of `n` (`0` for `0`): `n` iterations are more
than enough. -/
def bitLength (n : Nat) : Nat := bitLengthAux n n

/-- The binary64 nearest to `(-1)^neg * a / b` (ties to even), and whether
the conversion is a range error: overflow to infinity, or an inexact result
below the normal range. -/
def roundBinary64 (neg : Bool) (a b : Nat) : Double × Bool :=
  if a = 0 then (⟨neg, 0, 0⟩, false)
  else
    let k0 : Int := (bitLength a : Int) - (bitLength b : Int)
    let k : Int := if a * 2 ^ (-k0).toNat ≥ b * 2 ^ k0.toNat then k0 else k0 - 1
    let e : Int := max k (-1022)
    let s : Int := 52 - e
    let num := a * 2 ^ s.toNat
    let den := b * 2 ^ (-s).toNat
    let q := num / den
    let r := num % den
    let m := if 2 * r > den || (2 * r == den && q % 2 == 1) then q + 1 else q
    let e1 : Int := if m = 2 ^ 53 then e + 1 else e
    let m1 := if m = 2 ^ 53 then 2 ^ 52 else m
    if m1 < 2 ^ 52 then (⟨neg, 0, m1⟩, r != 0)
    else if e1 > 1023 then (⟨neg, 2047, 0⟩, true)
    else (⟨neg, (e1 + 1023).toNat, m1 - 2 ^ 52⟩, false)

/-- The binary64 a decimal constant converts to, and the range-error flag. -/
def Decimal.toDouble (d : Decimal) : Double × Bool :=
  roundBinary64 d.neg (d.mant * 10 ^ d.exp10.toNat) (10 ^ (-d.exp10).toNat)

/-- The reference `strtod`: no conversion gives zero and leaves `errno`
alone; a range error stores `ERANGE` (34). -/
def strtod_ref (nptr : List Char) (errno : Int) : Double × Int :=
  match scanDecimal nptr with
  | none => (⟨false, 0, 0⟩, errno)
  | some d => (d.toDouble.1, if d.toDouble.2 then 34 else errno)

/-- The reference C library. -/
def libc_ref : Libc := { ERANGE := 34, strtod := strtod_ref }

/-! ## Characters -/

theorem char_eq_iff_toNat (a b : Char) : a = b ↔ a.toNat = b.toNat := by
  constructor
  · rintro rfl; rfl
  · intro h
    apply Char.ext
    apply UInt32.ext
    exact h

theorem char_le_iff_toNat (a b : Char) : a ≤ b ↔ a.toNat ≤ b.toNat := Iff.rfl

theorem ISDIGIT_iff (ch : Char) : ISDIGIT ch = true ↔ IsDigit ch := by
  constructor
  · intro h
    simp only [ISDIGIT, Bool.and_eq_true, decide_eq_true_eq, ge_iff_le, char_le_iff_toNat] at h
    have h1 : ('0' : Char).toNat = 48 := rfl
    have h2 : ('9' : Char).toNat = 57 := rfl
    rw [h1, h2] at h
    obtain ⟨ha, hb⟩ := h
    simp only [IsDigit, List.mem_cons, char_eq_iff_toNat]
    have : ch.toNat = 48 ∨ ch.toNat = 49 ∨ ch.toNat = 50 ∨ ch.toNat = 51 ∨ ch.toNat = 52 ∨
        ch.toNat = 53 ∨ ch.toNat = 54 ∨ ch.toNat = 55 ∨ ch.toNat = 56 ∨ ch.toNat = 57 := by
      omega
    simpa using this
  · intro h
    simp only [IsDigit, List.mem_cons, List.not_mem_nil, or_false] at h
    rcases h with rfl | rfl | rfl | rfl | rfl | rfl | rfl | rfl | rfl | rfl <;> rfl

theorem ISDIGIT1TO9_iff (ch : Char) : ISDIGIT1TO9 ch = true ↔ IsDigit1to9 ch := by
  constructor
  · intro h
    simp only [ISDIGIT1TO9, Bool.and_eq_true, decide_eq_true_eq, ge_iff_le,
      char_le_iff_toNat] at h
    have h1 : ('1' : Char).toNat = 49 := rfl
    have h2 : ('9' : Char).toNat = 57 := rfl
    rw [h1, h2] at h
    obtain ⟨ha, hb⟩ := h
    simp only [IsDigit1to9, List.mem_cons, char_eq_iff_toNat]
    have : ch.toNat = 49 ∨ ch.toNat = 50 ∨ ch.toNat = 51 ∨ ch.toNat = 52 ∨
        ch.toNat = 53 ∨ ch.toNat = 54 ∨ ch.toNat = 55 ∨ ch.toNat = 56 ∨ ch.toNat = 57 := by
      omega
    simpa using this
  · intro h
    simp only [IsDigit1to9, List.mem_cons, List.not_mem_nil, or_false] at h
    rcases h with rfl | rfl | rfl | rfl | rfl | rfl | rfl | rfl | rfl <;> rfl

theorem IsDigit1to9.isDigit {ch : Char} (h : IsDigit1to9 ch) : IsDigit ch := by
  simp only [IsDigit1to9, List.mem_cons, List.not_mem_nil, or_false] at h
  simp only [IsDigit, List.mem_cons, List.not_mem_nil, or_false]
  tauto

/-- The break test of the number loop. -/
theorem IsDigit.not_terminator {ch : Char} (h : IsDigit ch) :
    (ch == '\x00' || ch == ' ' || ch == '\t' || ch == '\n' || ch == '\r') = false := by
  simp only [IsDigit, List.mem_cons, List.not_mem_nil, or_false] at h
  rcases h with rfl | rfl | rfl | rfl | rfl | rfl | rfl | rfl | rfl | rfl <;> rfl

theorem IsDigit.switch_digit {ch : Char} (h : IsDigit ch) :
    lept_parse_number_switch 4 ch = .ok 4 ∧ lept_parse_number_switch 5 ch = .ok 6 ∧
    lept_parse_number_switch 6 ch = .ok 6 ∧ lept_parse_number_switch 7 ch = .ok 9 ∧
    lept_parse_number_switch 8 ch = .ok 9 ∧ lept_parse_number_switch 9 ch = .ok 9 := by
  simp only [IsDigit, List.mem_cons, List.not_mem_nil, or_false] at h
  rcases h with rfl | rfl | rfl | rfl | rfl | rfl | rfl | rfl | rfl | rfl <;>
    exact ⟨rfl, rfl, rfl, rfl, rfl, rfl⟩

theorem IsDigit1to9.switch_start {ch : Char} (h : IsDigit1to9 ch) :
    lept_parse_number_switch 1 ch = .ok 4 ∧ lept_parse_number_switch 2 ch = .ok 4 := by
  simp only [IsDigit1to9, List.mem_cons, List.not_mem_nil, or_false] at h
  rcases h with rfl | rfl | rfl | rfl | rfl | rfl | rfl | rfl | rfl <;>
    exact ⟨rfl, rfl⟩

/-! ## The number loop accepts the grammar -/

theorem number_loop_step {st st1 : Nat} {ch : Char} (p : List Char)
    (hterm : (ch == '\x00' || ch == ' ' || ch == '\t' || ch == '\n' || ch == '\r') = false)
    (hsw : lept_parse_number_switch st ch = .ok st1) :
    lept_parse_number_loop st (ch :: p) = lept_parse_number_loop st1 p := by
  rw [lept_parse_number_loop, hterm, hsw]
  simp

theorem number_loop_digits {st : Nat} (hst : st = 4 ∨ st = 6 ∨ st = 9) :
    ∀ (ds t : List Char), Digits ds →
      lept_parse_number_loop st (ds ++ t) = lept_parse_number_loop st t
  | [], t, _ => rfl
  | ch :: ds, t, h => by
    have hd : IsDigit ch := h ch (List.mem_cons_self _ _)
    have hds : Digits ds := fun x hx => h x (List.mem_cons_of_mem _ hx)
    have hsw : lept_parse_number_switch st ch = .ok st := by
      rcases hst with rfl | rfl | rfl
      · exact hd.switch_digit.1
      · exact hd.switch_digit.2.2.1
      · exact hd.switch_digit.2.2.2.2.2
    rw [List.cons_append, number_loop_step _ hd.not_terminator hsw]
    exact number_loop_digits hst ds t hds

theorem IsWhitespace.beq {ch : Char} (h : IsWhitespace ch) :
    (ch == ' ' || ch == '\t' || ch == '\n' || ch == '\r') = true := by
  rcases h with rfl | rfl | rfl | rfl <;> rfl

theorem isWhitespace_iff_beq (ch : Char) :
    (ch == ' ' || ch == '\t' || ch == '\n' || ch == '\r') = true ↔ IsWhitespace ch := by
  simp [IsWhitespace, or_assoc]

theorem AtDelimiter.atTerminator {r : List Char} (h : AtDelimiter r) : AtTerminator r := by
  rcases h with rfl | ⟨ch, r1, rfl, hw⟩
  · exact Or.inl rfl
  · exact Or.inr ⟨ch, r1, rfl, Or.inr hw⟩

theorem number_loop_stop (st : Nat) {t : List Char} (h : AtTerminator t) :
    lept_parse_number_loop st t = .ok (st, t) := by
  rcases h with rfl | ⟨ch, r1, rfl, h0 | hw⟩
  · rfl
  · subst h0
    rfl
  · rcases hw with rfl | rfl | rfl | rfl <;> rfl

theorem Digits.tail {ch : Char} {ds : List Char} (h : Digits (ch :: ds)) : Digits ds :=
  fun x hx => h x (List.mem_cons_of_mem _ hx)

theorem Digits.head_isDigit {ch : Char} {ds : List Char} (h : Digits (ch :: ds)) : IsDigit ch :=
  h ch (List.mem_cons_self _ _)

/-- From the states after the integer or fraction part, an exponent part leads
to state 9. -/
theorem number_loop_expPart {st : Nat} (hst : st = 3 ∨ st = 4 ∨ st = 6) {d : List Char}
    (hd : IsExpPart d) (t : List Char) :
    lept_parse_number_loop st (d ++ t) = lept_parse_number_loop 9 t := by
  obtain ⟨e, sg, ds, rfl, he, hsg, hne, hds⟩ := hd
  obtain ⟨x, ds, rfl⟩ := List.exists_cons_of_ne_nil hne
  have h7 : lept_parse_number_loop st (e :: (sg ++ x :: ds) ++ t)
      = lept_parse_number_loop 7 ((sg ++ x :: ds) ++ t) := by
    rw [List.cons_append]
    rcases he with rfl | rfl <;> rcases hst with rfl | rfl | rfl <;> rfl
  rw [h7]
  have h9 : lept_parse_number_loop 9 ((x :: ds) ++ t) = lept_parse_number_loop 9 t :=
    number_loop_digits (Or.inr (Or.inr rfl)) _ t hds
  rcases hsg with rfl | rfl | rfl
  · rw [List.nil_append, List.cons_append,
      number_loop_step _ hds.head_isDigit.not_terminator hds.head_isDigit.switch_digit.2.2.2.1]
    exact number_loop_digits (Or.inr (Or.inr rfl)) _ t hds.tail
  · have h8 : lept_parse_number_loop 7 (['+'] ++ x :: ds ++ t)
        = lept_parse_number_loop 8 (x :: ds ++ t) := rfl
    rw [h8, List.cons_append,
      number_loop_step _ hds.head_isDigit.not_terminator hds.head_isDigit.switch_digit.2.2.2.2.1]
    exact number_loop_digits (Or.inr (Or.inr rfl)) _ t hds.tail
  · have h8 : lept_parse_number_loop 7 (['-'] ++ x :: ds ++ t)
        = lept_parse_number_loop 8 (x :: ds ++ t) := rfl
    rw [h8, List.cons_append,
      number_loop_step _ hds.head_isDigit.not_terminator hds.head_isDigit.switch_digit.2.2.2.2.1]
    exact number_loop_digits (Or.inr (Or.inr rfl)) _ t hds.tail

/-- From the states after the integer part, a fraction part leads to state 6. -/
theorem number_loop_fracPart {st : Nat} (hst : st = 3 ∨ st = 4) {c : List Char}
    (hc : IsFracPart c) (t : List Char) :
    lept_parse_number_loop st (c ++ t) = lept_parse_number_loop 6 t := by
  obtain ⟨ds, rfl, hne, hds⟩ := hc
  obtain ⟨x, ds, rfl⟩ := List.exists_cons_of_ne_nil hne
  have h5 : lept_parse_number_loop st ('.' :: x :: ds ++ t)
      = lept_parse_number_loop 5 (x :: ds ++ t) := by
    rcases hst with rfl | rfl <;> rfl
  rw [h5, List.cons_append,
    number_loop_step _ hds.head_isDigit.not_terminator hds.head_isDigit.switch_digit.2.1]
  exact number_loop_digits (Or.inr (Or.inl rfl)) _ t hds.tail

/-- From the start state or the state after the sign, an integer part leads to
state 3 or 4. -/
theorem number_loop_int {st : Nat} (hst : st = 1 ∨ st = 2) {b : List Char} (hb : IsInt b) :
    ∃ st1, (st1 = 3 ∨ st1 = 4) ∧
      ∀ t, lept_parse_number_loop st (b ++ t) = lept_parse_number_loop st1 t := by
  rcases hb with rfl | ⟨d, ds, rfl, hd, hds⟩
  · refine ⟨3, Or.inl rfl, fun t => ?_⟩
    rcases hst with rfl | rfl <;> rfl
  · refine ⟨4, Or.inr rfl, fun t => ?_⟩
    have hsw : lept_parse_number_switch st d = .ok 4 := by
      rcases hst with rfl | rfl
      · exact hd.switch_start.1
      · exact hd.switch_start.2
    rw [List.cons_append, number_loop_step _ hd.isDigit.not_terminator hsw]
    exact number_loop_digits (Or.inl rfl) ds t hds

theorem number_loop_sign {a : List Char} (ha : IsSign a) :
    ∃ st, (st = 1 ∨ st = 2) ∧
      ∀ t, lept_parse_number_loop 1 (a ++ t) = lept_parse_number_loop st t := by
  rcases ha with rfl | rfl
  · exact ⟨1, Or.inl rfl, fun t => rfl⟩
  · exact ⟨2, Or.inr rfl, fun t => rfl⟩

/-- The scan of a grammar-valid literal followed by a terminator stops at the
terminator in an accepting state. -/
theorem number_loop_of_jsonNumber {V t : List Char} (hV : JsonNumber V) (ht : AtTerminator t) :
    ∃ st, (st = 3 ∨ st = 4 ∨ st = 6 ∨ st = 9) ∧
      lept_parse_number_loop 1 (V ++ t) = .ok (st, t) := by
  obtain ⟨a, b, c, d, rfl, ha, hb, hc, hd⟩ := hV
  obtain ⟨s1, hs1, e1⟩ := number_loop_sign ha
  obtain ⟨s2, hs2, e2⟩ := number_loop_int hs1 hb
  simp only [List.append_assoc]
  rw [e1, e2]
  rcases hc with rfl | hc
  · rcases hd with rfl | hd
    · refine ⟨s2, ?_, ?_⟩
      · rcases hs2 with h | h <;> simp [h]
      · simpa using number_loop_stop s2 ht
    · refine ⟨9, by simp, ?_⟩
      rw [List.nil_append, number_loop_expPart (by tauto) hd, number_loop_stop 9 ht]
  · rw [number_loop_fracPart hs2 hc]
    rcases hd with rfl | hd
    · exact ⟨6, by simp, by simpa using number_loop_stop 6 ht⟩
    · refine ⟨9, by simp, ?_⟩
      rw [number_loop_expPart (by tauto) hd, number_loop_stop 9 ht]

/-! ## The number loop accepts only the grammar -/

theorem Digits.nil : Digits [] := fun _ h => absurd h (List.not_mem_nil _)

theorem Digits.cons {ch : Char} {ds : List Char} (h : IsDigit ch) (hds : Digits ds) :
    Digits (ch :: ds) := by
  intro x hx
  rcases List.mem_cons.1 hx with rfl | hx
  · exact h
  · exact hds x hx

/-- One transition of the validator, read backwards: if `u` completes a
literal from the next state, `ch :: u` completes one from the current state. -/
theorem completes_step {st st1 : Nat} {ch : Char} {u : List Char}
    (hsw : lept_parse_number_switch st ch = .ok st1) (hu : Completes st1 u) :
    Completes st (ch :: u) := by
  unfold lept_parse_number_switch at hsw
  split at hsw
  · -- state 1
    split_ifs at hsw with h1 h2 h3
    · cases hsw
      obtain ⟨b, c, d, rfl, hb, hc, hd⟩ := hu
      have : ch = '-' := (beq_iff_eq.1 h1).symm
      subst this
      exact ⟨['-'], b, c, d, rfl, Or.inr rfl, hb, hc, hd⟩
    · cases hsw
      obtain ⟨c, d, rfl, hc, hd⟩ := hu
      have : ch = '0' := (beq_iff_eq.1 h2).symm
      subst this
      exact ⟨[], ['0'], c, d, rfl, Or.inl rfl, Or.inl rfl, hc, hd⟩
    · cases hsw
      obtain ⟨ds, c, d, rfl, hds, hc, hd⟩ := hu
      exact ⟨[], ch :: ds, c, d, rfl, Or.inl rfl,
        Or.inr ⟨ch, ds, rfl, (ISDIGIT1TO9_iff ch).1 h3, hds⟩, hc, hd⟩
  · -- state 2
    split_ifs at hsw with h2 h3
    · cases hsw
      obtain ⟨c, d, rfl, hc, hd⟩ := hu
      have : ch = '0' := (beq_iff_eq.1 h2).symm
      subst this
      exact ⟨['0'], c, d, rfl, Or.inl rfl, hc, hd⟩
    · cases hsw
      obtain ⟨ds, c, d, rfl, hds, hc, hd⟩ := hu
      exact ⟨ch :: ds, c, d, rfl, Or.inr ⟨ch, ds, rfl, (ISDIGIT1TO9_iff ch).1 h3, hds⟩, hc, hd⟩
  · -- state 3
    split_ifs at hsw with h1 h2
    · cases hsw
      obtain ⟨ds, d, rfl, hne, hds, hd⟩ := hu
      have : ch = '.' := (beq_iff_eq.1 h1).symm
      subst this
      exact ⟨'.' :: ds, d, rfl, Or.inr ⟨ds, rfl, hne, hds⟩, hd⟩
    · cases hsw
      obtain ⟨sg, ds, rfl, hsg, hne, hds⟩ := hu
      have he : ch = 'e' ∨ ch = 'E' := by
        simp only [Bool.or_eq_true, beq_iff_eq] at h2
        exact h2.imp Eq.symm Eq.symm
      exact ⟨[], ch :: (sg ++ ds), rfl, Or.inl rfl, Or.inr ⟨ch, sg, ds, rfl, he, hsg, hne, hds⟩⟩
  · -- state 4
    split_ifs at hsw with h1 h2 h3
    · cases hsw
      obtain ⟨ds, d, rfl, hne, hds, hd⟩ := hu
      have : ch = '.' := (beq_iff_eq.1 h1).symm
      subst this
      exact ⟨[], '.' :: ds, d, rfl, Digits.nil, Or.inr ⟨ds, rfl, hne, hds⟩, hd⟩
    · cases hsw
      obtain ⟨sg, ds, rfl, hsg, hne, hds⟩ := hu
      have he : ch = 'e' ∨ ch = 'E' := by
        simp only [Bool.or_eq_true, beq_iff_eq] at h2
        exact h2.imp Eq.symm Eq.symm
      exact ⟨[], [], ch :: (sg ++ ds), rfl, Digits.nil, Or.inl rfl,
        Or.inr ⟨ch, sg, ds, rfl, he, hsg, hne, hds⟩⟩
    · cases hsw
      obtain ⟨ds, c, d, rfl, hds, hc, hd⟩ := hu
      exact ⟨ch :: ds, c, d, rfl, Digits.cons ((ISDIGIT_iff ch).1 h3) hds, hc, hd⟩
  · -- state 5
    split_ifs at hsw with h3
    · cases hsw
      obtain ⟨ds, d, rfl, hds, hd⟩ := hu
      exact ⟨ch :: ds, d, rfl, List.cons_ne_nil _ _, Digits.cons ((ISDIGIT_iff ch).1 h3) hds, hd⟩
  · -- state 6
    split_ifs at hsw with h2 h3
    · cases hsw
      obtain ⟨sg, ds, rfl, hsg, hne, hds⟩ := hu
      have he : ch = 'e' ∨ ch = 'E' := by
        simp only [Bool.or_eq_true, beq_iff_eq] at h2
        exact h2.imp Eq.symm Eq.symm
      exact ⟨[], ch :: (sg ++ ds), rfl, Digits.nil, Or.inr ⟨ch, sg, ds, rfl, he, hsg, hne, hds⟩⟩
    · cases hsw
      obtain ⟨ds, d, rfl, hds, hd⟩ := hu
      exact ⟨ch :: ds, d, rfl, Digits.cons ((ISDIGIT_iff ch).1 h3) hds, hd⟩
  · -- state 7
    split_ifs at hsw with h1 h3
    · cases hsw
      obtain ⟨hne, hds⟩ := hu
      have hs : ch = '-' ∨ ch = '+' := by
        simp only [Bool.or_eq_true, beq_iff_eq] at h1
        exact h1.imp Eq.symm Eq.symm
      refine ⟨[ch], u, rfl, ?_, hne, hds⟩
      rcases hs with rfl | rfl
      · exact Or.inr (Or.inr rfl)
      · exact Or.inr (Or.inl rfl)
    · cases hsw
      exact ⟨[], ch :: u, rfl, Or.inl rfl, List.cons_ne_nil _ _,
        Digits.cons ((ISDIGIT_iff ch).1 h3) hu⟩
  · -- state 8
    split_ifs at hsw with h3
    · cases hsw
      exact ⟨List.cons_ne_nil _ _, Digits.cons ((ISDIGIT_iff ch).1 h3) hu⟩
  · -- state 9
    split_ifs at hsw with h3
    · cases hsw
      exact Digits.cons ((ISDIGIT_iff ch).1 h3) hu
  · cases hsw

/-- In an accepting state the empty text completes a literal. -/
theorem completes_nil {st : Nat} (h : st = 3 ∨ st = 4 ∨ st = 6 ∨ st = 9) : Completes st [] := by
  rcases h with rfl | rfl | rfl | rfl
  · exact ⟨[], [], rfl, Or.inl rfl, Or.inl rfl⟩
  · exact ⟨[], [], [], rfl, Digits.nil, Or.inl rfl, Or.inl rfl⟩
  · exact ⟨[], [], rfl, Digits.nil, Or.inl rfl⟩
  · exact Digits.nil

theorem atTerminator_of_break {ch : Char} (p : List Char)
    (h : (ch == '\x00' || ch == ' ' || ch == '\t' || ch == '\n' || ch == '\r') = true) :
    AtTerminator (ch :: p) := by
  refine Or.inr ⟨ch, p, rfl, ?_⟩
  simpa [IsWhitespace, or_assoc] using h

/-- When the scan breaks in an accepting state, the scanned characters
complete a literal from the state the scan started in, and the scan stopped at
a terminator. -/
theorem number_loop_sound : ∀ (s : List Char) (st st1 : Nat) (r : List Char),
    lept_parse_number_loop st s = .ok (st1, r) → (st1 = 3 ∨ st1 = 4 ∨ st1 = 6 ∨ st1 = 9) →
    ∃ u, s = u ++ r ∧ Completes st u ∧ AtTerminator r
  | [], st, st1, r, h, hacc => by
    simp only [lept_parse_number_loop, Except.ok.injEq, Prod.mk.injEq] at h
    obtain ⟨rfl, rfl⟩ := h
    exact ⟨[], rfl, completes_nil hacc, Or.inl rfl⟩
  | ch :: p, st, st1, r, h, hacc => by
    rw [lept_parse_number_loop] at h
    split_ifs at h with hb
    · simp only [Except.ok.injEq, Prod.mk.injEq] at h
      obtain ⟨rfl, rfl⟩ := h
      exact ⟨[], rfl, completes_nil hacc, atTerminator_of_break p hb⟩
    · cases hsw : lept_parse_number_switch st ch with
      | error code => rw [hsw] at h; cases h
      | ok st2 =>
        rw [hsw] at h
        obtain ⟨u, rfl, hu, hr⟩ := number_loop_sound p st2 st1 r h hacc
        exact ⟨ch :: u, rfl, completes_step hsw hu, hr⟩

/-! ## The whitespace skipper -/

theorem whitespace_loop_append {w : List Char} (hw : WhitespaceRun w) (t : List Char) :
    lept_parse_whitespace_loop (w ++ t) = lept_parse_whitespace_loop t := by
  induction w with
  | nil => rfl
  | cons ch w ih =>
    have hch : IsWhitespace ch := hw ch (List.mem_cons_self _ _)
    rw [List.cons_append, lept_parse_whitespace_loop, if_pos hch.beq]
    exact ih fun x hx => hw x (List.mem_cons_of_mem _ hx)

/-- The skipper stops at once on a text that does not begin with whitespace. -/
theorem whitespace_loop_stop {t : List Char}
    (h : ∀ ch r, t = ch :: r → ¬ IsWhitespace ch) : lept_parse_whitespace_loop t = t := by
  cases t with
  | nil => rfl
  | cons ch r =>
    have hn := h ch r rfl
    rw [lept_parse_whitespace_loop, if_neg]
    rwa [isWhitespace_iff_beq]

/-- The skipper removes a whitespace run and stops in front of a character
that is not whitespace, or at the end. -/
theorem whitespace_loop_split : ∀ s : List Char,
    ∃ w, WhitespaceRun w ∧ s = w ++ lept_parse_whitespace_loop s ∧
      ∀ ch r, lept_parse_whitespace_loop s = ch :: r → ¬ IsWhitespace ch
  | [] => ⟨[], fun _ h => absurd h (List.not_mem_nil _), rfl, fun _ _ h => by cases h⟩
  | ch :: p => by
    by_cases hch : IsWhitespace ch
    · obtain ⟨w, hw, hs, hstop⟩ := whitespace_loop_split p
      refine ⟨ch :: w, ?_, ?_, ?_⟩
      · intro x hx
        rcases List.mem_cons.1 hx with rfl | hx
        · exact hch
        · exact hw x hx
      · rw [lept_parse_whitespace_loop, if_pos hch.beq, List.cons_append, ← hs]
      · rw [lept_parse_whitespace_loop, if_pos hch.beq]
        exact hstop
    · have hstop : lept_parse_whitespace_loop (ch :: p) = ch :: p := by
        rw [lept_parse_whitespace_loop, if_neg]
        rwa [isWhitespace_iff_beq]
      refine ⟨[], fun _ h => absurd h (List.not_mem_nil _), ?_, ?_⟩
      · rw [hstop, List.nil_append]
      · rw [hstop]
        intro x r hx
        cases hx
        exact hch

/-! ## The literal matcher -/

theorem index_eq_deref_drop : ∀ (json : List Char) (i : Nat),
    index json i = deref (json.drop i)
  | [], i => by simp [index, deref]
  | _ :: _, 0 => rfl
  | _ :: p, i + 1 => by
    have := index_eq_deref_drop p i
    simp [index, deref] at this ⊢

/-- The loop runs to the end of the literal when the text at index `i`
continues with the rest of the literal. -/
theorem literal_loop_of_begins (json : List Char) : ∀ (ls : List Char) (i : Nat) (t : List Char),
    json.drop i = ls ++ t → lept_parse_literal_loop json ls i = some (i + ls.length)
  | [], i, _, _ => rfl
  | l :: ls, i, t, h => by
    have hidx : index json i = l := by rw [index_eq_deref_drop, h]; rfl
    have hdrop : json.drop (i + 1) = ls ++ t := by
      rw [← List.drop_drop, h]
      rfl
    rw [lept_parse_literal_loop, hidx]
    simp only [bne_self_eq_false, Bool.false_eq_true, ↓reduceIte]
    rw [literal_loop_of_begins json ls (i + 1) t hdrop, List.length_cons]
    congr 1
    omega

/-- The loop runs to the end of the literal only when the text at index `i`
continues with the rest of the literal. -/
theorem literal_loop_some (json : List Char) : ∀ (ls : List Char) (i j : Nat),
    NulFree ls → lept_parse_literal_loop json ls i = some j →
    j = i + ls.length ∧ ∃ t, json.drop i = ls ++ t
  | [], i, j, _, h => by
    simp only [lept_parse_literal_loop, Option.some.injEq] at h
    exact ⟨by simp [h], json.drop i, rfl⟩
  | l :: ls, i, j, hn, h => by
    rw [lept_parse_literal_loop] at h
    split_ifs at h with hne
    have hidx : index json i = l := by simpa using hne
    have hl : l ≠ '\x00' := fun h0 => hn (h0 ▸ List.mem_cons_self _ _)
    have hls : NulFree ls := fun h0 => hn (List.mem_cons_of_mem _ h0)
    obtain ⟨hj, t, ht⟩ := literal_loop_some json ls (i + 1) j hls h
    rw [index_eq_deref_drop] at hidx
    refine ⟨by rw [hj, List.length_cons]; omega, t, ?_⟩
    cases hd : json.drop i with
    | nil =>
      rw [hd] at hidx
      exact absurd hidx.symm hl
    | cons x r =>
      rw [hd] at hidx
      have hx : x = l := hidx
      have hr : r = json.drop (i + 1) := by
        rw [← List.drop_drop, hd]
        rfl
      rw [hx, hr, ht]
      rfl

/-- The matcher succeeds on a text that begins with the literal, and leaves the
cursor right after it. -/
theorem parse_literal_of_begins (c : lept_context) (v : lept_value) (l0 : Char)
    (ls t : List Char) (type : lept_type) (h : c.json = (l0 :: ls) ++ t) :
    lept_parse_literal c v (l0 :: ls) type
      = some (LEPT_PARSE_OK, { json := t }, { v with type := type }) := by
  have hloop : lept_parse_literal_loop (ls ++ t) ls 0 = some (0 + ls.length) :=
    literal_loop_of_begins (ls ++ t) ls 0 t rfl
  simp only [lept_parse_literal, h, deref, List.cons_append, List.headD_cons, bne_self_eq_false,
    Bool.false_eq_true, ↓reduceIte, List.tail_cons, hloop, Nat.zero_add,
    List.drop_left]

/-- The matcher returns `LEPT_PARSE_OK` only on a text that begins with the
literal; it then leaves the cursor right after it and sets the tag. -/
theorem parse_literal_ok (c c1 : lept_context) (v v1 : lept_value) (l0 : Char)
    (ls : List Char) (type : lept_type) (hn : NulFree (l0 :: ls))
    (h : lept_parse_literal c v (l0 :: ls) type = some (LEPT_PARSE_OK, c1, v1)) :
    c.json = (l0 :: ls) ++ c1.json ∧ v1 = { v with type := type } := by
  have hl : l0 ≠ '\x00' := fun h0 => hn (h0 ▸ List.mem_cons_self _ _)
  have hls : NulFree ls := fun h0 => hn (List.mem_cons_of_mem _ h0)
  unfold lept_parse_literal at h
  split_ifs at h with hne
  have hhd : deref c.json = l0 := by simpa [deref] using hne
  cases hj : c.json with
  | nil =>
    rw [hj] at hhd
    exact absurd hhd.symm hl
  | cons x r =>
    rw [hj] at hhd h
    have hx : x = l0 := hhd
    simp only [List.tail_cons] at h
    cases hloop : lept_parse_literal_loop r ls 0 with
    | none => rw [hloop] at h; simp at h
    | some i =>
      rw [hloop] at h
      simp only [Option.some.injEq, Prod.mk.injEq, true_and] at h
      obtain ⟨hi, t, ht⟩ := literal_loop_some r ls 0 i hls hloop
      obtain ⟨hc1, hv1⟩ := h
      rw [List.drop_zero] at ht
      refine ⟨?_, hv1.symm⟩
      rw [← hc1, hx, ht, hi]
      simp

/-- Whatever the matcher returns, it is `LEPT_PARSE_OK`, or it is
`LEPT_PARSE_INVALID_VALUE` with the value untouched. -/
theorem parse_literal_codes (c c1 : lept_context) (v v1 : lept_value) (literal : List Char)
    (type : lept_type) (code : lept_parse_code)
    (h : lept_parse_literal c v literal type = some (code, c1, v1)) :
    (code = LEPT_PARSE_OK ∧ v1 = { v with type := type }) ∨
      (code = LEPT_PARSE_INVALID_VALUE ∧ v1 = v) := by
  unfold lept_parse_literal at h
  split_ifs at h with hne
  dsimp only at h
  cases hloop : lept_parse_literal_loop c.json.tail literal.tail 0 with
  | none =>
    rw [hloop] at h
    simp only [Option.some.injEq, Prod.mk.injEq] at h
    exact Or.inr ⟨h.1.symm, h.2.2.symm⟩
  | some i =>
    rw [hloop] at h
    simp only [Option.some.injEq, Prod.mk.injEq] at h
    exact Or.inl ⟨h.1.symm, h.2.2.symm⟩

/-- The assertion of `EXPECT` holds when the cursor's character is the
literal's first. -/
theorem parse_literal_isSome (c : lept_context) (v : lept_value) (literal : List Char)
    (type : lept_type) (h : deref c.json = deref literal) :
    ∃ r, lept_parse_literal c v literal type = some r := by
  unfold lept_parse_literal
  rw [if_neg (by simp [h])]
  dsimp only
  cases lept_parse_literal_loop c.json.tail literal.tail 0 with
  | none => exact ⟨_, rfl⟩
  | some i => exact ⟨_, rfl⟩

/-! ## The number validator and converter -/

theorem number_switch_error {st : Nat} {ch : Char} {code : lept_parse_code}
    (h : lept_parse_number_switch st ch = .error code) :
    code = LEPT_PARSE_INVALID_VALUE ∨ (code = LEPT_PARSE_ROOT_NOT_SINGULAR ∧ st = 3) := by
  unfold lept_parse_number_switch at h
  split at h <;> (try split_ifs at h) <;> cases h <;> simp

theorem number_switch_range {st st1 : Nat} {ch : Char}
    (h : lept_parse_number_switch st ch = .ok st1) : 1 ≤ st1 ∧ st1 ≤ 9 := by
  unfold lept_parse_number_switch at h
  split at h <;> (try split_ifs at h) <;> cases h <;> omega

/-- The scan never leaves the states 1 to 9. -/
theorem number_loop_range : ∀ (s : List Char) (st st1 : Nat) (r : List Char),
    lept_parse_number_loop st s = .ok (st1, r) → 1 ≤ st ∧ st ≤ 9 → 1 ≤ st1 ∧ st1 ≤ 9
  | [], st, st1, r, h, hst => by
    simp only [lept_parse_number_loop, Except.ok.injEq, Prod.mk.injEq] at h
    omega
  | ch :: p, st, st1, r, h, hst => by
    rw [lept_parse_number_loop] at h
    split_ifs at h with hb
    · simp only [Except.ok.injEq, Prod.mk.injEq] at h
      omega
    · cases hsw : lept_parse_number_switch st ch with
      | error code => rw [hsw] at h; cases h
      | ok st2 =>
        rw [hsw] at h
        exact number_loop_range p st2 st1 r h (number_switch_range hsw)

theorem number_loop_error : ∀ (s : List Char) (st : Nat) (code : lept_parse_code),
    lept_parse_number_loop st s = .error code →
    code = LEPT_PARSE_INVALID_VALUE ∨ code = LEPT_PARSE_ROOT_NOT_SINGULAR
  | [], st, code, h => by simp [lept_parse_number_loop] at h
  | ch :: p, st, code, h => by
    rw [lept_parse_number_loop] at h
    split_ifs at h with hb
    cases hsw : lept_parse_number_switch st ch with
    | error code1 =>
      rw [hsw] at h
      cases h
      exact (number_switch_error hsw).imp id And.left
    | ok st2 =>
      rw [hsw] at h
      exact number_loop_error p st2 code h

/-- The result of `lept_parse_number` on a grammar-valid literal followed by a
terminator. -/
theorem parse_number_of_jsonNumber (L : Libc) (errno : Int) (v : lept_value)
    {V t : List Char} (hV : JsonNumber V) (ht : AtTerminator t) :
    lept_parse_number L errno { json := V ++ t } v =
      if (L.strtod (V ++ t) errno).2 == L.ERANGE &&
          (HUGE_VAL.ceq (L.strtod (V ++ t) errno).1 ||
            HUGE_VAL.neg.ceq (L.strtod (V ++ t) errno).1) then
        (LEPT_PARSE_NUMBER_TOO_BIG, { json := V ++ t },
          { v with n := (L.strtod (V ++ t) errno).1 }, (L.strtod (V ++ t) errno).2)
      else
        (LEPT_PARSE_OK, { json := t },
          { n := (L.strtod (V ++ t) errno).1, type := LEPT_NUMBER },
          (L.strtod (V ++ t) errno).2) := by
  obtain ⟨st, hst, hloop⟩ := number_loop_of_jsonNumber hV ht
  unfold lept_parse_number
  simp only [hloop]
  have hacc : (1 == st || 2 == st || 5 == st || 7 == st || 8 == st) = false := by
    rcases hst with rfl | rfl | rfl | rfl <;> rfl
  rw [hacc]
  simp

theorem strtodOverflows_iff (L : Libc) (nptr : List Char) (errno : Int) :
    ((L.strtod nptr errno).2 == L.ERANGE &&
      (HUGE_VAL.ceq (L.strtod nptr errno).1 || HUGE_VAL.neg.ceq (L.strtod nptr errno).1)) = true
    ↔ StrtodOverflows L nptr errno := by
  simp [StrtodOverflows]

/-- What `lept_parse_number` returns, read backwards. -/
theorem parse_number_cases (L : Libc) (errno : Int) (c : lept_context) (v : lept_value) :
    (∃ code, (code = LEPT_PARSE_INVALID_VALUE ∨ code = LEPT_PARSE_ROOT_NOT_SINGULAR) ∧
        lept_parse_number L errno c v = (code, c, v, errno)) ∨
    (∃ V t, c.json = V ++ t ∧ JsonNumber V ∧ AtTerminator t ∧
      ((StrtodOverflows L c.json errno ∧
          lept_parse_number L errno c v = (LEPT_PARSE_NUMBER_TOO_BIG, c,
            { v with n := (L.strtod c.json errno).1 }, (L.strtod c.json errno).2)) ∨
        (¬ StrtodOverflows L c.json errno ∧
          lept_parse_number L errno c v = (LEPT_PARSE_OK, { json := t },
            { n := (L.strtod c.json errno).1, type := LEPT_NUMBER },
            (L.strtod c.json errno).2)))) := by
  cases hloop : lept_parse_number_loop 1 c.json with
  | error code =>
    left
    refine ⟨code, number_loop_error _ _ _ hloop, ?_⟩
    simp [lept_parse_number, hloop]
  | ok r =>
    obtain ⟨st, p⟩ := r
    by_cases hacc : (1 == st || 2 == st || 5 == st || 7 == st || 8 == st) = true
    · left
      refine ⟨LEPT_PARSE_INVALID_VALUE, Or.inl rfl, ?_⟩
      simp only [lept_parse_number, hloop, hacc, if_true]
    · have hst : st = 3 ∨ st = 4 ∨ st = 6 ∨ st = 9 := by
        have hr := number_loop_range c.json 1 st p hloop (by omega)
        simp only [Bool.or_eq_true, beq_iff_eq, not_or] at hacc
        omega
      right
      obtain ⟨V, hc, hV, ht⟩ := number_loop_sound c.json 1 st p hloop hst
      refine ⟨V, p, hc, hV, ht, ?_⟩
      have hcj : (⟨V ++ p⟩ : lept_context) = c := by cases c; simp_all
      have := parse_number_of_jsonNumber L errno v hV ht
      rw [hcj, ← hc] at this
      by_cases ho : StrtodOverflows L c.json errno
      · left
        refine ⟨ho, ?_⟩
        rw [this, if_pos ((strtodOverflows_iff L _ _).2 ho)]
      · right
        refine ⟨ho, ?_⟩
        rw [this, if_neg (fun h => ho ((strtodOverflows_iff L _ _).1 h))]

/-! ## The dispatcher and the driver -/

theorem JsonNumber.first_char {V : List Char} (hV : JsonNumber V) :
    ∃ ch r, V = ch :: r ∧ (ch = '-' ∨ IsDigit ch) := by
  obtain ⟨a, b, c, d, rfl, ha, hb, _, _⟩ := hV
  rcases ha with rfl | rfl
  · rcases hb with rfl | ⟨x, ds, rfl, hx, _⟩
    · exact ⟨'0', _, rfl, Or.inr (by simp [IsDigit])⟩
    · exact ⟨x, _, rfl, Or.inr hx.isDigit⟩
  · exact ⟨'-', _, rfl, Or.inl rfl⟩

/-- A number literal begins with a character the dispatcher sends to the
number validator, and that is neither whitespace nor NUL. -/
theorem JsonNumber.head_dispatch {V : List Char} (hV : JsonNumber V) :
    ∃ ch r, V = ch :: r ∧ ch ≠ 't' ∧ ch ≠ 'f' ∧ ch ≠ 'n' ∧ ch ≠ '\x00' ∧ ¬ IsWhitespace ch := by
  obtain ⟨ch, r, rfl, h⟩ := hV.first_char
  refine ⟨ch, r, rfl, ?_⟩
  rcases h with rfl | h
  · simp [IsWhitespace]
  · simp only [IsDigit, List.mem_cons, List.not_mem_nil, or_false] at h
    rcases h with rfl | rfl | rfl | rfl | rfl | rfl | rfl | rfl | rfl | rfl <;>
      simp [IsWhitespace]

theorem parse_value_number (L : Libc) (errno : Int) (c : lept_context) (v : lept_value)
    (ht : deref c.json ≠ 't') (hf : deref c.json ≠ 'f') (hn : deref c.json ≠ 'n')
    (h0 : deref c.json ≠ '\x00') :
    lept_parse_value L errno c v = some (lept_parse_number L errno c v) := by
  simp [lept_parse_value, ht, hf, hn, h0]

theorem parse_value_true (L : Libc) (errno : Int) (c : lept_context) (v : lept_value)
    (t : List Char) (h : c.json = ['t', 'r', 'u', 'e'] ++ t) :
    lept_parse_value L errno c v
      = some (LEPT_PARSE_OK, { json := t }, { v with type := LEPT_TRUE }, errno) := by
  have hd : deref c.json = 't' := by rw [h]; rfl
  simp [lept_parse_value, hd, parse_literal_of_begins c v 't' ['r', 'u', 'e'] t LEPT_TRUE h]

theorem parse_value_false (L : Libc) (errno : Int) (c : lept_context) (v : lept_value)
    (t : List Char) (h : c.json = ['f', 'a', 'l', 's', 'e'] ++ t) :
    lept_parse_value L errno c v
      = some (LEPT_PARSE_OK, { json := t }, { v with type := LEPT_FALSE }, errno) := by
  have hd : deref c.json = 'f' := by rw [h]; rfl
  simp [lept_parse_value, hd,
    parse_literal_of_begins c v 'f' ['a', 'l', 's', 'e'] t LEPT_FALSE h]

theorem parse_value_null (L : Libc) (errno : Int) (c : lept_context) (v : lept_value)
    (t : List Char) (h : c.json = ['n', 'u', 'l', 'l'] ++ t) :
    lept_parse_value L errno c v
      = some (LEPT_PARSE_OK, { json := t }, { v with type := LEPT_NULL }, errno) := by
  have hd : deref c.json = 'n' := by rw [h]; rfl
  simp [lept_parse_value, hd, parse_literal_of_begins c v 'n' ['u', 'l', 'l'] t LEPT_NULL h]

/-- The driver, given what the dispatcher returns after the leading
whitespace. -/
theorem parse_of_value (L : Libc) (errno : Int) (v : lept_value) (s : List Char)
    {ret : lept_parse_code} {c2 : lept_context} {v1 : lept_value} {errno1 : Int}
    (h : lept_parse_value L errno { json := lept_parse_whitespace_loop s }
      { v with type := LEPT_NULL } = some (ret, c2, v1, errno1)) :
    lept_parse L errno v s =
      if ret = LEPT_PARSE_OK then
        if deref (lept_parse_whitespace_loop c2.json) != '\x00' then
          some (LEPT_PARSE_ROOT_NOT_SINGULAR, { v1 with type := LEPT_NULL }, errno1)
        else some (ret, v1, errno1)
      else some (ret, v1, errno1) := by
  simp only [lept_parse, lept_parse_whitespace, h]

/-- After a value, only whitespace up to the end: the driver's final test
passes. -/
theorem trailing_whitespace {w : List Char} (hw : WhitespaceRun w) :
    (deref (lept_parse_whitespace_loop w) != '\x00') = false := by
  have := whitespace_loop_append hw []
  rw [List.append_nil] at this
  rw [this]
  rfl

/-- After a value, whitespace and then a significant character: the driver's
final test fails. -/
theorem trailing_text {w r : List Char} (hw : WhitespaceRun w) (hr : BeginsWithText r) :
    (deref (lept_parse_whitespace_loop (w ++ r)) != '\x00') = true := by
  obtain ⟨ch, r1, rfl, hch, h0⟩ := hr
  rw [whitespace_loop_append hw, whitespace_loop_stop]
  · simpa [deref] using h0
  · intro x r2 hx
    cases hx
    exact hch

/-- When the driver's final test passes on a NUL-free remainder, the remainder
is a whitespace run. -/
theorem whitespaceRun_of_trailing {t : List Char} (hn : NulFree t)
    (h : (deref (lept_parse_whitespace_loop t) != '\x00') = false) : WhitespaceRun t := by
  obtain ⟨w, hw, ht, _⟩ := whitespace_loop_split t
  cases hl : lept_parse_whitespace_loop t with
  | nil =>
    rw [hl, List.append_nil] at ht
    rw [ht]
    exact hw
  | cons ch r =>
    rw [hl] at h ht
    have hch : ch = '\x00' := by simpa [deref] using h
    exact absurd (by rw [ht, hch]; simp) hn

/-- When the driver's final test fails, the remainder holds a character that
is neither whitespace nor NUL, after a whitespace run. -/
theorem text_of_trailing {t : List Char}
    (h : (deref (lept_parse_whitespace_loop t) != '\x00') = true) :
    ∃ w r, t = w ++ r ∧ WhitespaceRun w ∧ BeginsWithText r := by
  obtain ⟨w, hw, ht, hstop⟩ := whitespace_loop_split t
  cases hl : lept_parse_whitespace_loop t with
  | nil =>
    rw [hl] at h
    simp [deref] at h
  | cons ch r =>
    rw [hl] at h ht
    refine ⟨w, ch :: r, ht, hw, ch, r, rfl, hstop ch r hl, ?_⟩
    simpa [deref] using h

/-- The two outcomes of the matcher when the cursor's character is the
literal's first: the text begins with the literal and the matcher succeeds, or
it does not and the matcher fails with the value untouched. -/
theorem parse_literal_cases (c : lept_context) (v : lept_value) (l0 : Char) (ls : List Char)
    (type : lept_type) (hn : NulFree (l0 :: ls)) (hd : deref c.json = l0) :
    (∃ t, c.json = (l0 :: ls) ++ t ∧
      lept_parse_literal c v (l0 :: ls) type
        = some (LEPT_PARSE_OK, { json := t }, { v with type := type })) ∨
    (∃ c1, (¬ ∃ t, c.json = (l0 :: ls) ++ t) ∧
      lept_parse_literal c v (l0 :: ls) type = some (LEPT_PARSE_INVALID_VALUE, c1, v)) := by
  obtain ⟨⟨code, c1, v1⟩, hr⟩ := parse_literal_isSome c v (l0 :: ls) type (by simpa [deref] using hd)
  rcases parse_literal_codes c c1 v v1 (l0 :: ls) type code hr with ⟨hcode, hv⟩ | ⟨hcode, hv⟩
  · left
    rw [hcode, hv] at hr
    obtain ⟨hc, _⟩ := parse_literal_ok c c1 v _ l0 ls type hn hr
    exact ⟨c1.json, hc, hr⟩
  · right
    rw [hcode, hv] at hr
    refine ⟨c1, ?_, hr⟩
    rintro ⟨t, ht⟩
    rw [parse_literal_of_begins c v l0 ls t type ht] at hr
    simp at hr

/-- Every way `lept_parse` can end, with the text after the leading whitespace
written `s1`. -/
theorem parse_cases (L : Libc) (errno : Int) (v : lept_value) (s : List Char) :
    -- nothing but the terminator
    (deref (lept_parse_whitespace_loop s) = '\x00' ∧
      lept_parse L errno v s = some (LEPT_PARSE_EXPECT_VALUE, ⟨v.n, LEPT_NULL⟩, errno)) ∨
    -- a literal's first character, but not the literal
    (∃ lit, (lit = ['t', 'r', 'u', 'e'] ∨ lit = ['f', 'a', 'l', 's', 'e'] ∨
        lit = ['n', 'u', 'l', 'l']) ∧
      deref (lept_parse_whitespace_loop s) = deref lit ∧
      (¬ ∃ t, lept_parse_whitespace_loop s = lit ++ t) ∧
      lept_parse L errno v s = some (LEPT_PARSE_INVALID_VALUE, ⟨v.n, LEPT_NULL⟩, errno)) ∨
    -- a literal
    (∃ lit type t, ((lit = ['t', 'r', 'u', 'e'] ∧ type = LEPT_TRUE) ∨
        (lit = ['f', 'a', 'l', 's', 'e'] ∧ type = LEPT_FALSE) ∨
        (lit = ['n', 'u', 'l', 'l'] ∧ type = LEPT_NULL)) ∧
      lept_parse_whitespace_loop s = lit ++ t ∧
      lept_parse L errno v s =
        if deref (lept_parse_whitespace_loop t) != '\x00' then
          some (LEPT_PARSE_ROOT_NOT_SINGULAR, ⟨v.n, LEPT_NULL⟩, errno)
        else some (LEPT_PARSE_OK, ⟨v.n, type⟩, errno)) ∨
    -- the number scan returns from inside the loop, or breaks in a state
    -- that is not accepting
    (∃ code, (code = LEPT_PARSE_INVALID_VALUE ∨ code = LEPT_PARSE_ROOT_NOT_SINGULAR) ∧
      (deref (lept_parse_whitespace_loop s) ≠ 't' ∧ deref (lept_parse_whitespace_loop s) ≠ 'f' ∧
        deref (lept_parse_whitespace_loop s) ≠ 'n' ∧
        deref (lept_parse_whitespace_loop s) ≠ '\x00') ∧
      lept_parse_number L errno { json := lept_parse_whitespace_loop s } ⟨v.n, LEPT_NULL⟩
        = (code, { json := lept_parse_whitespace_loop s }, ⟨v.n, LEPT_NULL⟩, errno) ∧
      lept_parse L errno v s = some (code, ⟨v.n, LEPT_NULL⟩, errno)) ∨
    -- a number literal whose conversion overflows
    (∃ V t, lept_parse_whitespace_loop s = V ++ t ∧ JsonNumber V ∧ AtTerminator t ∧
      StrtodOverflows L (V ++ t) errno ∧
      lept_parse L errno v s = some (LEPT_PARSE_NUMBER_TOO_BIG,
        ⟨(L.strtod (V ++ t) errno).1, LEPT_NULL⟩, (L.strtod (V ++ t) errno).2)) ∨
    -- a number literal whose conversion does not overflow
    (∃ V t, lept_parse_whitespace_loop s = V ++ t ∧ JsonNumber V ∧ AtTerminator t ∧
      ¬ StrtodOverflows L (V ++ t) errno ∧
      lept_parse L errno v s =
        if deref (lept_parse_whitespace_loop t) != '\x00' then
          some (LEPT_PARSE_ROOT_NOT_SINGULAR,
            ⟨(L.strtod (V ++ t) errno).1, LEPT_NULL⟩, (L.strtod (V ++ t) errno).2)
        else some (LEPT_PARSE_OK,
          ⟨(L.strtod (V ++ t) errno).1, LEPT_NUMBER⟩, (L.strtod (V ++ t) errno).2)) := by
  set s1 := lept_parse_whitespace_loop s with hs1
  have hlit : ∀ (l0 : Char) (ls : List Char) (type : lept_type), NulFree (l0 :: ls) →
      deref s1 = l0 →
      lept_parse_value L errno { json := s1 } ⟨v.n, LEPT_NULL⟩
        = (lept_parse_literal { json := s1 } ⟨v.n, LEPT_NULL⟩ (l0 :: ls) type).map
          (fun r => (r.1, r.2.1, r.2.2, errno)) →
      ((¬ ∃ t, s1 = (l0 :: ls) ++ t) ∧
        lept_parse L errno v s = some (LEPT_PARSE_INVALID_VALUE, ⟨v.n, LEPT_NULL⟩, errno)) ∨
      (∃ t, s1 = (l0 :: ls) ++ t ∧
        lept_parse L errno v s =
          if deref (lept_parse_whitespace_loop t) != '\x00' then
            some (LEPT_PARSE_ROOT_NOT_SINGULAR, ⟨v.n, LEPT_NULL⟩, errno)
          else some (LEPT_PARSE_OK, ⟨v.n, type⟩, errno)) := by
    intro l0 ls type hn hd hval
    rcases parse_literal_cases { json := s1 } ⟨v.n, LEPT_NULL⟩ l0 ls type hn hd with
      ⟨t, ht, hr⟩ | ⟨c1, hno, hr⟩
    · right
      refine ⟨t, ht, ?_⟩
      rw [hr] at hval
      rw [parse_of_value L errno v s hval]
      simp
    · left
      refine ⟨hno, ?_⟩
      rw [hr] at hval
      rw [parse_of_value L errno v s hval]
      simp
  by_cases ht : deref s1 = 't'
  · have hval : lept_parse_value L errno { json := s1 } ⟨v.n, LEPT_NULL⟩
        = (lept_parse_literal { json := s1 } ⟨v.n, LEPT_NULL⟩ ['t', 'r', 'u', 'e'] LEPT_TRUE).map
          (fun r => (r.1, r.2.1, r.2.2, errno)) := by
      simp [lept_parse_value, ht]
    rcases hlit 't' ['r', 'u', 'e'] LEPT_TRUE (by simp [NulFree]) ht hval with ⟨hno, h⟩ | ⟨t, h1, h⟩
    · exact Or.inr (Or.inl ⟨_, Or.inl rfl, ht, hno, h⟩)
    · exact Or.inr (Or.inr (Or.inl ⟨_, LEPT_TRUE, t, Or.inl ⟨rfl, rfl⟩, h1, h⟩))
  by_cases hf : deref s1 = 'f'
  · have hval : lept_parse_value L errno { json := s1 } ⟨v.n, LEPT_NULL⟩
        = (lept_parse_literal { json := s1 } ⟨v.n, LEPT_NULL⟩ ['f', 'a', 'l', 's', 'e']
            LEPT_FALSE).map (fun r => (r.1, r.2.1, r.2.2, errno)) := by
      simp [lept_parse_value, hf]
    rcases hlit 'f' ['a', 'l', 's', 'e'] LEPT_FALSE (by simp [NulFree]) hf hval with
      ⟨hno, h⟩ | ⟨t, h1, h⟩
    · exact Or.inr (Or.inl ⟨_, Or.inr (Or.inl rfl), hf, hno, h⟩)
    · exact Or.inr (Or.inr (Or.inl ⟨_, LEPT_FALSE, t, Or.inr (Or.inl ⟨rfl, rfl⟩), h1, h⟩))
  by_cases hn : deref s1 = 'n'
  · have hval : lept_parse_value L errno { json := s1 } ⟨v.n, LEPT_NULL⟩
        = (lept_parse_literal { json := s1 } ⟨v.n, LEPT_NULL⟩ ['n', 'u', 'l', 'l'] LEPT_NULL).map
          (fun r => (r.1, r.2.1, r.2.2, errno)) := by
      simp [lept_parse_value, hn]
    rcases hlit 'n' ['u', 'l', 'l'] LEPT_NULL (by simp [NulFree]) hn hval with ⟨hno, h⟩ | ⟨t, h1, h⟩
    · exact Or.inr (Or.inl ⟨_, Or.inr (Or.inr rfl), hn, hno, h⟩)
    · exact Or.inr (Or.inr (Or.inl ⟨_, LEPT_NULL, t, Or.inr (Or.inr ⟨rfl, rfl⟩), h1, h⟩))
  by_cases h0 : deref s1 = '\x00'
  · left
    refine ⟨h0, ?_⟩
    have hval : lept_parse_value L errno { json := s1 } ⟨v.n, LEPT_NULL⟩
        = some (LEPT_PARSE_EXPECT_VALUE, { json := s1 }, ⟨v.n, LEPT_NULL⟩, errno) := by
      simp [lept_parse_value, h0]
    rw [parse_of_value L errno v s hval]
    simp
  have hval := parse_value_number L errno { json := s1 } ⟨v.n, LEPT_NULL⟩ ht hf hn h0
  rcases parse_number_cases L errno { json := s1 } ⟨v.n, LEPT_NULL⟩ with
    ⟨code, hcode, hr⟩ | ⟨V, t, hc, hV, hterm, ⟨ho, hr⟩ | ⟨ho, hr⟩⟩
  · refine Or.inr (Or.inr (Or.inr (Or.inl ⟨code, hcode, ⟨ht, hf, hn, h0⟩, hr, ?_⟩)))
    rw [hr] at hval
    rw [parse_of_value L errno v s hval]
    rcases hcode with rfl | rfl <;> simp
  · have hc1 : s1 = V ++ t := hc
    refine Or.inr (Or.inr (Or.inr (Or.inr (Or.inl ⟨V, t, hc1, hV, hterm, hc1 ▸ ho, ?_⟩))))
    rw [hr] at hval
    rw [parse_of_value L errno v s hval]
    simp [hc1]
  · have hc1 : s1 = V ++ t := hc
    refine Or.inr (Or.inr (Or.inr (Or.inr (Or.inr ⟨V, t, hc1, hV, hterm, hc1 ▸ ho, ?_⟩))))
    rw [hr] at hval
    rw [parse_of_value L errno v s hval]
    simp [hc1]

/-! ## The driver on texts of a known shape -/

/-- The driver on whitespace, a literal and a remainder. -/
theorem parse_literal_text (L : Libc) (errno : Int) (v : lept_value) {w : List Char}
    (hw : WhitespaceRun w) (lit : List Char) (type : lept_type) (t : List Char)
    (hlit : (lit = ['t', 'r', 'u', 'e'] ∧ type = LEPT_TRUE) ∨
      (lit = ['f', 'a', 'l', 's', 'e'] ∧ type = LEPT_FALSE) ∨
      (lit = ['n', 'u', 'l', 'l'] ∧ type = LEPT_NULL)) :
    lept_parse L errno v (w ++ (lit ++ t)) =
      if deref (lept_parse_whitespace_loop t) != '\x00' then
        some (LEPT_PARSE_ROOT_NOT_SINGULAR, ⟨v.n, LEPT_NULL⟩, errno)
      else some (LEPT_PARSE_OK, ⟨v.n, type⟩, errno) := by
  have hskip : lept_parse_whitespace_loop (w ++ (lit ++ t)) = lit ++ t := by
    rw [whitespace_loop_append hw]
    rcases hlit with ⟨rfl, _⟩ | ⟨rfl, _⟩ | ⟨rfl, _⟩ <;> rfl
  have hval : lept_parse_value L errno { json := lept_parse_whitespace_loop (w ++ (lit ++ t)) }
      { v with type := LEPT_NULL } = some (LEPT_PARSE_OK, { json := t }, ⟨v.n, type⟩, errno) := by
    rw [hskip]
    rcases hlit with ⟨rfl, rfl⟩ | ⟨rfl, rfl⟩ | ⟨rfl, rfl⟩
    · exact parse_value_true L errno _ _ t rfl
    · exact parse_value_false L errno _ _ t rfl
    · exact parse_value_null L errno _ _ t rfl
  rw [parse_of_value L errno v _ hval]
  simp

/-- The driver on whitespace, a grammar-valid number literal and a remainder at
which the scan stops. -/
theorem parse_number_text (L : Libc) (errno : Int) (v : lept_value) {w V t : List Char}
    (hw : WhitespaceRun w) (hV : JsonNumber V) (ht : AtTerminator t) :
    lept_parse L errno v (w ++ (V ++ t)) =
      if StrtodOverflows L (V ++ t) errno then
        some (LEPT_PARSE_NUMBER_TOO_BIG, ⟨(L.strtod (V ++ t) errno).1, LEPT_NULL⟩,
          (L.strtod (V ++ t) errno).2)
      else if deref (lept_parse_whitespace_loop t) != '\x00' then
        some (LEPT_PARSE_ROOT_NOT_SINGULAR, ⟨(L.strtod (V ++ t) errno).1, LEPT_NULL⟩,
          (L.strtod (V ++ t) errno).2)
      else
        some (LEPT_PARSE_OK, ⟨(L.strtod (V ++ t) errno).1, LEPT_NUMBER⟩,
          (L.strtod (V ++ t) errno).2) := by
  obtain ⟨ch, r, hch, h1, h2, h3, h4, h5⟩ := hV.head_dispatch
  have hskip : lept_parse_whitespace_loop (w ++ (V ++ t)) = V ++ t := by
    rw [whitespace_loop_append hw]
    apply whitespace_loop_stop
    intro x r1 hx
    rw [hch] at hx
    cases hx
    exact h5
  have hd : deref (V ++ t) = ch := by rw [hch]; rfl
  have hval := parse_value_number L errno { json := V ++ t } ⟨v.n, LEPT_NULL⟩
    (by rw [hd]; exact h1) (by rw [hd]; exact h2) (by rw [hd]; exact h3) (by rw [hd]; exact h4)
  rw [parse_number_of_jsonNumber L errno _ hV ht] at hval
  by_cases ho : StrtodOverflows L (V ++ t) errno
  · rw [if_pos ((strtodOverflows_iff L _ _).2 ho)] at hval
    rw [← hskip] at hval
    rw [parse_of_value L errno v _ hval, if_pos ho]
    simp [hskip]
  · rw [if_neg (fun h => ho ((strtodOverflows_iff L _ _).1 h))] at hval
    rw [← hskip] at hval
    rw [parse_of_value L errno v _ hval, if_neg ho]
    simp [hskip]

/-! ## The claims -/

/-- C1: for every text `V` that is a number literal of the grammar and whose
conversion does not overflow (the call `strtod(V, NULL)` does not return plus
or minus `HUGE_VAL` with `errno` at `ERANGE`), `lept_parse` returns
`LEPT_PARSE_OK`, the value's tag is `LEPT_NUMBER`, and `lept_get_number`
returns exactly what `strtod` returns for that text. -/
theorem C1_number_literal_parses (L : Libc) (errno : Int) (v : lept_value) (V : List Char)
    (hV : JsonNumber V) (hfin : ¬ StrtodOverflows L V errno) :
    ∃ v1 errno1, lept_parse L errno v V = some (LEPT_PARSE_OK, v1, errno1) ∧
      lept_get_type v1 = LEPT_NUMBER ∧
      lept_get_number v1 = some (L.strtod V errno).1 := by
  have h := parse_number_text L errno v (w := []) (t := [])
    (fun _ hx => absurd hx (List.not_mem_nil _)) hV (Or.inl rfl)
  simp only [List.append_nil, List.nil_append] at h
  rw [if_neg hfin] at h
  refine ⟨_, _, h, rfl, rfl⟩

/-- The literal `1.5` is in the grammar. -/
theorem jsonNumber_one_point_five : JsonNumber ['1', '.', '5'] :=
  ⟨[], ['1'], ['.', '5'], [], rfl, Or.inl rfl,
    Or.inr ⟨'1', [], rfl, by simp [IsDigit1to9], Digits.nil⟩,
    Or.inr ⟨['5'], rfl, by simp, by simp [Digits, IsDigit]⟩, Or.inl rfl⟩

set_option maxRecDepth 100000 in
/-- C1 at the text `1.5` with the reference C library. -/
theorem C1_number_literal_parses_witness :
    ∃ v1 errno1,
      lept_parse libc_ref 0 ⟨⟨false, 0, 0⟩, LEPT_TRUE⟩ ['1', '.', '5']
        = some (LEPT_PARSE_OK, v1, errno1) ∧
      lept_get_type v1 = LEPT_NUMBER ∧
      lept_get_number v1 = some (libc_ref.strtod ['1', '.', '5'] 0).1 :=
  C1_number_literal_parses libc_ref 0 ⟨⟨false, 0, 0⟩, LEPT_TRUE⟩ ['1', '.', '5']
    jsonNumber_one_point_five (by decide)

/-- C2: for every NUL-free text, if `lept_parse` returns `LEPT_PARSE_OK` then
the whole text is `w1 ++ V ++ w2` with `w1`, `w2` whitespace runs and `V` one
of `true`, `false`, `null` or a number literal of the grammar, and the tag is
`LEPT_TRUE`, `LEPT_FALSE`, `LEPT_NULL` or `LEPT_NUMBER` respectively. -/
theorem C2_accepted_language (L : Libc) (errno : Int) (v : lept_value) (s : List Char)
    (v1 : lept_value) (errno1 : Int) (hs : NulFree s)
    (h : lept_parse L errno v s = some (LEPT_PARSE_OK, v1, errno1)) :
    ∃ w1 V w2, s = w1 ++ V ++ w2 ∧ WhitespaceRun w1 ∧ WhitespaceRun w2 ∧
      ((V = ['t', 'r', 'u', 'e'] ∧ lept_get_type v1 = LEPT_TRUE) ∨
        (V = ['f', 'a', 'l', 's', 'e'] ∧ lept_get_type v1 = LEPT_FALSE) ∨
        (V = ['n', 'u', 'l', 'l'] ∧ lept_get_type v1 = LEPT_NULL) ∨
        (JsonNumber V ∧ lept_get_type v1 = LEPT_NUMBER)) := by
  obtain ⟨w1, hw1, hsplit, _⟩ := whitespace_loop_split s
  have hfree : ∀ {V t : List Char}, lept_parse_whitespace_loop s = V ++ t → NulFree t := by
    intro V t hVt h0
    apply hs
    rw [hsplit, hVt]
    simp [h0]
  rcases parse_cases L errno v s with ⟨_, hp⟩ | ⟨_, _, _, _, hp⟩ | ⟨lit, type, t, hlit, hst, hp⟩ |
    ⟨code, hcode, _, _, hp⟩ | ⟨V, t, _, _, _, _, hp⟩ | ⟨V, t, hst, hV, _, _, hp⟩
  · rw [hp] at h; simp at h
  · rw [hp] at h; simp at h
  · rw [hp] at h
    split_ifs at h with htr
    · simp at h
    · simp only [Option.some.injEq, Prod.mk.injEq, true_and] at h
      have hw2 := whitespaceRun_of_trailing (hfree hst) (by simpa using htr)
      refine ⟨w1, lit, t, ?_, hw1, hw2, ?_⟩
      · rw [List.append_assoc, ← hst]
        exact hsplit
      · rw [← h.1]
        rcases hlit with ⟨rfl, rfl⟩ | ⟨rfl, rfl⟩ | ⟨rfl, rfl⟩
        · exact Or.inl ⟨rfl, rfl⟩
        · exact Or.inr (Or.inl ⟨rfl, rfl⟩)
        · exact Or.inr (Or.inr (Or.inl ⟨rfl, rfl⟩))
  · rw [hp] at h
    rcases hcode with rfl | rfl <;> simp at h
  · rw [hp] at h; simp at h
  · rw [hp] at h
    split_ifs at h with htr
    · simp at h
    · simp only [Option.some.injEq, Prod.mk.injEq, true_and] at h
      have hw2 := whitespaceRun_of_trailing (hfree hst) (by simpa using htr)
      refine ⟨w1, V, t, ?_, hw1, hw2, Or.inr (Or.inr (Or.inr ⟨hV, ?_⟩))⟩
      · rw [List.append_assoc, ← hst]
        exact hsplit
      · rw [← h.1]
        rfl

/-- C2 at the text ` null ` with the reference C library. -/
theorem C2_accepted_language_witness :
    ∃ w1 V w2, [' ', 'n', 'u', 'l', 'l', ' '] = w1 ++ V ++ w2 ∧
      WhitespaceRun w1 ∧ WhitespaceRun w2 ∧
      ((V = ['t', 'r', 'u', 'e'] ∧
          lept_get_type ⟨⟨false, 0, 0⟩, LEPT_NULL⟩ = LEPT_TRUE) ∨
        (V = ['f', 'a', 'l', 's', 'e'] ∧
          lept_get_type ⟨⟨false, 0, 0⟩, LEPT_NULL⟩ = LEPT_FALSE) ∨
        (V = ['n', 'u', 'l', 'l'] ∧
          lept_get_type ⟨⟨false, 0, 0⟩, LEPT_NULL⟩ = LEPT_NULL) ∨
        (JsonNumber V ∧ lept_get_type ⟨⟨false, 0, 0⟩, LEPT_NULL⟩ = LEPT_NUMBER)) :=
  C2_accepted_language libc_ref 0 ⟨⟨false, 0, 0⟩, LEPT_TRUE⟩ [' ', 'n', 'u', 'l', 'l', ' ']
    ⟨⟨false, 0, 0⟩, LEPT_NULL⟩ 0 (by simp [NulFree]) (by decide)

/-- C3: for every text, whatever the value held before the call, `lept_parse`
returns, and if the code it returns is not `LEPT_PARSE_OK` the value's tag
after the call is `LEPT_NULL`. -/
theorem C3_failure_leaves_null (L : Libc) (errno : Int) (v : lept_value) (s : List Char) :
    ∃ code v1 errno1, lept_parse L errno v s = some (code, v1, errno1) ∧
      (code ≠ LEPT_PARSE_OK → lept_get_type v1 = LEPT_NULL) := by
  rcases parse_cases L errno v s with ⟨_, hp⟩ | ⟨_, _, _, _, hp⟩ | ⟨lit, type, t, hlit, hst, hp⟩ |
    ⟨code, hcode, _, _, hp⟩ | ⟨V, t, _, _, _, _, hp⟩ | ⟨V, t, hst, hV, _, _, hp⟩
  · exact ⟨_, _, _, hp, fun _ => rfl⟩
  · exact ⟨_, _, _, hp, fun _ => rfl⟩
  · split_ifs at hp with htr
    · exact ⟨_, _, _, hp, fun _ => rfl⟩
    · exact ⟨_, _, _, hp, fun hne => absurd rfl hne⟩
  · exact ⟨_, _, _, hp, fun _ => rfl⟩
  · exact ⟨_, _, _, hp, fun _ => rfl⟩
  · split_ifs at hp with htr
    · exact ⟨_, _, _, hp, fun _ => rfl⟩
    · exact ⟨_, _, _, hp, fun hne => absurd rfl hne⟩

/-- C4: for all whitespace runs `w1` and `w2`, `lept_parse` returns
`LEPT_PARSE_OK` with tag `LEPT_TRUE` on `w1 ++ "true" ++ w2`, with tag
`LEPT_FALSE` on `w1 ++ "false" ++ w2` and with tag `LEPT_NULL` on
`w1 ++ "null" ++ w2`. -/
theorem C4_literals_parse (L : Libc) (errno : Int) (v : lept_value) (w1 w2 : List Char)
    (h1 : WhitespaceRun w1) (h2 : WhitespaceRun w2) :
    (∃ v1 errno1, lept_parse L errno v (w1 ++ ['t', 'r', 'u', 'e'] ++ w2)
        = some (LEPT_PARSE_OK, v1, errno1) ∧ lept_get_type v1 = LEPT_TRUE) ∧
    (∃ v1 errno1, lept_parse L errno v (w1 ++ ['f', 'a', 'l', 's', 'e'] ++ w2)
        = some (LEPT_PARSE_OK, v1, errno1) ∧ lept_get_type v1 = LEPT_FALSE) ∧
    (∃ v1 errno1, lept_parse L errno v (w1 ++ ['n', 'u', 'l', 'l'] ++ w2)
        = some (LEPT_PARSE_OK, v1, errno1) ∧ lept_get_type v1 = LEPT_NULL) := by
  have key : ∀ (lit : List Char) (type : lept_type),
      ((lit = ['t', 'r', 'u', 'e'] ∧ type = LEPT_TRUE) ∨
        (lit = ['f', 'a', 'l', 's', 'e'] ∧ type = LEPT_FALSE) ∨
        (lit = ['n', 'u', 'l', 'l'] ∧ type = LEPT_NULL)) →
      ∃ v1 errno1, lept_parse L errno v (w1 ++ lit ++ w2) = some (LEPT_PARSE_OK, v1, errno1) ∧
        lept_get_type v1 = type := by
    intro lit type hlit
    have h := parse_literal_text L errno v h1 lit type w2 hlit
    rw [trailing_whitespace h2] at h
    rw [List.append_assoc, h]
    exact ⟨_, _, rfl, rfl⟩
  exact ⟨key _ _ (Or.inl ⟨rfl, rfl⟩), key _ _ (Or.inr (Or.inl ⟨rfl, rfl⟩)),
    key _ _ (Or.inr (Or.inr ⟨rfl, rfl⟩))⟩

/-- C4 at the runs ` \t` and `\n` with the reference C library. -/
theorem C4_literals_parse_witness :
    (∃ v1 errno1, lept_parse libc_ref 0 ⟨⟨false, 0, 0⟩, LEPT_NUMBER⟩
        ([' ', '\t'] ++ ['t', 'r', 'u', 'e'] ++ ['\n'])
        = some (LEPT_PARSE_OK, v1, errno1) ∧ lept_get_type v1 = LEPT_TRUE) ∧
    (∃ v1 errno1, lept_parse libc_ref 0 ⟨⟨false, 0, 0⟩, LEPT_NUMBER⟩
        ([' ', '\t'] ++ ['f', 'a', 'l', 's', 'e'] ++ ['\n'])
        = some (LEPT_PARSE_OK, v1, errno1) ∧ lept_get_type v1 = LEPT_FALSE) ∧
    (∃ v1 errno1, lept_parse libc_ref 0 ⟨⟨false, 0, 0⟩, LEPT_NUMBER⟩
        ([' ', '\t'] ++ ['n', 'u', 'l', 'l'] ++ ['\n'])
        = some (LEPT_PARSE_OK, v1, errno1) ∧ lept_get_type v1 = LEPT_NULL) :=
  C4_literals_parse libc_ref 0 ⟨⟨false, 0, 0⟩, LEPT_NUMBER⟩ [' ', '\t'] ['\n']
    (by simp [WhitespaceRun, IsWhitespace]) (by simp [WhitespaceRun, IsWhitespace])

/-- C5: for every NUL-free text, `lept_parse` returns
`LEPT_PARSE_EXPECT_VALUE` if and only if the text consists solely of
whitespace characters (the empty text included). -/
theorem C5_expect_value_iff (L : Libc) (errno : Int) (v : lept_value) (s : List Char)
    (hs : NulFree s) :
    (∃ v1 errno1, lept_parse L errno v s = some (LEPT_PARSE_EXPECT_VALUE, v1, errno1)) ↔
      WhitespaceRun s := by
  constructor
  · rintro ⟨v1, errno1, h⟩
    rcases parse_cases L errno v s with ⟨h0, hp⟩ | ⟨_, _, _, _, hp⟩ |
      ⟨lit, type, t, hlit, hst, hp⟩ | ⟨code, hcode, _, _, hp⟩ | ⟨V, t, _, _, _, _, hp⟩ |
      ⟨V, t, hst, hV, _, _, hp⟩
    · exact whitespaceRun_of_trailing hs (by simp [h0])
    · rw [hp] at h; simp at h
    · rw [hp] at h
      split_ifs at h <;> simp at h
    · rw [hp] at h
      rcases hcode with rfl | rfl <;> simp at h
    · rw [hp] at h; simp at h
    · rw [hp] at h
      split_ifs at h <;> simp at h
  · intro hw
    have hnil : lept_parse_whitespace_loop s = [] := by
      have := whitespace_loop_append hw []
      rw [List.append_nil] at this
      rw [this]
      rfl
    have hval : lept_parse_value L errno { json := lept_parse_whitespace_loop s }
        { v with type := LEPT_NULL }
        = some (LEPT_PARSE_EXPECT_VALUE, { json := [] }, ⟨v.n, LEPT_NULL⟩, errno) := by
      rw [hnil]
      rfl
    rw [parse_of_value L errno v s hval]
    exact ⟨_, _, rfl⟩

/-- C5 at the text ` \r\n` with the reference C library. -/
theorem C5_expect_value_iff_witness :
    (∃ v1 errno1, lept_parse libc_ref 0 ⟨⟨false, 0, 0⟩, LEPT_TRUE⟩ [' ', '\r', '\n']
      = some (LEPT_PARSE_EXPECT_VALUE, v1, errno1)) ↔ WhitespaceRun [' ', '\r', '\n'] :=
  C5_expect_value_iff libc_ref 0 ⟨⟨false, 0, 0⟩, LEPT_TRUE⟩ [' ', '\r', '\n'] (by simp [NulFree])

/-- The driver on whitespace and then a text whose first character the
dispatcher sends to the number validator, when the validator fails. -/
theorem parse_number_failure (L : Libc) (errno : Int) (v : lept_value) {w s1 : List Char}
    (hw : WhitespaceRun w) {ch : Char} {r : List Char} (hs1 : s1 = ch :: r)
    (h1 : ch ≠ 't') (h2 : ch ≠ 'f') (h3 : ch ≠ 'n') (h4 : ch ≠ '\x00') (h5 : ¬ IsWhitespace ch)
    {code : lept_parse_code} (hcode : code ≠ LEPT_PARSE_OK)
    (hnum : lept_parse_number L errno { json := s1 } ⟨v.n, LEPT_NULL⟩
      = (code, { json := s1 }, ⟨v.n, LEPT_NULL⟩, errno)) :
    lept_parse L errno v (w ++ s1) = some (code, ⟨v.n, LEPT_NULL⟩, errno) := by
  have hskip : lept_parse_whitespace_loop (w ++ s1) = s1 := by
    rw [whitespace_loop_append hw]
    apply whitespace_loop_stop
    intro x r1 hx
    rw [hs1] at hx
    cases hx
    exact h5
  have hd : deref s1 = ch := by rw [hs1]; rfl
  have hval := parse_value_number L errno { json := s1 } ⟨v.n, LEPT_NULL⟩
    (by rw [hd]; exact h1) (by rw [hd]; exact h2) (by rw [hd]; exact h3) (by rw [hd]; exact h4)
  rw [hnum] at hval
  have hval2 : lept_parse_value L errno { json := lept_parse_whitespace_loop (w ++ s1) }
      { v with type := LEPT_NULL }
      = some (code, { json := s1 }, ⟨v.n, LEPT_NULL⟩, errno) := by
    rw [hskip]
    exact hval
  rw [parse_of_value L errno v _ hval2, if_neg hcode]

theorem number_loop_step_error {st : Nat} {ch : Char} {code : lept_parse_code} (p : List Char)
    (hterm : (ch == '\x00' || ch == ' ' || ch == '\t' || ch == '\n' || ch == '\r') = false)
    (hsw : lept_parse_number_switch st ch = .error code) :
    lept_parse_number_loop st (ch :: p) = .error code := by
  rw [lept_parse_number_loop, hterm, hsw]
  simp

theorem not_terminator_of {ch : Char} (h0 : ch ≠ '\x00') (hw : ¬ IsWhitespace ch) :
    (ch == '\x00' || ch == ' ' || ch == '\t' || ch == '\n' || ch == '\r') = false := by
  simp only [IsWhitespace, not_or] at hw
  simp [h0, hw]

/-- The first character of a sign and integer part. -/
theorem sign_int_head {a b : List Char} (ha : IsSign a) (hb : IsInt b) :
    ∃ ch r, a ++ b = ch :: r ∧ ch ≠ 't' ∧ ch ≠ 'f' ∧ ch ≠ 'n' ∧ ch ≠ '\x00' ∧
      ¬ IsWhitespace ch := by
  have hV : JsonNumber (a ++ b) := ⟨a, b, [], [], by simp, ha, hb, Or.inl rfl, Or.inl rfl⟩
  exact hV.head_dispatch

/-- C6, as the code has it: when a leading zero (optionally after a minus sign)
is immediately followed by a character other than `.`, `e`, `E`, whitespace or
the terminator, `lept_parse` returns `LEPT_PARSE_ROOT_NOT_SINGULAR`, with the
value's tag `LEPT_NULL`. -/
theorem C6_leading_zero_root_not_singular (L : Libc) (errno : Int) (v : lept_value)
    (w a rest : List Char) (ch : Char) (hw : WhitespaceRun w) (ha : IsSign a)
    (hdot : ch ≠ '.') (he : ch ≠ 'e') (hE : ch ≠ 'E') (h0 : ch ≠ '\x00')
    (hws : ¬ IsWhitespace ch) :
    lept_parse L errno v (w ++ a ++ '0' :: ch :: rest)
      = some (LEPT_PARSE_ROOT_NOT_SINGULAR, ⟨v.n, LEPT_NULL⟩, errno) := by
  obtain ⟨st, hst, hsign⟩ := number_loop_sign ha
  have h3 : lept_parse_number_loop 1 (a ++ '0' :: ch :: rest)
      = lept_parse_number_loop 3 (ch :: rest) := by
    rw [hsign]
    rcases hst with rfl | rfl <;> rfl
  have hsw : lept_parse_number_switch 3 ch = .error LEPT_PARSE_ROOT_NOT_SINGULAR := by
    simp [lept_parse_number_switch, Ne.symm hdot, Ne.symm he, Ne.symm hE]
  have hloop : lept_parse_number_loop 1 (a ++ '0' :: ch :: rest)
      = .error LEPT_PARSE_ROOT_NOT_SINGULAR := by
    rw [h3]
    exact number_loop_step_error rest (not_terminator_of h0 hws) hsw
  obtain ⟨x, r, hx, h1, h2, h3, h4, h5⟩ := sign_int_head ha (Or.inl rfl : IsInt ['0'])
  have hs1 : a ++ '0' :: ch :: rest = x :: (r ++ ch :: rest) := by
    have : a ++ '0' :: ch :: rest = (a ++ ['0']) ++ ch :: rest := by simp
    rw [this, hx]
    rfl
  rw [List.append_assoc]
  refine parse_number_failure L errno v hw hs1 h1 h2 h3 h4 h5 (by simp) ?_
  simp [lept_parse_number, hloop]

/-- C6 at the text `01` with the reference C library. -/
theorem C6_leading_zero_root_not_singular_witness :
    lept_parse libc_ref 0 ⟨⟨false, 0, 0⟩, LEPT_TRUE⟩ ([] ++ [] ++ '0' :: '1' :: [])
      = some (LEPT_PARSE_ROOT_NOT_SINGULAR, ⟨⟨false, 0, 0⟩, LEPT_NULL⟩, 0) :=
  C6_leading_zero_root_not_singular libc_ref 0 ⟨⟨false, 0, 0⟩, LEPT_TRUE⟩ [] [] [] '1'
    (by simp [WhitespaceRun]) (Or.inl rfl) (by decide) (by decide) (by decide) (by decide)
    (by simp [IsWhitespace])

/-- C6 as the spec states it fails: on the text `01` the code returns
`LEPT_PARSE_ROOT_NOT_SINGULAR`, not `LEPT_PARSE_INVALID_VALUE`. -/
theorem C6_leading_zero_counterexample :
    lept_parse libc_ref 0 ⟨⟨false, 0, 0⟩, LEPT_NULL⟩ ['0', '1']
        = some (LEPT_PARSE_ROOT_NOT_SINGULAR, ⟨⟨false, 0, 0⟩, LEPT_NULL⟩, 0) ∧
      ¬ ∃ v1 errno1, lept_parse libc_ref 0 ⟨⟨false, 0, 0⟩, LEPT_NULL⟩ ['0', '1']
        = some (LEPT_PARSE_INVALID_VALUE, v1, errno1) := by
  have h : lept_parse libc_ref 0 ⟨⟨false, 0, 0⟩, LEPT_NULL⟩ ['0', '1']
      = some (LEPT_PARSE_ROOT_NOT_SINGULAR, ⟨⟨false, 0, 0⟩, LEPT_NULL⟩, 0) := by decide
  refine ⟨h, ?_⟩
  rintro ⟨v1, errno1, h1⟩
  rw [h] at h1
  simp at h1

theorem WhitespaceRun.atTerminator_append {w2 : List Char} (hw2 : WhitespaceRun w2)
    (hne : w2 ≠ []) (r : List Char) : AtTerminator (w2 ++ r) := by
  obtain ⟨x, w, rfl⟩ := List.exists_cons_of_ne_nil hne
  exact Or.inr ⟨x, w ++ r, rfl, Or.inr (hw2 x (List.mem_cons_self _ _))⟩

/-- C7: for every valid value `V` (`true`, `false`, `null`, or a number literal
of the grammar whose conversion by the parser does not overflow), every
whitespace run `w1`, every non-empty whitespace run `w2` and every remainder
`r` that begins with a character that is not whitespace, `lept_parse` returns
`LEPT_PARSE_ROOT_NOT_SINGULAR` on `w1 ++ V ++ w2 ++ r` and leaves the value's
tag `LEPT_NULL`. -/
theorem C7_trailing_content (L : Libc) (errno : Int) (v : lept_value) (w1 V w2 r : List Char)
    (hw1 : WhitespaceRun w1) (hw2 : WhitespaceRun w2) (hne : w2 ≠ []) (hr : BeginsWithText r)
    (hV : V = ['t', 'r', 'u', 'e'] ∨ V = ['f', 'a', 'l', 's', 'e'] ∨ V = ['n', 'u', 'l', 'l'] ∨
      (JsonNumber V ∧ ¬ StrtodOverflows L (V ++ (w2 ++ r)) errno)) :
    ∃ v1 errno1, lept_parse L errno v (w1 ++ V ++ w2 ++ r)
        = some (LEPT_PARSE_ROOT_NOT_SINGULAR, v1, errno1) ∧
      lept_get_type v1 = LEPT_NULL := by
  have htr := trailing_text hw2 hr
  have hlit : ∀ (lit : List Char) (type : lept_type),
      ((lit = ['t', 'r', 'u', 'e'] ∧ type = LEPT_TRUE) ∨
        (lit = ['f', 'a', 'l', 's', 'e'] ∧ type = LEPT_FALSE) ∨
        (lit = ['n', 'u', 'l', 'l'] ∧ type = LEPT_NULL)) →
      ∃ v1 errno1, lept_parse L errno v (w1 ++ lit ++ w2 ++ r)
          = some (LEPT_PARSE_ROOT_NOT_SINGULAR, v1, errno1) ∧
        lept_get_type v1 = LEPT_NULL := by
    intro lit type h
    have hp := parse_literal_text L errno v hw1 lit type (w2 ++ r) h
    rw [htr, if_pos rfl] at hp
    simp only [List.append_assoc]
    exact ⟨_, _, hp, rfl⟩
  rcases hV with rfl | rfl | rfl | ⟨hnum, hfin⟩
  · exact hlit _ LEPT_TRUE (Or.inl ⟨rfl, rfl⟩)
  · exact hlit _ LEPT_FALSE (Or.inr (Or.inl ⟨rfl, rfl⟩))
  · exact hlit _ LEPT_NULL (Or.inr (Or.inr ⟨rfl, rfl⟩))
  · have hp := parse_number_text L errno v hw1 hnum (hw2.atTerminator_append hne r)
    rw [if_neg hfin, htr, if_pos rfl] at hp
    simp only [List.append_assoc]
    exact ⟨_, _, hp, rfl⟩

/-- The literal `1` is in the grammar. -/
theorem jsonNumber_one : JsonNumber ['1'] :=
  ⟨[], ['1'], [], [], rfl, Or.inl rfl,
    Or.inr ⟨'1', [], rfl, by simp [IsDigit1to9], Digits.nil⟩, Or.inl rfl, Or.inl rfl⟩

set_option maxRecDepth 100000 in
/-- C7 at the text `1 2` with the reference C library. -/
theorem C7_trailing_content_witness :
    ∃ v1 errno1, lept_parse libc_ref 0 ⟨⟨false, 0, 0⟩, LEPT_TRUE⟩ ([] ++ ['1'] ++ [' '] ++ ['2'])
        = some (LEPT_PARSE_ROOT_NOT_SINGULAR, v1, errno1) ∧
      lept_get_type v1 = LEPT_NULL :=
  C7_trailing_content libc_ref 0 ⟨⟨false, 0, 0⟩, LEPT_TRUE⟩ [] ['1'] [' '] ['2']
    (by simp [WhitespaceRun]) (by simp [WhitespaceRun, IsWhitespace]) (by simp)
    ⟨'2', [], rfl, by simp [IsWhitespace], by decide⟩
    (Or.inr (Or.inr (Or.inr ⟨jsonNumber_one, by decide⟩)))

/-- C8: the literal matcher checks only the literal's own length: on
`w ++ L ++ r`, with `w` a whitespace run, `L` one of `true`, `false`, `null`
and `r` beginning with a character that is not whitespace, `lept_parse`
returns `LEPT_PARSE_ROOT_NOT_SINGULAR` (with tag `LEPT_NULL`), and so does not
return `LEPT_PARSE_INVALID_VALUE`. -/
theorem C8_literal_then_text (L : Libc) (errno : Int) (v : lept_value) (w lit r : List Char)
    (hw : WhitespaceRun w) (hr : BeginsWithText r)
    (hlit : lit = ['t', 'r', 'u', 'e'] ∨ lit = ['f', 'a', 'l', 's', 'e'] ∨
      lit = ['n', 'u', 'l', 'l']) :
    lept_parse L errno v (w ++ lit ++ r)
        = some (LEPT_PARSE_ROOT_NOT_SINGULAR, ⟨v.n, LEPT_NULL⟩, errno) ∧
      ¬ ∃ v1 errno1, lept_parse L errno v (w ++ lit ++ r)
        = some (LEPT_PARSE_INVALID_VALUE, v1, errno1) := by
  have htr : (deref (lept_parse_whitespace_loop r) != '\x00') = true := by
    have := trailing_text (w := []) (fun _ hx => absurd hx (List.not_mem_nil _)) hr
    simpa using this
  have hp : lept_parse L errno v (w ++ lit ++ r)
      = some (LEPT_PARSE_ROOT_NOT_SINGULAR, ⟨v.n, LEPT_NULL⟩, errno) := by
    rw [List.append_assoc]
    rcases hlit with rfl | rfl | rfl
    · rw [parse_literal_text L errno v hw _ LEPT_TRUE r (Or.inl ⟨rfl, rfl⟩), htr, if_pos rfl]
    · rw [parse_literal_text L errno v hw _ LEPT_FALSE r (Or.inr (Or.inl ⟨rfl, rfl⟩)), htr,
        if_pos rfl]
    · rw [parse_literal_text L errno v hw _ LEPT_NULL r (Or.inr (Or.inr ⟨rfl, rfl⟩)), htr,
        if_pos rfl]
  refine ⟨hp, ?_⟩
  rintro ⟨v1, errno1, h1⟩
  rw [hp] at h1
  simp at h1

/-- C8 at the text `truex` with the reference C library. -/
theorem C8_literal_then_text_witness :
    lept_parse libc_ref 0 ⟨⟨false, 0, 0⟩, LEPT_TRUE⟩ ([] ++ ['t', 'r', 'u', 'e'] ++ ['x'])
        = some (LEPT_PARSE_ROOT_NOT_SINGULAR, ⟨⟨false, 0, 0⟩, LEPT_NULL⟩, 0) ∧
      ¬ ∃ v1 errno1,
        lept_parse libc_ref 0 ⟨⟨false, 0, 0⟩, LEPT_TRUE⟩ ([] ++ ['t', 'r', 'u', 'e'] ++ ['x'])
          = some (LEPT_PARSE_INVALID_VALUE, v1, errno1) :=
  C8_literal_then_text libc_ref 0 ⟨⟨false, 0, 0⟩, LEPT_TRUE⟩ [] ['t', 'r', 'u', 'e'] ['x']
    (by simp [WhitespaceRun]) ⟨'x', [], rfl, by simp [IsWhitespace], by decide⟩ (Or.inl rfl)

theorem AtTerminator.atDelimiter {t : List Char} (h : AtTerminator t) (hn : NulFree t) :
    AtDelimiter t := by
  rcases h with rfl | ⟨ch, r, rfl, h0 | hw⟩
  · exact Or.inl rfl
  · exact absurd (by rw [h0]; simp) hn
  · exact Or.inr ⟨ch, r, rfl, hw⟩

/-- C9: for every NUL-free text, `lept_parse` returns
`LEPT_PARSE_NUMBER_TOO_BIG` if and only if the text is `w ++ V ++ r` with `w` a
whitespace run, `V` a number literal of the grammar, `r` empty or beginning
with whitespace, and the conversion overflowing (the call of `strtod` at the
literal's first character returns plus or minus `HUGE_VAL` with `errno` at
`ERANGE`); whatever follows the delimiter in `r` does not matter. -/
theorem C9_number_too_big_iff (L : Libc) (errno : Int) (v : lept_value) (s : List Char)
    (hs : NulFree s) :
    (∃ v1 errno1, lept_parse L errno v s = some (LEPT_PARSE_NUMBER_TOO_BIG, v1, errno1)) ↔
      ∃ w V r, s = w ++ V ++ r ∧ WhitespaceRun w ∧ JsonNumber V ∧ AtDelimiter r ∧
        StrtodOverflows L (V ++ r) errno := by
  constructor
  · rintro ⟨v1, errno1, h⟩
    obtain ⟨w, hw, hsplit, _⟩ := whitespace_loop_split s
    rcases parse_cases L errno v s with ⟨_, hp⟩ | ⟨_, _, _, _, hp⟩ |
      ⟨lit, type, t, hlit, hst, hp⟩ | ⟨code, hcode, _, _, hp⟩ | ⟨V, t, hst, hV, ht, ho, _⟩ |
      ⟨V, t, hst, hV, _, _, hp⟩
    · rw [hp] at h; simp at h
    · rw [hp] at h; simp at h
    · rw [hp] at h
      split_ifs at h <;> simp at h
    · rw [hp] at h
      rcases hcode with rfl | rfl <;> simp at h
    · have hfree : NulFree t := by
        intro h0
        apply hs
        rw [hsplit, hst]
        simp [h0]
      refine ⟨w, V, t, ?_, hw, hV, ht.atDelimiter hfree, ho⟩
      rw [List.append_assoc, ← hst]
      exact hsplit
    · rw [hp] at h
      split_ifs at h <;> simp at h
  · rintro ⟨w, V, r, rfl, hw, hV, hr, ho⟩
    have hp := parse_number_text L errno v hw hV hr.atTerminator
    rw [if_pos ho] at hp
    rw [List.append_assoc, hp]
    exact ⟨_, _, rfl⟩

/-- The literal `1e400` is in the grammar. -/
theorem jsonNumber_1e400 : JsonNumber ['1', 'e', '4', '0', '0'] :=
  ⟨[], ['1'], [], ['e', '4', '0', '0'], rfl, Or.inl rfl,
    Or.inr ⟨'1', [], rfl, by simp [IsDigit1to9], Digits.nil⟩, Or.inl rfl,
    Or.inr ⟨'e', [], ['4', '0', '0'], rfl, Or.inl rfl, Or.inl rfl, by simp,
      by simp [Digits, IsDigit]⟩⟩

set_option maxRecDepth 100000 in
/-- C9 at the text `1e400` with the reference C library: the conversion
overflows and `lept_parse` returns `LEPT_PARSE_NUMBER_TOO_BIG`. -/
theorem C9_number_too_big_iff_witness :
    ∃ v1 errno1, lept_parse libc_ref 0 ⟨⟨false, 0, 0⟩, LEPT_TRUE⟩ ['1', 'e', '4', '0', '0']
      = some (LEPT_PARSE_NUMBER_TOO_BIG, v1, errno1) :=
  (C9_number_too_big_iff libc_ref 0 ⟨⟨false, 0, 0⟩, LEPT_TRUE⟩ ['1', 'e', '4', '0', '0']
    (by simp [NulFree])).2
    ⟨[], ['1', 'e', '4', '0', '0'], [], rfl, by simp [WhitespaceRun], jsonNumber_1e400,
      Or.inl rfl, by decide!⟩

/-- C11: when the first significant character of the text is none of `t`,
`f`, `n`, `-` or a digit, `lept_parse` returns `LEPT_PARSE_INVALID_VALUE` (and
the value's tag is `LEPT_NULL`). -/
theorem C11_bad_first_character (L : Libc) (errno : Int) (v : lept_value) (w rest : List Char)
    (ch : Char) (hw : WhitespaceRun w) (hws : ¬ IsWhitespace ch) (h0 : ch ≠ '\x00')
    (ht : ch ≠ 't') (hf : ch ≠ 'f') (hn : ch ≠ 'n') (hm : ch ≠ '-') (hd : ¬ IsDigit ch) :
    lept_parse L errno v (w ++ ch :: rest)
      = some (LEPT_PARSE_INVALID_VALUE, ⟨v.n, LEPT_NULL⟩, errno) := by
  have hz : ch ≠ '0' := fun h => hd (by rw [h]; simp [IsDigit])
  have h19 : ISDIGIT1TO9 ch = false := by
    cases h : ISDIGIT1TO9 ch with
    | false => rfl
    | true => exact absurd ((ISDIGIT1TO9_iff ch).1 h).isDigit hd
  have hsw : lept_parse_number_switch 1 ch = .error LEPT_PARSE_INVALID_VALUE := by
    simp [lept_parse_number_switch, Ne.symm hm, Ne.symm hz, h19]
  have hloop : lept_parse_number_loop 1 (ch :: rest) = .error LEPT_PARSE_INVALID_VALUE :=
    number_loop_step_error rest (not_terminator_of h0 hws) hsw
  refine parse_number_failure L errno v hw rfl ht hf hn h0 hws (by simp) ?_
  simp [lept_parse_number, hloop]

/-- C11 at the text ` .1` with the reference C library. -/
theorem C11_bad_first_character_witness :
    lept_parse libc_ref 0 ⟨⟨false, 0, 0⟩, LEPT_TRUE⟩ ([' '] ++ '.' :: ['1'])
      = some (LEPT_PARSE_INVALID_VALUE, ⟨⟨false, 0, 0⟩, LEPT_NULL⟩, 0) :=
  C11_bad_first_character libc_ref 0 ⟨⟨false, 0, 0⟩, LEPT_TRUE⟩ [' '] ['1'] '.'
    (by simp [WhitespaceRun, IsWhitespace]) (by simp [IsWhitespace]) (by decide) (by decide)
    (by decide) (by decide) (by decide) (by simp [IsDigit])

/-- The driver on whitespace and then a text that begins with a literal's first
character but not with the literal. -/
theorem parse_literal_mismatch (L : Libc) (errno : Int) (v : lept_value) {w : List Char}
    (hw : WhitespaceRun w) (l0 : Char) (ls rest : List Char)
    (hlit : l0 :: ls = ['t', 'r', 'u', 'e'] ∨ l0 :: ls = ['f', 'a', 'l', 's', 'e'] ∨
      l0 :: ls = ['n', 'u', 'l', 'l'])
    (hno : ¬ ∃ t, rest = ls ++ t) :
    lept_parse L errno v (w ++ l0 :: rest)
      = some (LEPT_PARSE_INVALID_VALUE, ⟨v.n, LEPT_NULL⟩, errno) := by
  have hl0 : ¬ IsWhitespace l0 ∧ NulFree (l0 :: ls) := by
    rcases hlit with h | h | h <;> cases h <;> simp [IsWhitespace, NulFree]
  have hskip : lept_parse_whitespace_loop (w ++ l0 :: rest) = l0 :: rest := by
    rw [whitespace_loop_append hw]
    apply whitespace_loop_stop
    intro x r1 hx
    cases hx
    exact hl0.1
  have hno2 : ¬ ∃ t, l0 :: rest = (l0 :: ls) ++ t := by
    rintro ⟨t, ht⟩
    exact hno ⟨t, by simpa using ht⟩
  have key : ∀ type : lept_type,
      ∃ c1, lept_parse_literal { json := l0 :: rest } ⟨v.n, LEPT_NULL⟩ (l0 :: ls) type
        = some (LEPT_PARSE_INVALID_VALUE, c1, ⟨v.n, LEPT_NULL⟩) := by
    intro type
    rcases parse_literal_cases { json := l0 :: rest } ⟨v.n, LEPT_NULL⟩ l0 ls type hl0.2 rfl with
      ⟨t, ht, _⟩ | ⟨c1, _, hr⟩
    · exact absurd ⟨t, ht⟩ hno2
    · exact ⟨c1, hr⟩
  have hval : ∃ c1, lept_parse_value L errno { json := lept_parse_whitespace_loop (w ++ l0 :: rest) }
      { v with type := LEPT_NULL }
      = some (LEPT_PARSE_INVALID_VALUE, c1, ⟨v.n, LEPT_NULL⟩, errno) := by
    rw [hskip]
    rcases hlit with h | h | h <;> cases h
    · obtain ⟨c1, hr⟩ := key LEPT_TRUE
      exact ⟨c1, by simp [lept_parse_value, deref, hr]⟩
    · obtain ⟨c1, hr⟩ := key LEPT_FALSE
      exact ⟨c1, by simp [lept_parse_value, deref, hr]⟩
    · obtain ⟨c1, hr⟩ := key LEPT_NULL
      exact ⟨c1, by simp [lept_parse_value, deref, hr]⟩
  obtain ⟨c1, hval⟩ := hval
  rw [parse_of_value L errno v _ hval]
  simp

/-- C12: when the first significant character of the text is `t`, `f` or `n`
but the characters after it do not spell out the rest of `true`, `false` or
`null` respectively (the text is cut short, or has a wrong character),
`lept_parse` returns `LEPT_PARSE_INVALID_VALUE` (and the value's tag is
`LEPT_NULL`). -/
theorem C12_literal_mismatch (L : Libc) (errno : Int) (v : lept_value) (w rest : List Char)
    (l0 : Char) (ls : List Char) (hw : WhitespaceRun w)
    (hlit : l0 :: ls = ['t', 'r', 'u', 'e'] ∨ l0 :: ls = ['f', 'a', 'l', 's', 'e'] ∨
      l0 :: ls = ['n', 'u', 'l', 'l'])
    (hno : ¬ ∃ t, rest = ls ++ t) :
    lept_parse L errno v (w ++ l0 :: rest)
      = some (LEPT_PARSE_INVALID_VALUE, ⟨v.n, LEPT_NULL⟩, errno) :=
  parse_literal_mismatch L errno v hw l0 ls rest hlit hno

/-- C12 at the text `nulx` with the reference C library. -/
theorem C12_literal_mismatch_witness :
    lept_parse libc_ref 0 ⟨⟨false, 0, 0⟩, LEPT_TRUE⟩ ([] ++ 'n' :: ['u', 'l', 'x'])
      = some (LEPT_PARSE_INVALID_VALUE, ⟨⟨false, 0, 0⟩, LEPT_NULL⟩, 0) :=
  C12_literal_mismatch libc_ref 0 ⟨⟨false, 0, 0⟩, LEPT_TRUE⟩ [] ['u', 'l', 'x'] 'n' ['u', 'l', 'l']
    (by simp [WhitespaceRun]) (Or.inr (Or.inr rfl)) (by simp)

/-- C14: from every cursor position `lept_parse_whitespace` moves the cursor
forward over a run of whitespace characters only, to the first character at or
after it that is not space, tab, newline or carriage return (or to the end);
and applying it a second time leaves the cursor where the first application
put it. -/
theorem C14_whitespace_skipper (c : lept_context) :
    (∃ w, WhitespaceRun w ∧ c.json = w ++ (lept_parse_whitespace c).json ∧
      ∀ ch r, (lept_parse_whitespace c).json = ch :: r → ¬ IsWhitespace ch) ∧
    lept_parse_whitespace (lept_parse_whitespace c) = lept_parse_whitespace c := by
  obtain ⟨w, hw, hsplit, hstop⟩ := whitespace_loop_split c.json
  refine ⟨⟨w, hw, hsplit, hstop⟩, ?_⟩
  simp only [lept_parse_whitespace]
  rw [whitespace_loop_stop hstop]

/-- C19: the assertion in `EXPECT` is the only way the model of
`lept_parse_literal` fails (it returns `none` exactly when the cursor's
character differs from the literal's first), and no call made during
`lept_parse` fails it: `lept_parse` returns a code and a value on every
text. -/
theorem C19_expect_never_fails :
    (∀ (c : lept_context) (v : lept_value) (literal : List Char) (type : lept_type),
      lept_parse_literal c v literal type = none ↔ deref c.json ≠ deref literal) ∧
    (∀ (L : Libc) (errno : Int) (c : lept_context) (v : lept_value),
      ∃ r, lept_parse_value L errno c v = some r) ∧
    ∀ (L : Libc) (errno : Int) (v : lept_value) (s : List Char),
      ∃ r, lept_parse L errno v s = some r := by
  refine ⟨?_, ?_, ?_⟩
  · intro c v literal type
    constructor
    · intro h hd
      obtain ⟨r, hr⟩ := parse_literal_isSome c v literal type hd
      rw [hr] at h
      cases h
    · intro hd
      simp [lept_parse_literal, hd]
  · intro L errno c v
    unfold lept_parse_value
    split_ifs with h1 h2 h3 h4
    · obtain ⟨r, hr⟩ := parse_literal_isSome c v ['t', 'r', 'u', 'e'] LEPT_TRUE
        (by simpa [deref] using h1)
      exact ⟨_, by rw [hr]; rfl⟩
    · obtain ⟨r, hr⟩ := parse_literal_isSome c v ['f', 'a', 'l', 's', 'e'] LEPT_FALSE
        (by simpa [deref] using h2)
      exact ⟨_, by rw [hr]; rfl⟩
    · obtain ⟨r, hr⟩ := parse_literal_isSome c v ['n', 'u', 'l', 'l'] LEPT_NULL
        (by simpa [deref] using h3)
      exact ⟨_, by rw [hr]; rfl⟩
    · exact ⟨_, rfl⟩
    · exact ⟨_, rfl⟩
  · intro L errno v s
    rcases parse_cases L errno v s with ⟨_, hp⟩ | ⟨_, _, _, _, hp⟩ | ⟨_, _, _, _, _, hp⟩ |
      ⟨_, _, _, _, hp⟩ | ⟨_, _, _, _, _, _, hp⟩ | ⟨_, _, _, _, _, _, hp⟩
    · exact ⟨_, hp⟩
    · exact ⟨_, hp⟩
    · rw [hp]
      split_ifs <;> exact ⟨_, rfl⟩
    · exact ⟨_, hp⟩
    · exact ⟨_, hp⟩
    · rw [hp]
      split_ifs <;> exact ⟨_, rfl⟩

theorem number_switch_to_three {st : Nat} {ch : Char}
    (h : lept_parse_number_switch st ch = .ok 3) : (st = 1 ∨ st = 2) ∧ ch = '0' := by
  unfold lept_parse_number_switch at h
  split at h <;> (try split_ifs at h) <;> cases h
  · rename_i hm hz
    exact ⟨Or.inl rfl, (beq_iff_eq.1 hz).symm⟩
  · rename_i hz
    exact ⟨Or.inr rfl, (beq_iff_eq.1 hz).symm⟩

theorem number_switch_to_two {st : Nat} {ch : Char}
    (h : lept_parse_number_switch st ch = .ok 2) : st = 1 ∧ ch = '-' := by
  unfold lept_parse_number_switch at h
  split at h <;> (try split_ifs at h) <;> cases h
  rename_i hm
  exact ⟨rfl, (beq_iff_eq.1 hm).symm⟩

theorem number_switch_not_to_one {st : Nat} {ch : Char} :
    lept_parse_number_switch st ch ≠ .ok 1 := by
  intro h
  unfold lept_parse_number_switch at h
  split at h <;> (try split_ifs at h) <;> cases h

/-- When the scan returns `LEPT_PARSE_ROOT_NOT_SINGULAR` from inside the loop,
it has read a zero, or a minus sign and a zero, and then a character that is
no terminator. -/
theorem number_loop_root : ∀ (s : List Char) (st : Nat),
    lept_parse_number_loop st s = .error LEPT_PARSE_ROOT_NOT_SINGULAR →
    ∃ u ch rest, s = u ++ ch :: rest ∧
      (ch == '\x00' || ch == ' ' || ch == '\t' || ch == '\n' || ch == '\r') = false ∧
      ((st = 3 ∧ u = []) ∨ (st = 2 ∧ u = ['0']) ∨ (st = 1 ∧ (u = ['0'] ∨ u = ['-', '0'])))
  | [], st, h => by simp [lept_parse_number_loop] at h
  | ch :: p, st, h => by
    rw [lept_parse_number_loop] at h
    split_ifs at h with hb
    have hb1 : (ch == '\x00' || ch == ' ' || ch == '\t' || ch == '\n' || ch == '\r') = false := by
      simpa using hb
    cases hsw : lept_parse_number_switch st ch with
    | error code =>
      rw [hsw] at h
      cases h
      rcases number_switch_error hsw with h1 | ⟨_, h3⟩
      · cases h1
      · exact ⟨[], ch, p, rfl, hb1, Or.inl ⟨h3, rfl⟩⟩
    | ok st2 =>
      rw [hsw] at h
      obtain ⟨u, x, rest, hp, hx, hu⟩ := number_loop_root p st2 h
      refine ⟨ch :: u, x, rest, by rw [hp]; rfl, hx, ?_⟩
      rcases hu with ⟨rfl, rfl⟩ | ⟨rfl, rfl⟩ | ⟨rfl, hu⟩
      · obtain ⟨hst, rfl⟩ := number_switch_to_three hsw
        rcases hst with rfl | rfl
        · exact Or.inr (Or.inr ⟨rfl, Or.inl rfl⟩)
        · exact Or.inr (Or.inl ⟨rfl, rfl⟩)
      · obtain ⟨rfl, rfl⟩ := number_switch_to_two hsw
        exact Or.inr (Or.inr ⟨rfl, Or.inr rfl⟩)
      · exact absurd hsw number_switch_not_to_one

theorem jsonNumber_zero : JsonNumber ['0'] :=
  ⟨[], ['0'], [], [], rfl, Or.inl rfl, Or.inl rfl, Or.inl rfl, Or.inl rfl⟩

theorem jsonNumber_minus_zero : JsonNumber ['-', '0'] :=
  ⟨['-'], ['0'], [], [], rfl, Or.inr rfl, Or.inl rfl, Or.inl rfl, Or.inl rfl⟩

/-- C17: if `lept_parse` returns `LEPT_PARSE_ROOT_NOT_SINGULAR` then the text
is `w ++ V ++ r` with `w` a whitespace run, `V` a complete valid value
(`true`, `false`, `null` or a number literal of the grammar) and `r` holding a
character that is not whitespace; this covers the driver's check of the
trailing content and the return from the validator's state after a leading
zero. -/
theorem C17_root_not_singular_shape (L : Libc) (errno : Int) (v : lept_value) (s : List Char)
    (v1 : lept_value) (errno1 : Int)
    (h : lept_parse L errno v s = some (LEPT_PARSE_ROOT_NOT_SINGULAR, v1, errno1)) :
    ∃ w V r, s = w ++ V ++ r ∧ WhitespaceRun w ∧
      (V = ['t', 'r', 'u', 'e'] ∨ V = ['f', 'a', 'l', 's', 'e'] ∨ V = ['n', 'u', 'l', 'l'] ∨
        JsonNumber V) ∧
      ∃ ch ∈ r, ¬ IsWhitespace ch := by
  obtain ⟨w, hw, hsplit, _⟩ := whitespace_loop_split s
  have htext : ∀ t : List Char, (deref (lept_parse_whitespace_loop t) != '\x00') = true →
      ∃ ch ∈ t, ¬ IsWhitespace ch := by
    intro t ht
    obtain ⟨w2, r2, rfl, _, ch, r3, rfl, hch, _⟩ := text_of_trailing ht
    exact ⟨ch, by simp, hch⟩
  rcases parse_cases L errno v s with ⟨_, hp⟩ | ⟨_, _, _, _, hp⟩ | ⟨lit, type, t, hlit, hst, hp⟩ |
    ⟨code, hcode, _, hnum, hp⟩ | ⟨V, t, _, _, _, _, hp⟩ | ⟨V, t, hst, hV, _, _, hp⟩
  · rw [hp] at h; simp at h
  · rw [hp] at h; simp at h
  · rw [hp] at h
    split_ifs at h with htr
    · refine ⟨w, lit, t, ?_, hw, ?_, htext t htr⟩
      · rw [List.append_assoc, ← hst]
        exact hsplit
      · rcases hlit with ⟨rfl, _⟩ | ⟨rfl, _⟩ | ⟨rfl, _⟩ <;> simp
    · simp at h
  · rw [hp] at h
    simp only [Option.some.injEq, Prod.mk.injEq] at h
    have hc : code = LEPT_PARSE_ROOT_NOT_SINGULAR := h.1
    subst hc
    have hloop : lept_parse_number_loop 1 (lept_parse_whitespace_loop s)
        = .error LEPT_PARSE_ROOT_NOT_SINGULAR := by
      cases hl : lept_parse_number_loop 1 (lept_parse_whitespace_loop s) with
      | error code =>
        simp only [lept_parse_number, hl, Prod.mk.injEq] at hnum
        rw [hnum.1]
      | ok r =>
        obtain ⟨st, p⟩ := r
        simp only [lept_parse_number, hl] at hnum
        split_ifs at hnum <;> simp at hnum
    obtain ⟨u, ch, rest, hs1, hch, hu⟩ := number_loop_root _ 1 hloop
    have hnw : ¬ IsWhitespace ch := by
      intro hws
      have := hws.beq
      simp only [Bool.or_eq_false_iff] at hch
      simp only [Bool.or_eq_true] at this
      simp_all
    have hu1 : u = ['0'] ∨ u = ['-', '0'] := by
      rcases hu with ⟨h3, _⟩ | ⟨h2, _⟩ | ⟨_, hu⟩
      · cases h3
      · cases h2
      · exact hu
    refine ⟨w, u, ch :: rest, ?_, hw, Or.inr (Or.inr (Or.inr ?_)), ch, by simp, hnw⟩
    · rw [List.append_assoc, ← hs1]
      exact hsplit
    · rcases hu1 with rfl | rfl
      · exact jsonNumber_zero
      · exact jsonNumber_minus_zero
  · rw [hp] at h; simp at h
  · rw [hp] at h
    split_ifs at h with htr
    · refine ⟨w, V, t, ?_, hw, Or.inr (Or.inr (Or.inr hV)), htext t htr⟩
      rw [List.append_assoc, ← hst]
      exact hsplit
    · simp at h

/-- C17 at the text `0x` with the reference C library. -/
theorem C17_root_not_singular_shape_witness :
    ∃ w V r, ['0', 'x'] = w ++ V ++ r ∧ WhitespaceRun w ∧
      (V = ['t', 'r', 'u', 'e'] ∨ V = ['f', 'a', 'l', 's', 'e'] ∨ V = ['n', 'u', 'l', 'l'] ∨
        JsonNumber V) ∧
      ∃ ch ∈ r, ¬ IsWhitespace ch :=
  C17_root_not_singular_shape libc_ref 0 ⟨⟨false, 0, 0⟩, LEPT_TRUE⟩ ['0', 'x']
    ⟨⟨false, 0, 0⟩, LEPT_NULL⟩ 0 (by decide)

/-- C15, as the code has it: on every text on which `lept_parse` returns
`LEPT_PARSE_NUMBER_TOO_BIG` the value's tag after the call is `LEPT_NULL`, and
its payload field `n` does not keep what it held before the call: it holds the
plus or minus `HUGE_VAL` that `strtod` returned for the text after the leading
whitespace, which `lept_parse_number` stores before it tests for overflow. -/
theorem C15_too_big_payload (L : Libc) (errno : Int) (v : lept_value) (s : List Char)
    (v1 : lept_value) (errno1 : Int)
    (h : lept_parse L errno v s = some (LEPT_PARSE_NUMBER_TOO_BIG, v1, errno1)) :
    lept_get_type v1 = LEPT_NULL ∧
      v1.n = (L.strtod (lept_parse_whitespace_loop s) errno).1 ∧
      (HUGE_VAL.ceq v1.n = true ∨ HUGE_VAL.neg.ceq v1.n = true) := by
  rcases parse_cases L errno v s with ⟨_, hp⟩ | ⟨_, _, _, _, hp⟩ | ⟨lit, type, t, hlit, hst, hp⟩ |
    ⟨code, hcode, _, _, hp⟩ | ⟨V, t, hst, _, _, ho, hp⟩ | ⟨V, t, hst, hV, _, _, hp⟩
  · rw [hp] at h; simp at h
  · rw [hp] at h; simp at h
  · rw [hp] at h
    split_ifs at h <;> simp at h
  · rw [hp] at h
    rcases hcode with rfl | rfl <;> simp at h
  · rw [hp] at h
    simp only [Option.some.injEq, Prod.mk.injEq, true_and] at h
    rw [← h.1, hst]
    exact ⟨rfl, rfl, ho.2⟩
  · rw [hp] at h
    split_ifs at h <;> simp at h

set_option maxRecDepth 100000 in
/-- C15 at the text `1e400` with the reference C library. -/
theorem C15_too_big_payload_witness :
    lept_get_type ⟨⟨false, 2047, 0⟩, LEPT_NULL⟩ = LEPT_NULL ∧
      (⟨⟨false, 2047, 0⟩, LEPT_NULL⟩ : lept_value).n
        = (libc_ref.strtod (lept_parse_whitespace_loop ['1', 'e', '4', '0', '0']) 0).1 ∧
      (HUGE_VAL.ceq (⟨⟨false, 2047, 0⟩, LEPT_NULL⟩ : lept_value).n = true ∨
        HUGE_VAL.neg.ceq (⟨⟨false, 2047, 0⟩, LEPT_NULL⟩ : lept_value).n = true) :=
  C15_too_big_payload libc_ref 0 ⟨⟨false, 0, 0⟩, LEPT_TRUE⟩ ['1', 'e', '4', '0', '0']
    ⟨⟨false, 2047, 0⟩, LEPT_NULL⟩ 34 (by decide!)

set_option maxRecDepth 100000 in
/-- C15 as the spec states it fails: on the text `1e400`, with the payload
holding zero before the call, `lept_parse` returns `LEPT_PARSE_NUMBER_TOO_BIG`
and the payload after the call is positive infinity, not zero. -/
theorem C15_too_big_payload_counterexample :
    ∃ v1 errno1,
      lept_parse libc_ref 0 ⟨⟨false, 0, 0⟩, LEPT_NULL⟩ ['1', 'e', '4', '0', '0']
        = some (LEPT_PARSE_NUMBER_TOO_BIG, v1, errno1) ∧
      v1.n ≠ (⟨⟨false, 0, 0⟩, LEPT_NULL⟩ : lept_value).n :=
  ⟨⟨⟨false, 2047, 0⟩, LEPT_NULL⟩, 34, by decide!, by decide⟩

/-! ## The driver as a function of the text -/

/-- The driver on whitespace and then the terminator. -/
theorem parse_expect_text (L : Libc) (errno : Int) (v : lept_value) {w s1 : List Char}
    (hw : WhitespaceRun w) (h0 : deref s1 = '\x00') :
    lept_parse L errno v (w ++ s1)
      = some (LEPT_PARSE_EXPECT_VALUE, ⟨v.n, LEPT_NULL⟩, errno) := by
  have hskip : lept_parse_whitespace_loop (w ++ s1) = s1 := by
    rw [whitespace_loop_append hw]
    apply whitespace_loop_stop
    intro x r hx hws
    rw [hx] at h0
    have hx0 : x = '\x00' := h0
    rw [hx0] at hws
    simp [IsWhitespace] at hws
  have hval : lept_parse_value L errno { json := lept_parse_whitespace_loop (w ++ s1) }
      { v with type := LEPT_NULL }
      = some (LEPT_PARSE_EXPECT_VALUE, { json := s1 }, ⟨v.n, LEPT_NULL⟩, errno) := by
    rw [hskip]
    simp [lept_parse_value, h0]
  rw [parse_of_value L errno v _ hval]
  simp

/-- The driver on whitespace and then a text whose first character the
dispatcher sends to the number validator, in terms of what the scan does. -/
theorem parse_number_scan_text (L : Libc) (errno : Int) (v : lept_value) {w s1 : List Char}
    (hw : WhitespaceRun w) {ch : Char} {r : List Char} (hs1 : s1 = ch :: r)
    (h1 : ch ≠ 't') (h2 : ch ≠ 'f') (h3 : ch ≠ 'n') (h4 : ch ≠ '\x00') (h5 : ¬ IsWhitespace ch) :
    lept_parse L errno v (w ++ s1) =
      match lept_parse_number_loop 1 s1 with
      | .error code => some (code, ⟨v.n, LEPT_NULL⟩, errno)
      | .ok (st, p) =>
        if (1 == st || 2 == st || 5 == st || 7 == st || 8 == st) = true then
          some (LEPT_PARSE_INVALID_VALUE, ⟨v.n, LEPT_NULL⟩, errno)
        else if StrtodOverflows L s1 errno then
          some (LEPT_PARSE_NUMBER_TOO_BIG, ⟨(L.strtod s1 errno).1, LEPT_NULL⟩,
            (L.strtod s1 errno).2)
        else if deref (lept_parse_whitespace_loop p) != '\x00' then
          some (LEPT_PARSE_ROOT_NOT_SINGULAR, ⟨(L.strtod s1 errno).1, LEPT_NULL⟩,
            (L.strtod s1 errno).2)
        else
          some (LEPT_PARSE_OK, ⟨(L.strtod s1 errno).1, LEPT_NUMBER⟩, (L.strtod s1 errno).2) := by
  have hskip : lept_parse_whitespace_loop (w ++ s1) = s1 := by
    rw [whitespace_loop_append hw]
    apply whitespace_loop_stop
    intro x r1 hx
    rw [hs1] at hx
    cases hx
    exact h5
  have hd : deref s1 = ch := by rw [hs1]; rfl
  have hval : lept_parse_value L errno { json := lept_parse_whitespace_loop (w ++ s1) }
      { v with type := LEPT_NULL }
      = some (lept_parse_number L errno { json := s1 } ⟨v.n, LEPT_NULL⟩) := by
    rw [hskip]
    exact parse_value_number L errno { json := s1 } ⟨v.n, LEPT_NULL⟩
      (by rw [hd]; exact h1) (by rw [hd]; exact h2) (by rw [hd]; exact h3) (by rw [hd]; exact h4)
  cases hloop : lept_parse_number_loop 1 s1 with
  | error code =>
    have hcode : code ≠ LEPT_PARSE_OK := by
      rcases number_loop_error _ _ _ hloop with rfl | rfl <;> simp
    have hnum : lept_parse_number L errno { json := s1 } ⟨v.n, LEPT_NULL⟩
        = (code, { json := s1 }, ⟨v.n, LEPT_NULL⟩, errno) := by
      simp [lept_parse_number, hloop]
    rw [hnum] at hval
    rw [parse_of_value L errno v _ hval, if_neg hcode]
  | ok res =>
    obtain ⟨st, p⟩ := res
    by_cases hbad : (1 == st || 2 == st || 5 == st || 7 == st || 8 == st) = true
    · have hnum : lept_parse_number L errno { json := s1 } ⟨v.n, LEPT_NULL⟩
          = (LEPT_PARSE_INVALID_VALUE, { json := s1 }, ⟨v.n, LEPT_NULL⟩, errno) := by
        simp only [lept_parse_number, hloop, hbad, if_true]
      rw [hnum] at hval
      rw [parse_of_value L errno v _ hval]
      simp [hbad]
    · by_cases ho : StrtodOverflows L s1 errno
      · have hnum : lept_parse_number L errno { json := s1 } ⟨v.n, LEPT_NULL⟩
            = (LEPT_PARSE_NUMBER_TOO_BIG, { json := s1 }, ⟨(L.strtod s1 errno).1, LEPT_NULL⟩,
              (L.strtod s1 errno).2) := by
          simp only [lept_parse_number, hloop, hbad]
          rw [if_neg (by simp), if_pos ((strtodOverflows_iff L _ _).2 ho)]
        rw [hnum] at hval
        rw [parse_of_value L errno v _ hval]
        simp [hbad, ho]
      · have hnum : lept_parse_number L errno { json := s1 } ⟨v.n, LEPT_NULL⟩
            = (LEPT_PARSE_OK, { json := p }, ⟨(L.strtod s1 errno).1, LEPT_NUMBER⟩,
              (L.strtod s1 errno).2) := by
          simp only [lept_parse_number, hloop, hbad]
          rw [if_neg (by simp), if_neg (fun h => ho ((strtodOverflows_iff L _ _).1 h))]
        rw [hnum] at hval
        rw [parse_of_value L errno v _ hval]
        simp [hbad, ho]

/-- The driver on whitespace and then a text that begins with a literal's first
character: the result does not depend on `errno` or on the value before the
call, except that the payload is carried over. -/
theorem parse_literal_start (L : Libc) {w : List Char} (hw : WhitespaceRun w) (l0 : Char)
    (ls rest : List Char) (type : lept_type)
    (hlit : (l0 :: ls = ['t', 'r', 'u', 'e'] ∧ type = LEPT_TRUE) ∨
      (l0 :: ls = ['f', 'a', 'l', 's', 'e'] ∧ type = LEPT_FALSE) ∨
      (l0 :: ls = ['n', 'u', 'l', 'l'] ∧ type = LEPT_NULL)) :
    (∃ code, code ≠ LEPT_PARSE_OK ∧ code ≠ LEPT_PARSE_NUMBER_TOO_BIG ∧
      ∀ errno v, lept_parse L errno v (w ++ l0 :: rest) = some (code, ⟨v.n, LEPT_NULL⟩, errno)) ∨
    (type ≠ LEPT_NUMBER ∧
      ∀ errno v, lept_parse L errno v (w ++ l0 :: rest) = some (LEPT_PARSE_OK, ⟨v.n, type⟩, errno)) := by
  have hlit1 : l0 :: ls = ['t', 'r', 'u', 'e'] ∨ l0 :: ls = ['f', 'a', 'l', 's', 'e'] ∨
      l0 :: ls = ['n', 'u', 'l', 'l'] := by
    rcases hlit with ⟨h, _⟩ | ⟨h, _⟩ | ⟨h, _⟩
    · exact Or.inl h
    · exact Or.inr (Or.inl h)
    · exact Or.inr (Or.inr h)
  have htype : type ≠ LEPT_NUMBER := by
    rcases hlit with ⟨_, h⟩ | ⟨_, h⟩ | ⟨_, h⟩ <;> rw [h] <;> simp
  by_cases hpre : ∃ t, rest = ls ++ t
  · obtain ⟨t, rfl⟩ := hpre
    have hp : ∀ errno v, lept_parse L errno v (w ++ l0 :: (ls ++ t)) =
        if deref (lept_parse_whitespace_loop t) != '\x00' then
          some (LEPT_PARSE_ROOT_NOT_SINGULAR, ⟨v.n, LEPT_NULL⟩, errno)
        else some (LEPT_PARSE_OK, ⟨v.n, type⟩, errno) := by
      intro errno v
      exact parse_literal_text L errno v hw (l0 :: ls) type t hlit
    by_cases htr : (deref (lept_parse_whitespace_loop t) != '\x00') = true
    · left
      refine ⟨LEPT_PARSE_ROOT_NOT_SINGULAR, by simp, by simp, fun errno v => ?_⟩
      rw [hp, if_pos htr]
    · right
      refine ⟨htype, fun errno v => ?_⟩
      rw [hp, if_neg htr]
  · left
    exact ⟨LEPT_PARSE_INVALID_VALUE, by simp, by simp,
      fun errno v => parse_literal_mismatch L errno v hw l0 ls rest hlit1 hpre⟩

/-- The accepting states are those the test after the loop lets through. -/
theorem accepting_of_not_rejected {s1 p : List Char} {st : Nat}
    (hloop : lept_parse_number_loop 1 s1 = .ok (st, p))
    (hbad : ¬ (1 == st || 2 == st || 5 == st || 7 == st || 8 == st) = true) :
    st = 3 ∨ st = 4 ∨ st = 6 ∨ st = 9 := by
  have hr := number_loop_range s1 1 st p hloop (by omega)
  simp only [Bool.or_eq_true, beq_iff_eq, not_or] at hbad
  omega

/-- The three shapes of `lept_parse` as a function of `errno` and of the value
before the call, for a given text: a failure other than
`LEPT_PARSE_NUMBER_TOO_BIG` that only resets the tag; a literal; a number
literal, where the library's `strtod` decides. -/
theorem parse_uniform (L : Libc) (s : List Char) :
    (∃ code, code ≠ LEPT_PARSE_OK ∧ code ≠ LEPT_PARSE_NUMBER_TOO_BIG ∧
      ∀ errno v, lept_parse L errno v s = some (code, ⟨v.n, LEPT_NULL⟩, errno)) ∨
    (∃ type, type ≠ LEPT_NUMBER ∧
      ∀ errno v, lept_parse L errno v s = some (LEPT_PARSE_OK, ⟨v.n, type⟩, errno)) ∨
    (∃ V t, lept_parse_whitespace_loop s = V ++ t ∧ JsonNumber V ∧ AtTerminator t ∧
      ∀ errno v, lept_parse L errno v s =
        if StrtodOverflows L (V ++ t) errno then
          some (LEPT_PARSE_NUMBER_TOO_BIG, ⟨(L.strtod (V ++ t) errno).1, LEPT_NULL⟩,
            (L.strtod (V ++ t) errno).2)
        else if deref (lept_parse_whitespace_loop t) != '\x00' then
          some (LEPT_PARSE_ROOT_NOT_SINGULAR, ⟨(L.strtod (V ++ t) errno).1, LEPT_NULL⟩,
            (L.strtod (V ++ t) errno).2)
        else
          some (LEPT_PARSE_OK, ⟨(L.strtod (V ++ t) errno).1, LEPT_NUMBER⟩,
            (L.strtod (V ++ t) errno).2)) := by
  obtain ⟨w, hw, hsplit, hstop⟩ := whitespace_loop_split s
  cases hs1 : lept_parse_whitespace_loop s with
  | nil =>
    left
    refine ⟨LEPT_PARSE_EXPECT_VALUE, by simp, by simp, fun errno v => ?_⟩
    rw [hs1] at hsplit
    rw [hsplit]
    exact parse_expect_text L errno v hw rfl
  | cons ch rest =>
    have hnw : ¬ IsWhitespace ch := hstop ch rest hs1
    rw [hs1] at hsplit
    by_cases h0 : ch = '\x00'
    · left
      refine ⟨LEPT_PARSE_EXPECT_VALUE, by simp, by simp, fun errno v => ?_⟩
      rw [hsplit]
      exact parse_expect_text L errno v hw (by rw [h0]; rfl)
    by_cases ht : ch = 't'
    · rcases parse_literal_start L hw 't' ['r', 'u', 'e'] rest LEPT_TRUE (Or.inl ⟨rfl, rfl⟩) with
        ⟨code, h1, h2, hp⟩ | ⟨h1, hp⟩
      · exact Or.inl ⟨code, h1, h2, fun errno v => by rw [hsplit, ht]; exact hp errno v⟩
      · exact Or.inr (Or.inl ⟨_, h1, fun errno v => by rw [hsplit, ht]; exact hp errno v⟩)
    by_cases hf : ch = 'f'
    · rcases parse_literal_start L hw 'f' ['a', 'l', 's', 'e'] rest LEPT_FALSE
        (Or.inr (Or.inl ⟨rfl, rfl⟩)) with ⟨code, h1, h2, hp⟩ | ⟨h1, hp⟩
      · exact Or.inl ⟨code, h1, h2, fun errno v => by rw [hsplit, hf]; exact hp errno v⟩
      · exact Or.inr (Or.inl ⟨_, h1, fun errno v => by rw [hsplit, hf]; exact hp errno v⟩)
    by_cases hn : ch = 'n'
    · rcases parse_literal_start L hw 'n' ['u', 'l', 'l'] rest LEPT_NULL
        (Or.inr (Or.inr ⟨rfl, rfl⟩)) with ⟨code, h1, h2, hp⟩ | ⟨h1, hp⟩
      · exact Or.inl ⟨code, h1, h2, fun errno v => by rw [hsplit, hn]; exact hp errno v⟩
      · exact Or.inr (Or.inl ⟨_, h1, fun errno v => by rw [hsplit, hn]; exact hp errno v⟩)
    have hscan := fun errno v =>
      parse_number_scan_text L errno v hw (rfl : ch :: rest = ch :: rest) ht hf hn h0 hnw
    cases hloop : lept_parse_number_loop 1 (ch :: rest) with
    | error code =>
      left
      refine ⟨code, ?_, ?_, fun errno v => ?_⟩
      · rcases number_loop_error _ _ _ hloop with rfl | rfl <;> simp
      · rcases number_loop_error _ _ _ hloop with rfl | rfl <;> simp
      · rw [hsplit, hscan, hloop]
    | ok res =>
      obtain ⟨st, p⟩ := res
      by_cases hbad : (1 == st || 2 == st || 5 == st || 7 == st || 8 == st) = true
      · left
        refine ⟨LEPT_PARSE_INVALID_VALUE, by simp, by simp, fun errno v => ?_⟩
        rw [hsplit, hscan, hloop]
        simp only [hbad, if_true]
      · right
        right
        obtain ⟨V, hV1, hV, hp⟩ := number_loop_sound _ 1 st p hloop
          (accepting_of_not_rejected hloop hbad)
        refine ⟨V, p, hV1, hV, hp, fun errno v => ?_⟩
        rw [hsplit, hscan, hloop]
        simp only [hbad]
        rw [if_neg (by simp), hV1]

/-! ## The reference C library meets the contract of `strtod` -/

theorem exponent_of_huge {x : Double}
    (h : HUGE_VAL.ceq x = true ∨ HUGE_VAL.neg.ceq x = true) : x.exponent = 2047 := by
  rcases h with h | h
  · simp only [Double.ceq, Double.isZero, HUGE_VAL, Bool.and_eq_true, Bool.or_eq_true,
      decide_eq_true_eq] at h
    rcases h.2 with h1 | h1
    · simp at h1
    · rw [← h1]
  · simp only [Double.ceq, Double.isZero, Double.neg, HUGE_VAL, Bool.and_eq_true,
      Bool.or_eq_true, decide_eq_true_eq] at h
    rcases h.2 with h1 | h1
    · simp at h1
    · rw [← h1]

/-- The rounding returns an infinity only with the range-error flag. -/
theorem roundBinary64_huge (neg : Bool) (a b : Nat)
    (h : (roundBinary64 neg a b).1.exponent = 2047) : (roundBinary64 neg a b).2 = true := by
  unfold roundBinary64 at h ⊢
  by_cases ha : a = 0
  · simp [ha] at h
  · simp only [ha, if_false] at h ⊢
    split_ifs at h ⊢ <;> first | rfl | (exfalso; dsimp only at h; omega)

theorem strtod_ref_value (nptr : List Char) (e1 e2 : Int) :
    (strtod_ref nptr e1).1 = (strtod_ref nptr e2).1 := by
  unfold strtod_ref
  cases scanDecimal nptr <;> rfl

theorem strtod_ref_huge (nptr : List Char) (e : Int)
    (h : HUGE_VAL.ceq (strtod_ref nptr e).1 = true ∨
      HUGE_VAL.neg.ceq (strtod_ref nptr e).1 = true) :
    (strtod_ref nptr e).2 = 34 := by
  have hexp := exponent_of_huge h
  unfold strtod_ref at hexp ⊢
  cases hd : scanDecimal nptr with
  | none =>
    rw [hd] at hexp
    simp at hexp
  | some d =>
    rw [hd] at hexp
    simp only at hexp ⊢
    have := roundBinary64_huge _ _ _ hexp
    rw [Decimal.toDouble, this]
    rfl

theorem libc_ref_value_ignores_errno : StrtodValueIgnoresErrno libc_ref :=
  fun V t e1 e2 _ _ => strtod_ref_value (V ++ t) e1 e2

theorem libc_ref_huge_stores_erange : StrtodHugeStoresErange libc_ref :=
  fun V t e _ _ h => strtod_ref_huge (V ++ t) e h

/-- C13: with a `strtod` that meets the C standard's contract (its result does
not depend on `errno` on entry, and it returns plus or minus `HUGE_VAL` only
together with storing `ERANGE`), `lept_parse` is a function of the text alone:
for every text, two calls, whatever `errno` and the value hold before each,
return the same code and the same value as seen through `lept_get_type` and
`lept_get_number`; the values are equal field by field when the payload fields
were equal before the calls. -/
theorem C13_parse_is_pure (L : Libc) (hval : StrtodValueIgnoresErrno L)
    (hrange : StrtodHugeStoresErange L) (s : List Char) (errno1 errno2 : Int)
    (v1 v2 : lept_value) :
    ∃ code r1 r2 f1 f2,
      lept_parse L errno1 v1 s = some (code, r1, f1) ∧
      lept_parse L errno2 v2 s = some (code, r2, f2) ∧
      lept_get_type r1 = lept_get_type r2 ∧
      lept_get_number r1 = lept_get_number r2 ∧
      (v1.n = v2.n → r1 = r2) := by
  rcases parse_uniform L s with ⟨code, _, _, hp⟩ | ⟨type, htype, hp⟩ | ⟨V, t, _, hV, ht, hp⟩
  · refine ⟨code, _, _, _, _, hp errno1 v1, hp errno2 v2, rfl, rfl, fun h => ?_⟩
    rw [h]
  · refine ⟨LEPT_PARSE_OK, _, _, _, _, hp errno1 v1, hp errno2 v2, rfl, ?_, fun h => ?_⟩
    · simp [lept_get_number, htype]
    · rw [h]
  · have hx : (L.strtod (V ++ t) errno1).1 = (L.strtod (V ++ t) errno2).1 :=
      hval V t errno1 errno2 hV ht
    have hov : ∀ e, StrtodOverflows L (V ++ t) e ↔
        (HUGE_VAL.ceq (L.strtod (V ++ t) e).1 = true ∨
          HUGE_VAL.neg.ceq (L.strtod (V ++ t) e).1 = true) :=
      fun e => ⟨fun h => h.2, fun h => ⟨hrange V t e hV ht h, h⟩⟩
    have hsame : StrtodOverflows L (V ++ t) errno1 ↔ StrtodOverflows L (V ++ t) errno2 := by
      rw [hov, hov, hx]
    by_cases ho : StrtodOverflows L (V ++ t) errno1
    · have h1 := hp errno1 v1
      have h2 := hp errno2 v2
      rw [if_pos ho] at h1
      rw [if_pos (hsame.1 ho)] at h2
      exact ⟨_, _, _, _, _, h1, h2, rfl, rfl, fun _ => by rw [hx]⟩
    · have h1 := hp errno1 v1
      have h2 := hp errno2 v2
      rw [if_neg ho] at h1
      rw [if_neg (fun h => ho (hsame.2 h))] at h2
      by_cases htr : (deref (lept_parse_whitespace_loop t) != '\x00') = true
      · rw [if_pos htr] at h1 h2
        exact ⟨_, _, _, _, _, h1, h2, rfl, rfl, fun _ => by rw [hx]⟩
      · rw [if_neg htr] at h1 h2
        refine ⟨_, _, _, _, _, h1, h2, rfl, ?_, fun _ => by rw [hx]⟩
        simp [lept_get_number, hx]

/-- C13 at the text `1.5` with the reference C library, once with `errno` at
`ERANGE` (34) on entry and once with `errno` at zero. -/
theorem C13_parse_is_pure_witness :
    ∃ code r1 r2 f1 f2,
      lept_parse libc_ref 34 ⟨⟨false, 0, 0⟩, LEPT_TRUE⟩ ['1', '.', '5'] = some (code, r1, f1) ∧
      lept_parse libc_ref 0 ⟨⟨true, 5, 7⟩, LEPT_NUMBER⟩ ['1', '.', '5'] = some (code, r2, f2) ∧
      lept_get_type r1 = lept_get_type r2 ∧
      lept_get_number r1 = lept_get_number r2 ∧
      ((⟨⟨false, 0, 0⟩, LEPT_TRUE⟩ : lept_value).n = (⟨⟨true, 5, 7⟩, LEPT_NUMBER⟩ : lept_value).n →
        r1 = r2) :=
  C13_parse_is_pure libc_ref libc_ref_value_ignores_errno libc_ref_huge_stores_erange
    ['1', '.', '5'] 34 0 ⟨⟨false, 0, 0⟩, LEPT_TRUE⟩ ⟨⟨true, 5, 7⟩, LEPT_NUMBER⟩

/-! ## Whitespace after the text -/

/-- Appending a whitespace run to the text does not change where the number
scan stops or what it returns. -/
theorem number_loop_append_whitespace {w2 : List Char} (hw2 : WhitespaceRun w2) :
    ∀ (s : List Char) (st : Nat),
      lept_parse_number_loop st (s ++ w2) =
        match lept_parse_number_loop st s with
        | .error code => .error code
        | .ok (st1, p) => .ok (st1, p ++ w2)
  | [], st => by
    have hterm : AtTerminator w2 := by
      cases w2 with
      | nil => exact Or.inl rfl
      | cons x r => exact Or.inr ⟨x, r, rfl, Or.inr (hw2 x (List.mem_cons_self _ _))⟩
    rw [List.nil_append, number_loop_stop st hterm]
    rfl
  | ch :: p, st => by
    rw [List.cons_append, lept_parse_number_loop, lept_parse_number_loop]
    split_ifs with hb
    · rfl
    · cases hsw : lept_parse_number_switch st ch with
      | error code => rfl
      | ok st2 => exact number_loop_append_whitespace hw2 p st2

/-- Appending a whitespace run to what follows the value does not change the
driver's final test. -/
theorem trailing_append_whitespace {w2 : List Char} (hw2 : WhitespaceRun w2) :
    ∀ t : List Char, deref (lept_parse_whitespace_loop (t ++ w2))
      = deref (lept_parse_whitespace_loop t)
  | [] => by
    have := whitespace_loop_append hw2 []
    rw [List.append_nil] at this
    rw [List.nil_append, this]
  | ch :: p => by
    rw [List.cons_append, lept_parse_whitespace_loop, lept_parse_whitespace_loop]
    split_ifs with hb
    · exact trailing_append_whitespace hw2 p
    · rfl

/-- If a text followed by a whitespace run begins with characters none of
which is whitespace, the text itself begins with them. -/
theorem begins_of_append_whitespace {w2 : List Char} (hw2 : WhitespaceRun w2) :
    ∀ (ls rest t : List Char), (∀ l ∈ ls, ¬ IsWhitespace l) → rest ++ w2 = ls ++ t →
      ∃ t1, rest = ls ++ t1
  | [], rest, _, _, _ => ⟨rest, rfl⟩
  | l :: ls, [], t, hls, h => by
    exfalso
    rw [List.nil_append] at h
    have hl : l ∈ w2 := by rw [h]; simp
    exact hls l (List.mem_cons_self _ _) (hw2 l hl)
  | l :: ls, x :: rest, t, hls, h => by
    rw [List.cons_append, List.cons_append] at h
    obtain ⟨hx, hrest⟩ := List.cons.inj h
    obtain ⟨t1, ht1⟩ := begins_of_append_whitespace hw2 ls rest t
      (fun y hy => hls y (List.mem_cons_of_mem _ hy)) hrest
    exact ⟨t1, by rw [hx, ht1]; rfl⟩

theorem atTerminator_append_whitespace {p w2 : List Char} (hp : AtTerminator p)
    (hw2 : WhitespaceRun w2) : AtTerminator (p ++ w2) := by
  rcases hp with rfl | ⟨ch, r, rfl, h⟩
  · cases w2 with
    | nil => exact Or.inl rfl
    | cons x r => exact Or.inr ⟨x, r, rfl, Or.inr (hw2 x (List.mem_cons_self _ _))⟩
  · exact Or.inr ⟨ch, r ++ w2, rfl, h⟩

/-- C16: with a `strtod` that meets the C standard's contract (it converts the
number at the front of the text and ignores what follows it), parsing is
invariant under whitespace padding: for every text `s` and all whitespace runs
`w1` and `w2`, `lept_parse` on `w1 ++ s ++ w2` returns the same code and the
same value (and leaves the same `errno`) as on `s`. -/
theorem C16_whitespace_padding (L : Libc) (hL : StrtodStopsAtTerminator L) (errno : Int)
    (v : lept_value) (s w1 w2 : List Char) (hw1 : WhitespaceRun w1) (hw2 : WhitespaceRun w2) :
    lept_parse L errno v (w1 ++ s ++ w2) = lept_parse L errno v s := by
  obtain ⟨w, hw, hsplit, hstop⟩ := whitespace_loop_split s
  have hww : WhitespaceRun (w1 ++ w) := by
    intro x hx
    rcases List.mem_append.1 hx with h | h
    · exact hw1 x h
    · exact hw x h
  cases hs1 : lept_parse_whitespace_loop s with
  | nil =>
    rw [hs1, List.append_nil] at hsplit
    have hall : WhitespaceRun (w1 ++ s ++ w2) := by
      intro x hx
      rw [hsplit] at hx
      rcases List.mem_append.1 hx with h | h
      · exact hww x h
      · exact hw2 x h
    have h1 := @parse_expect_text L errno v (w1 ++ s ++ w2) [] hall rfl
    have h2 := @parse_expect_text L errno v w [] hw rfl
    rw [List.append_nil] at h1 h2
    rw [h1, hsplit, h2]
  | cons ch rest =>
    have hnw : ¬ IsWhitespace ch := hstop ch rest hs1
    rw [hs1] at hsplit
    have hpad : w1 ++ s ++ w2 = (w1 ++ w) ++ ch :: (rest ++ w2) := by
      rw [hsplit]
      simp
    have hlitcase : ∀ (l0 : Char) (ls : List Char) (type : lept_type), ch = l0 →
        ((l0 :: ls = ['t', 'r', 'u', 'e'] ∧ type = LEPT_TRUE) ∨
          (l0 :: ls = ['f', 'a', 'l', 's', 'e'] ∧ type = LEPT_FALSE) ∨
          (l0 :: ls = ['n', 'u', 'l', 'l'] ∧ type = LEPT_NULL)) →
        lept_parse L errno v (w1 ++ s ++ w2) = lept_parse L errno v s := by
      intro l0 ls type hch hlit
      have hlit1 : l0 :: ls = ['t', 'r', 'u', 'e'] ∨ l0 :: ls = ['f', 'a', 'l', 's', 'e'] ∨
          l0 :: ls = ['n', 'u', 'l', 'l'] := by
        rcases hlit with ⟨h, _⟩ | ⟨h, _⟩ | ⟨h, _⟩
        · exact Or.inl h
        · exact Or.inr (Or.inl h)
        · exact Or.inr (Or.inr h)
      have hls : ∀ l ∈ ls, ¬ IsWhitespace l := by
        rcases hlit1 with h | h | h <;> cases h <;> simp [IsWhitespace]
      rw [hpad, hsplit, hch]
      by_cases hpre : ∃ t, rest = ls ++ t
      · obtain ⟨t, rfl⟩ := hpre
        have h1 := parse_literal_text L errno v hww (l0 :: ls) type (t ++ w2) hlit
        have h2 := parse_literal_text L errno v hw (l0 :: ls) type t hlit
        rw [trailing_append_whitespace hw2] at h1
        simp only [List.cons_append, List.append_assoc] at h1 h2 ⊢
        rw [h1, h2]
      · have hpre2 : ¬ ∃ t, rest ++ w2 = ls ++ t := by
          rintro ⟨t, ht⟩
          exact hpre (begins_of_append_whitespace hw2 ls rest t hls ht)
        rw [parse_literal_mismatch L errno v hww l0 ls (rest ++ w2) hlit1 hpre2,
          parse_literal_mismatch L errno v hw l0 ls rest hlit1 hpre]
    by_cases h0 : ch = '\x00'
    · rw [hpad, hsplit, parse_expect_text L errno v hww (by rw [h0]; rfl),
        parse_expect_text L errno v hw (by rw [h0]; rfl)]
    by_cases ht : ch = 't'
    · exact hlitcase 't' ['r', 'u', 'e'] LEPT_TRUE ht (Or.inl ⟨rfl, rfl⟩)
    by_cases hf : ch = 'f'
    · exact hlitcase 'f' ['a', 'l', 's', 'e'] LEPT_FALSE hf (Or.inr (Or.inl ⟨rfl, rfl⟩))
    by_cases hn : ch = 'n'
    · exact hlitcase 'n' ['u', 'l', 'l'] LEPT_NULL hn (Or.inr (Or.inr ⟨rfl, rfl⟩))
    have h1 := parse_number_scan_text L errno v hww
      (rfl : ch :: (rest ++ w2) = ch :: (rest ++ w2)) ht hf hn h0 hnw
    have h2 := parse_number_scan_text L errno v hw (rfl : ch :: rest = ch :: rest) ht hf hn h0 hnw
    have hloop := number_loop_append_whitespace hw2 (ch :: rest) 1
    rw [List.cons_append] at hloop
    rw [hpad, hsplit, h1, h2, hloop]
    cases hl : lept_parse_number_loop 1 (ch :: rest) with
    | error code => rfl
    | ok res =>
      obtain ⟨st, p⟩ := res
      by_cases hbad : (1 == st || 2 == st || 5 == st || 7 == st || 8 == st) = true
      · simp only [hbad, if_true]
      · obtain ⟨V, hV1, hV, hp⟩ := number_loop_sound _ 1 st p hl
          (accepting_of_not_rejected hl hbad)
        have hV2 : ch :: (rest ++ w2) = V ++ (p ++ w2) := by
          rw [← List.cons_append, hV1, List.append_assoc]
        have hstr : L.strtod (ch :: (rest ++ w2)) errno = L.strtod (ch :: rest) errno := by
          rw [hV2, hV1]
          exact hL V (p ++ w2) p errno hV (atTerminator_append_whitespace hp hw2) hp
        have hov : StrtodOverflows L (ch :: (rest ++ w2)) errno ↔
            StrtodOverflows L (ch :: rest) errno := by
          simp only [StrtodOverflows, hstr]
        simp only [hbad, hstr, hov, trailing_append_whitespace hw2 p]

/-! ## The reference `strtod` stops at the terminator -/

theorem takeDigits_append {ds : List Char} (hds : Digits ds) (t : List Char)
    (ht : ∀ c r, t = c :: r → ISDIGIT c = false) : takeDigits (ds ++ t) = (ds, t) := by
  induction ds with
  | nil =>
    cases t with
    | nil => rfl
    | cons c r =>
      rw [List.nil_append, takeDigits, if_neg]
      rw [ht c r rfl]
      simp
  | cons x ds ih =>
    have hx : ISDIGIT x = true := (ISDIGIT_iff x).2 hds.head_isDigit
    rw [List.cons_append, takeDigits, if_pos hx, ih hds.tail]

theorem not_digit_of_terminator {t : List Char} (ht : AtTerminator t) :
    ∀ c r, t = c :: r → ISDIGIT c = false := by
  intro c r hc
  rcases ht with rfl | ⟨ch, r1, rfl, h0 | hw⟩
  · cases hc
  · cases hc
    rw [h0]
    rfl
  · cases hc
    rcases hw with rfl | rfl | rfl | rfl <;> rfl

theorem scanExponent_not_marker {e : Char} (r : List Char) (h1 : e ≠ 'e') (h2 : e ≠ 'E') :
    scanExponent (e :: r) = 0 := by
  unfold scanExponent
  split <;> simp_all

theorem scanExponent_terminator {t : List Char} (ht : AtTerminator t) : scanExponent t = 0 := by
  rcases ht with rfl | ⟨ch, r1, rfl, h0 | hw⟩
  · rfl
  · exact scanExponent_not_marker r1 (by rw [h0]; decide) (by rw [h0]; decide)
  · apply scanExponent_not_marker r1 <;> rcases hw with rfl | rfl | rfl | rfl <;> decide

theorem scanExponent_digit {x : Char} (hx : IsDigit x) (e : Char) (p : List Char) :
    scanExponent (e :: x :: p) =
      if (e == 'e' || e == 'E') && (takeDigits (x :: p)).1 != [] then
        (natOfDigits (takeDigits (x :: p)).1 : Int)
      else 0 := by
  simp only [IsDigit, List.mem_cons, List.not_mem_nil, or_false] at hx
  rcases hx with rfl | rfl | rfl | rfl | rfl | rfl | rfl | rfl | rfl | rfl <;> rfl

/-- The exponent the scanner reads does not depend on what follows an
exponent part from a terminator on. -/
theorem scanExponent_expPart {d : List Char} (hd : IsExpPart d) {t : List Char}
    (ht : ∀ c r, t = c :: r → ISDIGIT c = false) :
    scanExponent (d ++ t) = scanExponent d := by
  obtain ⟨e, sg, ds, rfl, _, hsg, hne, hds⟩ := hd
  have h1 := takeDigits_append hds t ht
  have h2 := takeDigits_append hds [] (fun _ _ h => by cases h)
  rw [List.append_nil] at h2
  rcases hsg with rfl | rfl | rfl
  · obtain ⟨x, ds1, rfl⟩ := List.exists_cons_of_ne_nil hne
    have e1 : (e :: ([] ++ x :: ds1)) ++ t = e :: x :: (ds1 ++ t) := rfl
    have e2 : (e :: ([] ++ x :: ds1)) = e :: x :: ds1 := rfl
    rw [e1, e2, scanExponent_digit hds.head_isDigit, scanExponent_digit hds.head_isDigit]
    rw [← List.cons_append, h1, h2]
  · have e1 : (e :: (['+'] ++ ds)) ++ t = e :: '+' :: (ds ++ t) := rfl
    have e2 : (e :: (['+'] ++ ds)) = e :: '+' :: ds := rfl
    rw [e1, e2]
    simp only [scanExponent, h1, h2]
  · have e1 : (e :: (['-'] ++ ds)) ++ t = e :: '-' :: (ds ++ t) := rfl
    have e2 : (e :: (['-'] ++ ds)) = e :: '-' :: ds := rfl
    rw [e1, e2]
    simp only [scanExponent, h1, h2]

theorem scanExponent_exp {d : List Char} (hd : IsExp d) {t : List Char} (ht : AtTerminator t) :
    scanExponent (d ++ t) = scanExponent d := by
  rcases hd with rfl | hd
  · rw [List.nil_append, scanExponent_terminator ht]
    rfl
  · exact scanExponent_expPart hd (not_digit_of_terminator ht)

theorem IsInt.digits {b : List Char} (hb : IsInt b) : Digits b ∧ b ≠ [] := by
  rcases hb with rfl | ⟨x, ds, rfl, hx, hds⟩
  · exact ⟨by simp [Digits, IsDigit], by simp⟩
  · exact ⟨Digits.cons hx.isDigit hds, by simp⟩

/-- What follows the integer part in a literal and its terminator does not
begin with a digit, and begins with `.` only when there is a fraction part. -/
theorem after_int_head {c d t : List Char} (hc : IsFrac c) (hd : IsExp d) (ht : AtTerminator t) :
    (∀ x r, c ++ (d ++ t) = x :: r → ISDIGIT x = false) ∧
      (c = [] → ∀ r, d ++ t ≠ '.' :: r) := by
  constructor
  · intro x r hx
    rcases hc with rfl | ⟨ds, rfl, _, _⟩
    · rcases hd with rfl | ⟨e, sg, ds, rfl, he, _, _, _⟩
      · exact not_digit_of_terminator ht x r hx
      · cases hx
        rcases he with rfl | rfl <;> rfl
    · cases hx
      rfl
  · intro _ r hr
    rcases hd with rfl | ⟨e, sg, ds, rfl, he, _, _, _⟩
    · rcases ht with rfl | ⟨ch, r1, rfl, h0 | hw⟩
      · cases hr
      · cases hr
        exact absurd h0 (by decide)
      · cases hr
        simp [IsWhitespace] at hw
    · cases hr
      rcases he with he | he <;> exact absurd he (by decide)

/-- The unsigned constant the scanner reads at the front of a literal does
not depend on what follows the literal from a terminator on. -/
theorem scanUnsigned_literal {b c d : List Char} (hb : IsInt b) (hc : IsFrac c) (hd : IsExp d)
    {t : List Char} (ht : AtTerminator t) :
    scanUnsigned (b ++ (c ++ (d ++ t))) = scanUnsigned (b ++ (c ++ (d ++ []))) := by
  have key : ∀ t : List Char, AtTerminator t →
      scanUnsigned (b ++ (c ++ (d ++ t))) =
        if c = [] then some (natOfDigits b, scanExponent d)
        else some (natOfDigits (b ++ c.tail), scanExponent d - (c.tail.length : Int)) := by
    intro t ht
    obtain ⟨hh1, hh2⟩ := after_int_head hc hd ht
    have htake := takeDigits_append hb.digits.1 (c ++ (d ++ t)) hh1
    have hbne : (b == []) = false := by
      cases b with
      | nil => exact absurd rfl hb.digits.2
      | cons _ _ => rfl
    unfold scanUnsigned
    rw [htake]
    rcases hc with rfl | ⟨ds, rfl, hne, hds⟩
    · simp only [List.nil_append, if_true]
      split
      · rename_i q heq
        exact absurd heq (hh2 rfl q)
      · simp only [hbne, Bool.false_eq_true, if_false, scanExponent_exp hd ht]
    · have hq := takeDigits_append hds (d ++ t) (by
        intro x r hx
        rcases hd with rfl | ⟨e, sg, ds1, rfl, he, _, _, _⟩
        · exact not_digit_of_terminator ht x r hx
        · cases hx
          rcases he with rfl | rfl <;> rfl)
      simp only [List.cons_append, hq, hbne, Bool.false_and, Bool.false_eq_true, if_false,
        List.tail_cons, scanExponent_exp hd ht]
      simp
  rw [key t ht, key [] (Or.inl rfl)]

/-- The decimal constant the reference `strtod` reads at the front of a number
literal of the grammar does not depend on what follows the literal from a
terminator on. -/
theorem scanDecimal_literal {V : List Char} (hV : JsonNumber V) {t : List Char}
    (ht : AtTerminator t) : scanDecimal (V ++ t) = scanDecimal (V ++ []) := by
  obtain ⟨a, b, c, d, rfl, ha, hb, hc, hd⟩ := hV
  have hu := scanUnsigned_literal hb hc hd ht
  simp only [List.append_assoc]
  rcases ha with rfl | rfl
  · obtain ⟨x, b1, rfl, hx⟩ : ∃ x b1, b = x :: b1 ∧ IsDigit x := by
      rcases hb with rfl | ⟨x, ds, rfl, hx, _⟩
      · exact ⟨'0', [], rfl, by simp [IsDigit]⟩
      · exact ⟨x, ds, rfl, hx.isDigit⟩
    have hstep : ∀ p : List Char, scanDecimal ([] ++ (x :: p))
        = (scanUnsigned (x :: p)).map fun r => ⟨false, r.1, r.2⟩ := by
      intro p
      simp only [IsDigit, List.mem_cons, List.not_mem_nil, or_false] at hx
      rcases hx with rfl | rfl | rfl | rfl | rfl | rfl | rfl | rfl | rfl | rfl <;> rfl
    simp only [List.cons_append] at hu ⊢
    rw [hstep, hstep, hu]
  · have hstep : ∀ p : List Char, scanDecimal (['-'] ++ p)
        = (scanUnsigned p).map fun r => ⟨true, r.1, r.2⟩ := fun p => rfl
    rw [hstep, hstep, hu]

theorem libc_ref_stops_at_terminator : StrtodStopsAtTerminator libc_ref := by
  intro V t1 t2 e hV h1 h2
  show strtod_ref (V ++ t1) e = strtod_ref (V ++ t2) e
  unfold strtod_ref
  rw [scanDecimal_literal hV h1, scanDecimal_literal hV h2]

set_option maxRecDepth 100000 in
/-- C16 at the text `1.5` padded with ` \t` and `\n`, with the reference C
library. -/
theorem C16_whitespace_padding_witness :
    lept_parse libc_ref 0 ⟨⟨false, 0, 0⟩, LEPT_TRUE⟩ ([' ', '\t'] ++ ['1', '.', '5'] ++ ['\n'])
      = lept_parse libc_ref 0 ⟨⟨false, 0, 0⟩, LEPT_TRUE⟩ ['1', '.', '5'] :=
  C16_whitespace_padding libc_ref libc_ref_stops_at_terminator 0 ⟨⟨false, 0, 0⟩, LEPT_TRUE⟩
    ['1', '.', '5'] [' ', '\t'] ['\n'] (by simp [WhitespaceRun, IsWhitespace])
    (by simp [WhitespaceRun, IsWhitespace])

/-! ## The cursor -/

theorem not_terminator_iff {ch : Char} :
    (ch == '\x00' || ch == ' ' || ch == '\t' || ch == '\n' || ch == '\r') = false ↔
      ch ≠ '\x00' ∧ ¬ IsWhitespace ch := by
  simp [IsWhitespace, not_or, and_assoc]

/-- When the scan breaks, it has gone over characters none of which is a
terminator, and stands at a terminator. -/
theorem number_loop_consumed : ∀ (s : List Char) (st st1 : Nat) (p : List Char),
    lept_parse_number_loop st s = .ok (st1, p) →
    ∃ u, s = u ++ p ∧ (∀ ch ∈ u, ch ≠ '\x00' ∧ ¬ IsWhitespace ch) ∧ AtTerminator p
  | [], st, st1, p, h => by
    simp only [lept_parse_number_loop, Except.ok.injEq, Prod.mk.injEq] at h
    obtain ⟨_, rfl⟩ := h
    exact ⟨[], rfl, fun _ hx => absurd hx (List.not_mem_nil _), Or.inl rfl⟩
  | ch :: q, st, st1, p, h => by
    rw [lept_parse_number_loop] at h
    split_ifs at h with hb
    · simp only [Except.ok.injEq, Prod.mk.injEq] at h
      obtain ⟨_, rfl⟩ := h
      exact ⟨[], rfl, fun _ hx => absurd hx (List.not_mem_nil _), atTerminator_of_break q hb⟩
    · cases hsw : lept_parse_number_switch st ch with
      | error code => rw [hsw] at h; cases h
      | ok st2 =>
        rw [hsw] at h
        obtain ⟨u, rfl, hu, hp⟩ := number_loop_consumed q st2 st1 p h
        refine ⟨ch :: u, rfl, ?_, hp⟩
        intro x hx
        rcases List.mem_cons.1 hx with rfl | hx
        · exact not_terminator_iff.1 (by simpa using hb)
        · exact hu x hx

theorem whitespaceRun_nulFree {w : List Char} (hw : WhitespaceRun w) : NulFree w := by
  intro h
  have := hw _ h
  simp [IsWhitespace] at this

/-- C18: the cursor invariant.  Each of `lept_parse_whitespace`,
`lept_parse_literal` (called, as the driver does, with one of the three
literals and the cursor at the literal's first character) and
`lept_parse_number` leaves the cursor at or after the position it was given
and not past the terminator: the text at the old cursor is `u ++` the text at
the new cursor with `u` free of NUL (a whitespace run; the literal, or its
first character when the match fails; the number scanned).
`lept_parse_number` moves the cursor only when it returns `LEPT_PARSE_OK`,
and then over characters that are neither whitespace nor NUL, to a position
that is the end of the text or holds a whitespace character or NUL. -/
theorem C18_cursor_invariant :
    (∀ c : lept_context, ∃ u, c.json = u ++ (lept_parse_whitespace c).json ∧
      WhitespaceRun u ∧ NulFree u) ∧
    (∀ (c c1 : lept_context) (v v1 : lept_value) (l0 : Char) (ls : List Char)
        (type : lept_type) (code : lept_parse_code),
      (l0 :: ls = ['t', 'r', 'u', 'e'] ∨ l0 :: ls = ['f', 'a', 'l', 's', 'e'] ∨
        l0 :: ls = ['n', 'u', 'l', 'l']) →
      deref c.json = l0 →
      lept_parse_literal c v (l0 :: ls) type = some (code, c1, v1) →
      (code = LEPT_PARSE_OK ∧ c.json = (l0 :: ls) ++ c1.json) ∨
        (code = LEPT_PARSE_INVALID_VALUE ∧ c.json = [l0] ++ c1.json)) ∧
    (∀ (L : Libc) (errno : Int) (c : lept_context) (v : lept_value),
      ((lept_parse_number L errno c v).1 ≠ LEPT_PARSE_OK →
        (lept_parse_number L errno c v).2.1 = c) ∧
      ((lept_parse_number L errno c v).1 = LEPT_PARSE_OK →
        ∃ u, c.json = u ++ (lept_parse_number L errno c v).2.1.json ∧
          (∀ ch ∈ u, ch ≠ '\x00' ∧ ¬ IsWhitespace ch) ∧
          AtTerminator (lept_parse_number L errno c v).2.1.json)) := by
  refine ⟨?_, ?_, ?_⟩
  · intro c
    obtain ⟨w, hw, hsplit, _⟩ := whitespace_loop_split c.json
    exact ⟨w, hsplit, hw, whitespaceRun_nulFree hw⟩
  · intro c c1 v v1 l0 ls type code hlit hd h
    have hn : NulFree (l0 :: ls) := by
      rcases hlit with h1 | h1 | h1 <;> cases h1 <;> simp [NulFree]
    rcases parse_literal_codes c c1 v v1 (l0 :: ls) type code h with ⟨hcode, _⟩ | ⟨hcode, _⟩
    · left
      rw [hcode] at h
      exact ⟨hcode, (parse_literal_ok c c1 v v1 l0 ls type hn h).1⟩
    · right
      refine ⟨hcode, ?_⟩
      have hl0 : l0 ≠ '\x00' := fun h0 => hn (h0 ▸ List.mem_cons_self _ _)
      cases hj : c.json with
      | nil =>
        rw [hj] at hd
        exact absurd hd.symm hl0
      | cons x r =>
        rw [hj] at hd
        have hx : x = l0 := hd
        unfold lept_parse_literal at h
        split_ifs at h with hne
        dsimp only at h
        rw [hj] at h
        cases hloop : lept_parse_literal_loop (x :: r).tail (l0 :: ls).tail 0 with
        | none =>
          rw [hloop] at h
          simp only [Option.some.injEq, Prod.mk.injEq] at h
          rw [← h.2.1, hx]
          rfl
        | some i =>
          rw [hloop] at h
          simp only [Option.some.injEq, Prod.mk.injEq] at h
          rw [hcode] at h
          exact absurd h.1 (by simp)
  · intro L errno c v
    unfold lept_parse_number
    cases hloop : lept_parse_number_loop 1 c.json with
    | error code =>
      exact ⟨fun _ => rfl, fun h => absurd h (by
        rcases number_loop_error _ _ _ hloop with rfl | rfl <;> simp)⟩
    | ok res =>
      obtain ⟨st, p⟩ := res
      dsimp only
      split_ifs with hbad ho
      · exact ⟨fun _ => rfl, fun h => absurd h (by simp)⟩
      · exact ⟨fun _ => rfl, fun h => absurd h (by simp)⟩
      · refine ⟨fun h => absurd rfl h, fun _ => ?_⟩
        exact number_loop_consumed c.json 1 st p hloop

/-! ## The reads stay within the text -/

theorem terminatorIndex_cons_of_ne {ch : Char} (h : ch ≠ '\x00') (p : List Char) :
    terminatorIndex (ch :: p) = terminatorIndex p + 1 := by
  rw [terminatorIndex, if_neg h]

theorem terminatorIndex_append {u : List Char} (hu : NulFree u) (p : List Char) :
    terminatorIndex (u ++ p) = u.length + terminatorIndex p := by
  induction u with
  | nil => simp
  | cons x u ih =>
    have hx : x ≠ '\x00' := fun h0 => hu (h0 ▸ List.mem_cons_self _ _)
    have hu1 : NulFree u := fun h0 => hu (List.mem_cons_of_mem _ h0)
    rw [List.cons_append, terminatorIndex_cons_of_ne hx, ih hu1, List.length_cons]
    omega

theorem whitespace_reads_le : ∀ (p : List Char) (i : Nat),
    i ∈ lept_parse_whitespace_reads p → i ≤ terminatorIndex p
  | [], i, h => by
    simp only [lept_parse_whitespace_reads, List.mem_singleton] at h
    omega
  | ch :: p, i, h => by
    rw [lept_parse_whitespace_reads, List.mem_cons] at h
    rcases h with rfl | h
    · exact Nat.zero_le _
    · split_ifs at h with hb
      · obtain ⟨j, hj, rfl⟩ := List.mem_map.1 h
        have hch : ch ≠ '\x00' := by
          intro h0
          rw [h0] at hb
          simp at hb
        rw [terminatorIndex_cons_of_ne hch]
        exact Nat.succ_le_succ (whitespace_reads_le p j hj)
      · cases h

theorem number_reads_le : ∀ (p : List Char) (st i : Nat),
    i ∈ lept_parse_number_reads st p → i ≤ terminatorIndex p
  | [], st, i, h => by
    simp only [lept_parse_number_reads, List.mem_singleton] at h
    omega
  | ch :: p, st, i, h => by
    rw [lept_parse_number_reads, List.mem_cons] at h
    rcases h with rfl | h
    · exact Nat.zero_le _
    · split_ifs at h with hb
      · cases h
      · have hch : ch ≠ '\x00' := (not_terminator_iff.1 (by simpa using hb)).1
        cases hsw : lept_parse_number_switch st ch with
        | error code =>
          rw [hsw] at h
          cases h
        | ok st2 =>
          rw [hsw] at h
          obtain ⟨j, hj, rfl⟩ := List.mem_map.1 h
          rw [terminatorIndex_cons_of_ne hch]
          exact Nat.succ_le_succ (number_reads_le p st2 j hj)

/-- A character that is not NUL lies before the terminator. -/
theorem succ_le_terminatorIndex : ∀ (json : List Char) (i : Nat),
    i ≤ terminatorIndex json → index json i ≠ '\x00' → i + 1 ≤ terminatorIndex json
  | [], i, _, h => by simp [index] at h
  | ch :: p, 0, _, h => by
    have hch : ch ≠ '\x00' := by simpa [index] using h
    rw [terminatorIndex_cons_of_ne hch]
    omega
  | ch :: p, i + 1, hi, h => by
    by_cases hch : ch = '\x00'
    · rw [terminatorIndex, if_pos hch] at hi
      omega
    · rw [terminatorIndex_cons_of_ne hch] at hi ⊢
      have h1 : index p i ≠ '\x00' := by simpa [index] using h
      have := succ_le_terminatorIndex p i (by omega) h1
      omega

/-- The look-ahead of the literal matcher has no length check, yet stops at
the first mismatch, and the terminator matches no character of a literal. -/
theorem literal_loop_reads_le (json : List Char) : ∀ (ls : List Char) (i j : Nat),
    NulFree ls → i ≤ terminatorIndex json →
    j ∈ lept_parse_literal_loop_reads json ls i → j ≤ terminatorIndex json
  | [], i, j, _, _, h => by simp [lept_parse_literal_loop_reads] at h
  | l :: ls, i, j, hn, hi, h => by
    rw [lept_parse_literal_loop_reads, List.mem_cons] at h
    rcases h with rfl | h
    · exact hi
    · split_ifs at h with hne
      · cases h
      · have hl : l ≠ '\x00' := fun h0 => hn (h0 ▸ List.mem_cons_self _ _)
        have hls : NulFree ls := fun h0 => hn (List.mem_cons_of_mem _ h0)
        have hidx : index json i = l := by simpa using hne
        exact literal_loop_reads_le json ls (i + 1) j hls
          (succ_le_terminatorIndex json i hi (by rw [hidx]; exact hl)) h

theorem literal_reads_le (c : lept_context) (l0 : Char) (ls : List Char)
    (hn : NulFree (l0 :: ls)) (i : Nat) (h : i ∈ lept_parse_literal_reads c (l0 :: ls)) :
    i ≤ terminatorIndex c.json := by
  rw [lept_parse_literal_reads, List.mem_cons] at h
  rcases h with rfl | h
  · exact Nat.zero_le _
  · split_ifs at h with hne
    · cases h
    · have hl : l0 ≠ '\x00' := fun h0 => hn (h0 ▸ List.mem_cons_self _ _)
      have hls : NulFree ls := fun h0 => hn (List.mem_cons_of_mem _ h0)
      have hd : deref c.json = l0 := by simpa [deref] using hne
      obtain ⟨j, hj, rfl⟩ := List.mem_map.1 h
      cases hc : c.json with
      | nil =>
        rw [hc] at hd
        exact absurd hd.symm hl
      | cons x r =>
        rw [hc] at hd hj
        have hx : x = l0 := hd
        rw [terminatorIndex_cons_of_ne (by rw [hx]; exact hl)]
        exact Nat.succ_le_succ
          (literal_loop_reads_le r ls 0 j hls (Nat.zero_le _) hj)

theorem value_reads_le (c : lept_context) (i : Nat) (h : i ∈ lept_parse_value_reads c) :
    i ≤ terminatorIndex c.json := by
  rw [lept_parse_value_reads, List.mem_cons] at h
  rcases h with rfl | h
  · exact Nat.zero_le _
  · split_ifs at h
    · exact literal_reads_le c 't' ['r', 'u', 'e'] (by simp [NulFree]) i h
    · exact literal_reads_le c 'f' ['a', 'l', 's', 'e'] (by simp [NulFree]) i h
    · exact literal_reads_le c 'n' ['u', 'l', 'l'] (by simp [NulFree]) i h
    · cases h
    · exact number_reads_le c.json 1 i h

/-- When `lept_parse_number` returns `LEPT_PARSE_OK` it has moved the cursor
over characters none of which is NUL. -/
theorem parse_number_ok_consumed (L : Libc) (errno errno2 : Int) (c c2 : lept_context)
    (v v2 : lept_value)
    (h : lept_parse_number L errno c v = (LEPT_PARSE_OK, c2, v2, errno2)) :
    ∃ V, c.json = V ++ c2.json ∧ NulFree V := by
  unfold lept_parse_number at h
  cases hloop : lept_parse_number_loop 1 c.json with
  | error code =>
    rw [hloop] at h
    simp only [Prod.mk.injEq] at h
    rcases number_loop_error _ _ _ hloop with h1 | h1 <;> rw [h1] at h <;> simp at h
  | ok res =>
    obtain ⟨st, p⟩ := res
    rw [hloop] at h
    dsimp only at h
    split_ifs at h with hbad ho
    · simp at h
    · simp at h
    · simp only [Prod.mk.injEq, true_and] at h
      obtain ⟨u, hu, hfree, _⟩ := number_loop_consumed c.json 1 st p hloop
      refine ⟨u, by rw [← h.1]; exact hu, fun h0 => (hfree _ h0).1 rfl⟩

/-- When the dispatcher returns `LEPT_PARSE_OK` it has moved the cursor over
characters none of which is NUL. -/
theorem parse_value_ok_consumed (L : Libc) (errno errno2 : Int) (c c2 : lept_context)
    (v v2 : lept_value)
    (h : lept_parse_value L errno c v = some (LEPT_PARSE_OK, c2, v2, errno2)) :
    ∃ V, c.json = V ++ c2.json ∧ NulFree V := by
  have hlit : ∀ (l0 : Char) (ls : List Char) (type : lept_type), NulFree (l0 :: ls) →
      (lept_parse_literal c v (l0 :: ls) type).map (fun r => (r.1, r.2.1, r.2.2, errno))
        = some (LEPT_PARSE_OK, c2, v2, errno2) →
      ∃ V, c.json = V ++ c2.json ∧ NulFree V := by
    intro l0 ls type hn hm
    cases hr : lept_parse_literal c v (l0 :: ls) type with
    | none => rw [hr] at hm; cases hm
    | some r =>
      obtain ⟨code, c1, v1⟩ := r
      rw [hr] at hm
      simp only [Option.map_some', Option.some.injEq, Prod.mk.injEq] at hm
      obtain ⟨rfl, rfl, rfl, _⟩ := hm
      exact ⟨l0 :: ls, (parse_literal_ok c c1 v v1 l0 ls type hn hr).1, hn⟩
  unfold lept_parse_value at h
  split_ifs at h
  · exact hlit _ _ _ (by simp [NulFree]) h
  · exact hlit _ _ _ (by simp [NulFree]) h
  · exact hlit _ _ _ (by simp [NulFree]) h
  · simp at h
  · simp only [Option.some.injEq] at h
    exact parse_number_ok_consumed L errno errno2 c c2 v v2 h

theorem position_of_split {json u : List Char} {c : lept_context} (h : json = u ++ c.json) :
    position json c = u.length := by
  rw [position, h, List.length_append]
  omega

/-- C20: every character `lept_parse` reads lies at an index no greater than
that of the terminator of the text: the whitespace and number scans stop at
the terminator, and the look-ahead `c->json[i]` of the literal matcher, which
has no length check, stops at the first mismatch, which the terminator of a
text cut short (such as `t` or `nul`) is. -/
theorem C20_reads_within_text (L : Libc) (errno : Int) (v : lept_value) (json : List Char)
    (i : Nat) (h : i ∈ lept_parse_reads L errno v json) : i ≤ terminatorIndex json := by
  obtain ⟨w, hw, hsplit, _⟩ := whitespace_loop_split json
  have hpos1 : position json (lept_parse_whitespace { json := json }) = w.length :=
    position_of_split (c := lept_parse_whitespace { json := json }) hsplit
  have hti1 : terminatorIndex json
      = w.length + terminatorIndex (lept_parse_whitespace_loop json) := by
    conv_lhs => rw [hsplit]
    exact terminatorIndex_append (whitespaceRun_nulFree hw) _
  simp only [lept_parse_reads, List.mem_append] at h
  rcases h with (h | h) | h
  · exact whitespace_reads_le json i h
  · obtain ⟨j, hj, rfl⟩ := List.mem_map.1 h
    have := value_reads_le _ j hj
    rw [hpos1, hti1]
    simp only [lept_parse_whitespace] at this
    omega
  · cases hval : lept_parse_value L errno (lept_parse_whitespace { json := json })
        { v with type := LEPT_NULL } with
    | none =>
      rw [hval] at h
      cases h
    | some r =>
      obtain ⟨ret, c2, v2, errno2⟩ := r
      rw [hval] at h
      dsimp only at h
      split_ifs at h with hret
      · rw [hret] at hval
        obtain ⟨V, hV, hfree⟩ := parse_value_ok_consumed L errno errno2 _ c2 _ v2 hval
        simp only [lept_parse_whitespace] at hV
        obtain ⟨w2, hw2, hsplit2, _⟩ := whitespace_loop_split c2.json
        have hjson : json = (w ++ V) ++ c2.json := by
          rw [List.append_assoc, ← hV]
          exact hsplit
        have hfree2 : NulFree (w ++ V) := by
          intro h0
          rcases List.mem_append.1 h0 with h1 | h1
          · exact whitespaceRun_nulFree hw h1
          · exact hfree h1
        have hpos2 : position json c2 = (w ++ V).length := position_of_split hjson
        have hti2 : terminatorIndex json = (w ++ V).length + terminatorIndex c2.json := by
          conv_lhs => rw [hjson]
          exact terminatorIndex_append hfree2 _
        have hti3 : terminatorIndex c2.json
            = w2.length + terminatorIndex (lept_parse_whitespace_loop c2.json) := by
          conv_lhs => rw [hsplit2]
          exact terminatorIndex_append (whitespaceRun_nulFree hw2) _
        rcases List.mem_append.1 h with h | h
        · obtain ⟨j, hj, rfl⟩ := List.mem_map.1 h
          have := whitespace_reads_le _ j hj
          rw [hpos2, hti2]
          omega
        · simp only [List.mem_singleton] at h
          have hpos3 : position json (lept_parse_whitespace c2) = (w ++ V ++ w2).length := by
            apply position_of_split
            simp only [lept_parse_whitespace]
            rw [List.append_assoc (w ++ V), ← hsplit2]
            exact hjson
          rw [h, hpos3, hti2, hti3, List.length_append]
          omega
      · cases h

/-- C20 at the text `nul` with the reference C library: the look-ahead of the
literal matcher reads the terminator, at index 3, and nothing after it. -/
theorem C20_reads_within_text_witness : 3 ≤ terminatorIndex ['n', 'u', 'l'] :=
  C20_reads_within_text libc_ref 0 ⟨⟨false, 0, 0⟩, LEPT_TRUE⟩ ['n', 'u', 'l'] 3 (by decide)

/-! ## Candidates that stop where more is expected -/

theorem IsExpectant.no_terminator {c : Char} (hc : IsExpectant c) :
    (c == '\x00' || c == ' ' || c == '\t' || c == '\n' || c == '\r') = false := by
  rcases hc with rfl | rfl | rfl | rfl | rfl <;> rfl

/-- On a minus sign, a decimal point, an exponent marker or a plus sign the
switch goes to no state other than 2, 5, 7 and 8. -/
theorem number_switch_expectant {st st1 : Nat} {c : Char} (hc : IsExpectant c)
    (h : lept_parse_number_switch st c = .ok st1) :
    st1 = 2 ∨ st1 = 5 ∨ st1 = 7 ∨ st1 = 8 := by
  unfold lept_parse_number_switch at h
  rcases hc with rfl | rfl | rfl | rfl | rfl <;> split at h <;>
    simp [ISDIGIT, ISDIGIT1TO9] at h <;> omega

/-- The scan of characters that are no terminators, the last of them a minus
sign, a decimal point, an exponent marker or a plus sign, and then a
terminator: the loop returns from inside, or breaks at the terminator in one
of the states 2, 5, 7 and 8. -/
theorem number_loop_expectant {c : Char} (hc : IsExpectant c) {t : List Char}
    (ht : AtTerminator t) : ∀ (Q : List Char) (st : Nat),
    (∀ ch ∈ Q, ch ≠ '\x00' ∧ ¬ IsWhitespace ch) →
    (∃ code, lept_parse_number_loop st (Q ++ c :: t) = .error code) ∨
      ∃ st1, (st1 = 2 ∨ st1 = 5 ∨ st1 = 7 ∨ st1 = 8) ∧
        lept_parse_number_loop st (Q ++ c :: t) = .ok (st1, t)
  | [], st, _ => by
    cases hsw : lept_parse_number_switch st c with
    | error code => exact Or.inl ⟨code, number_loop_step_error t hc.no_terminator hsw⟩
    | ok st1 =>
      refine Or.inr ⟨st1, number_switch_expectant hc hsw, ?_⟩
      rw [List.nil_append, number_loop_step t hc.no_terminator hsw]
      exact number_loop_stop st1 ht
  | q :: Q, st, hQ => by
    have hq := hQ q (List.mem_cons_self _ _)
    have hterm := not_terminator_of hq.1 hq.2
    cases hsw : lept_parse_number_switch st q with
    | error code => exact Or.inl ⟨code, number_loop_step_error _ hterm hsw⟩
    | ok st2 =>
      rw [List.cons_append, number_loop_step _ hterm hsw]
      exact number_loop_expectant hc ht Q st2 (fun ch h => hQ ch (List.mem_cons_of_mem _ h))

/-- When the scan from the start state returns `LEPT_PARSE_ROOT_NOT_SINGULAR`,
the text begins with a zero, optionally after a minus sign, and then a
character other than `.`, `e`, `E` and the terminators. -/
theorem number_loop_root_char {s : List Char}
    (h : lept_parse_number_loop 1 s = .error LEPT_PARSE_ROOT_NOT_SINGULAR) :
    LeadingZeroThenText s := by
  obtain ⟨u, ch, rest, hs, hch, hu⟩ := number_loop_root s 1 h
  have hu1 : u = ['0'] ∨ u = ['-', '0'] := by
    rcases hu with ⟨h3, _⟩ | ⟨h2, _⟩ | ⟨_, hu⟩
    · omega
    · omega
    · exact hu
  have h3 : lept_parse_number_loop 3 (ch :: rest) = .error LEPT_PARSE_ROOT_NOT_SINGULAR := by
    rw [hs] at h
    rcases hu1 with rfl | rfl <;> exact h
  have hnot : ∀ st, st = 5 ∨ st = 7 →
      lept_parse_number_loop st rest ≠ .error LEPT_PARSE_ROOT_NOT_SINGULAR := by
    intro st hst h5
    obtain ⟨_, _, _, _, _, hc⟩ := number_loop_root rest st h5
    rcases hc with ⟨h, _⟩ | ⟨h, _⟩ | ⟨h, _⟩ <;> omega
  obtain ⟨h0, hws⟩ := not_terminator_iff.1 hch
  have hdot : ch ≠ '.' := by
    rintro rfl
    exact hnot 5 (Or.inl rfl) h3
  have he : ch ≠ 'e' := by
    rintro rfl
    exact hnot 7 (Or.inr rfl) h3
  have hE : ch ≠ 'E' := by
    rintro rfl
    exact hnot 7 (Or.inr rfl) h3
  rcases hu1 with rfl | rfl
  · exact ⟨[], ch, rest, hs, Or.inl rfl, hdot, he, hE, h0, hws⟩
  · exact ⟨['-'], ch, rest, hs, Or.inr rfl, hdot, he, hE, h0, hws⟩

/-- The scan of a text that begins with a zero, optionally after a minus sign,
and then a character other than `.`, `e`, `E` and the terminators returns
`LEPT_PARSE_ROOT_NOT_SINGULAR` from the state after the zero. -/
theorem number_loop_leading_zero {s : List Char} (h : LeadingZeroThenText s) :
    lept_parse_number_loop 1 s = .error LEPT_PARSE_ROOT_NOT_SINGULAR := by
  obtain ⟨a, ch, rest, rfl, ha, hdot, he, hE, h0, hws⟩ := h
  obtain ⟨st, hst, hsign⟩ := number_loop_sign ha
  have h3 : lept_parse_number_loop 1 (a ++ '0' :: ch :: rest)
      = lept_parse_number_loop 3 (ch :: rest) := by
    rw [hsign]
    rcases hst with rfl | rfl <;> rfl
  have hsw : lept_parse_number_switch 3 ch = .error LEPT_PARSE_ROOT_NOT_SINGULAR := by
    simp [lept_parse_number_switch, Ne.symm hdot, Ne.symm he, Ne.symm hE]
  rw [h3]
  exact number_loop_step_error rest (not_terminator_of h0 hws) hsw

/-- Characters that are no terminators and stand before a terminator lie
within the part of the text before it. -/
theorem append_terminator_split {t : List Char} (ht : AtTerminator t) :
    ∀ (u P r : List Char), (∀ x ∈ u, x ≠ '\x00' ∧ ¬ IsWhitespace x) → P ++ t = u ++ r →
      ∃ r0, P = u ++ r0
  | [], P, _, _, _ => ⟨P, rfl⟩
  | x :: u, [], r, hu, h => by
    exfalso
    have hx := hu x (List.mem_cons_self _ _)
    rw [List.nil_append] at h
    rcases ht with rfl | ⟨ch, r1, rfl, hch⟩
    · cases h
    · rw [List.cons_append] at h
      injection h with h1 h2
      subst h1
      rcases hch with h0 | hw
      · exact hx.1 h0
      · exact hx.2 hw
  | x :: u, y :: P, r, hu, h => by
    rw [List.cons_append, List.cons_append] at h
    injection h with h1 h2
    obtain ⟨r0, hr0⟩ := append_terminator_split ht u P r
      (fun z hz => hu z (List.mem_cons_of_mem _ hz)) h2
    exact ⟨r0, by rw [h1, hr0]; rfl⟩

/-- C10, as the code has it: when the number candidate (the characters from
the first significant character, which is none of `t`, `f`, `n`, up to the
first whitespace or the end of the input) stops right after a minus sign, a
decimal point, an exponent marker `e` or `E`, or an exponent sign,
`lept_parse` returns `LEPT_PARSE_INVALID_VALUE`, unless the candidate begins
with a zero (optionally after a minus sign) that is immediately followed by a
character other than `.`, `e`, `E`: then it returns
`LEPT_PARSE_ROOT_NOT_SINGULAR`.  Either way the value's tag is `LEPT_NULL`. -/
theorem C10_candidate_end (L : Libc) (errno : Int) (v : lept_value) (w P t : List Char)
    (hw : WhitespaceRun w) (hP : NumberCandidate P) (hend : EndsExpectant P)
    (ht : AtTerminator t) :
    (¬ LeadingZeroThenText P →
        lept_parse L errno v (w ++ P ++ t)
          = some (LEPT_PARSE_INVALID_VALUE, ⟨v.n, LEPT_NULL⟩, errno)) ∧
      (LeadingZeroThenText P →
        lept_parse L errno v (w ++ P ++ t)
          = some (LEPT_PARSE_ROOT_NOT_SINGULAR, ⟨v.n, LEPT_NULL⟩, errno)) := by
  obtain ⟨hchars, x, r, hx, h1, h2, h3⟩ := hP
  have hx0 := hchars x (by rw [hx]; exact List.mem_cons_self _ _)
  have hs1 : P ++ t = x :: (r ++ t) := by rw [hx]; rfl
  constructor
  · intro hnlz
    obtain ⟨Q, c, hQ, hc⟩ := hend
    have hQc : ∀ ch ∈ Q, ch ≠ '\x00' ∧ ¬ IsWhitespace ch :=
      fun ch h => hchars ch (by rw [hQ]; exact List.mem_append_left _ h)
    have hPt : Q ++ c :: t = P ++ t := by rw [hQ]; simp
    rw [List.append_assoc]
    refine parse_number_failure L errno v hw hs1 h1 h2 h3 hx0.1 hx0.2 (by simp) ?_
    rcases number_loop_expectant hc ht Q 1 hQc with ⟨code, hloop⟩ | ⟨st1, hst1, hloop⟩
    · rw [hPt] at hloop
      rcases number_loop_error _ _ _ hloop with rfl | rfl
      · simp [lept_parse_number, hloop]
      · exfalso
        obtain ⟨a, ch, rest, hs, ha, hdot, he, hE, h0, hws⟩ := number_loop_root_char hloop
        have hu : ∀ z ∈ a ++ ['0', ch], z ≠ '\x00' ∧ ¬ IsWhitespace z := by
          intro z hz
          have hz1 : z = '-' ∨ z = '0' ∨ z = ch := by
            rcases ha with rfl | rfl <;> simp at hz <;> tauto
          rcases hz1 with rfl | rfl | rfl
          · exact ⟨by decide, by simp [IsWhitespace]⟩
          · exact ⟨by decide, by simp [IsWhitespace]⟩
          · exact ⟨h0, hws⟩
        obtain ⟨r0, hr0⟩ := append_terminator_split ht (a ++ ['0', ch]) P rest hu
          (by rw [hs]; simp)
        exact hnlz ⟨a, ch, r0, by rw [hr0]; simp, ha, hdot, he, hE, h0, hws⟩
    · rw [hPt] at hloop
      have hacc : (1 == st1 || 2 == st1 || 5 == st1 || 7 == st1 || 8 == st1) = true := by
        rcases hst1 with rfl | rfl | rfl | rfl <;> rfl
      simp only [lept_parse_number, hloop, hacc, if_true]
  · rintro ⟨a, ch, rest, hs, ha, hdot, he, hE, h0, hws⟩
    have hloop : lept_parse_number_loop 1 (P ++ t) = .error LEPT_PARSE_ROOT_NOT_SINGULAR :=
      number_loop_leading_zero
        ⟨a, ch, rest ++ t, by rw [hs]; simp, ha, hdot, he, hE, h0, hws⟩
    rw [List.append_assoc]
    refine parse_number_failure L errno v hw hs1 h1 h2 h3 hx0.1 hx0.2 (by simp) ?_
    simp [lept_parse_number, hloop]

/-- C10 at the text ` 1.5.` with the reference C library: the candidate `1.5.`
stops right after a decimal point and does not begin with a zero. -/
theorem C10_candidate_end_witness :
    lept_parse libc_ref 0 ⟨⟨false, 0, 0⟩, LEPT_TRUE⟩ ([' '] ++ ['1', '.', '5', '.'] ++ [])
      = some (LEPT_PARSE_INVALID_VALUE, ⟨⟨false, 0, 0⟩, LEPT_NULL⟩, 0) :=
  (C10_candidate_end libc_ref 0 ⟨⟨false, 0, 0⟩, LEPT_TRUE⟩ [' '] ['1', '.', '5', '.'] []
    (by simp [WhitespaceRun, IsWhitespace])
    ⟨by simp [IsWhitespace], '1', ['.', '5', '.'], rfl, by decide, by decide, by decide⟩
    ⟨['1', '.', '5'], '.', rfl, Or.inr (Or.inl rfl)⟩
    (Or.inl rfl)).1
    (by
      rintro ⟨a, ch, rest, h, ha | ha, _⟩ <;> subst ha <;> simp at h)

/-- C10 as the spec states it fails: the candidate `0-` stops right after a
minus sign, and on it the code returns `LEPT_PARSE_ROOT_NOT_SINGULAR`, not
`LEPT_PARSE_INVALID_VALUE`. -/
theorem C10_candidate_end_counterexample :
    NumberCandidate ['0', '-'] ∧ EndsExpectant ['0', '-'] ∧
      lept_parse libc_ref 0 ⟨⟨false, 0, 0⟩, LEPT_NULL⟩ ['0', '-']
        = some (LEPT_PARSE_ROOT_NOT_SINGULAR, ⟨⟨false, 0, 0⟩, LEPT_NULL⟩, 0) ∧
      ¬ ∃ v1 errno1, lept_parse libc_ref 0 ⟨⟨false, 0, 0⟩, LEPT_NULL⟩ ['0', '-']
        = some (LEPT_PARSE_INVALID_VALUE, v1, errno1) := by
  have h : lept_parse libc_ref 0 ⟨⟨false, 0, 0⟩, LEPT_NULL⟩ ['0', '-']
      = some (LEPT_PARSE_ROOT_NOT_SINGULAR, ⟨⟨false, 0, 0⟩, LEPT_NULL⟩, 0) := by decide
  refine ⟨⟨by simp [IsWhitespace], '0', ['-'], rfl, by decide, by decide, by decide⟩,
    ⟨['0'], '-', rfl, Or.inl rfl⟩, h, ?_⟩
  rintro ⟨v1, errno1, h1⟩
  rw [h] at h1
  simp at h1

end Leptjson
